import Mathlib

/-!
# Verification of the planning core of the CodeAI repository

This file gives a shallow embedding of the scheduling/planning subsystem of
the repository (`strategy_generator.py` at the repository root, and
`src/code_analysis/core/strategy_generator.py` for the class-based cycle
breaker), and proves or refutes the frozen specification claims about it.

Modelling conventions:

* Python `uuid.uuid4()[:8]` draws are modelled by an explicit supply
  `supply : Nat → String`; the n-th call to `uuid4` in a planning run uses
  `supply n`.  Real uuid prefixes are eight hex characters, in particular
  they never contain an underscore; theorems that depend on this carry the
  corresponding hypothesis.
* Python dicts are modelled as insertion-ordered association lists
  (`lookupA` / `insertA` / `pushA` below) with the exact dict semantics:
  updating an existing key keeps its position, a new key is appended.
* The grouping-refinement collaborator (`refine_groups_with_llm`) is a
  parameter `refine`; its unavailable/error behaviour (the function's own
  `except` branches return `{"common": specs}`) is `unavailableRefine`.
* `networkx` graphs are modelled by `NxGraph` (insertion-ordered node list
  plus adjacency association list).  `nx.topological_sort` /
  `nx.is_directed_acyclic_graph` are modelled by a deterministic Kahn-style
  sort (`topoSort`); the file proves it emits all nodes exactly when the
  graph is acyclic, which is the contract the source relies on.  The
  tie-break order of the sort and the enumeration order of
  `nx.strongly_connected_components` are implementation details of
  networkx that no claim depends on; the embedding fixes a deterministic
  choice (first-ready node in insertion order, components by first
  representative in insertion order).
-/

/-- Association-list lookup with Python-dict semantics (keys are unique,
so first match = the match). -/
def lookupA {κ α : Type} [DecidableEq κ] : List (κ × α) → κ → Option α
  | [], _ => none
  | (k', v) :: rest, k => if k' = k then some v else lookupA rest k

/-- Association-list insert with Python-dict semantics: an existing key keeps
its position and gets the new value; a new key is appended at the end. -/
def insertA {κ α : Type} [DecidableEq κ] : List (κ × α) → κ → α → List (κ × α)
  | [], k, v => [(k, v)]
  | (k', v') :: rest, k, v =>
    if k' = k then (k', v) :: rest else (k', v') :: insertA rest k v

/-- Python's `d.setdefault(k, []).append(v)` / `if k not in d: d[k] = []` +
`d[k].append(v)` pattern. -/
def pushA {κ α : Type} [DecidableEq κ] (m : List (κ × List α)) (k : κ) (v : α) :
    List (κ × List α) :=
  insertA m k (((lookupA m k).getD []) ++ [v])

/-- `models.Specification`, restricted to the fields the scheduler reads
(`inputs`/`outputs`/`constraints`/`behavior`/`examples` are an opaque
payload never inspected by the planning code).  A Python `dependencies`
of `None` behaves exactly like `[]` in every use site (`if spec.dependencies`
and iteration), so both are modelled as `[]`. -/
structure Specification where
  entity_name : String
  entity_type : String
  purpose : String
  dependencies : List String
deriving DecidableEq, Repr

/-- `models.ImplementationStep`. -/
structure ImplementationStep where
  id : String
  description : String
  dependencies : List String
  expected_output : String
  validation_criteria : List String
deriving DecidableEq, Repr

/-- `models.ImplementationStrategy`. -/
structure ImplementationStrategy where
  steps : List ImplementationStep
  dependencies : List (String × List String)
  execution_order : List String
deriving DecidableEq, Repr

/-- `generate_architectural_steps`: each architecture specification yields a
setup step and a components step, consuming two uuid draws. -/
def generate_architectural_steps (supply : Nat → String) :
    Nat → List Specification → List ImplementationStep × Nat
  | k, [] => ([], k)
  | k, spec :: rest =>
    let setup_step : ImplementationStep :=
      { id := "setup_" ++ supply k
        description := "Set up project structure based on " ++ spec.entity_name ++ " architecture"
        dependencies := []
        expected_output := "Project directory structure and essential configuration files"
        validation_criteria := ["Directory structure exists",
          "Configuration files are properly formatted"] }
    let components_step : ImplementationStep :=
      { id := "arch_components_" ++ supply (k + 1)
        description := "Implement core architectural components for " ++ spec.entity_name
        dependencies := ["setup_" ++ supply k]
        expected_output := "Core framework components implementing the architectural style"
        validation_criteria := ["Components match architectural description",
          "Components are properly connected"] }
    let (rest_steps, k') := generate_architectural_steps supply (k + 2) rest
    (setup_step :: components_step :: rest_steps, k')

/-- `create_entity_implementation_step` (the uuid draw is passed in). -/
def create_entity_implementation_step (spec : Specification) (uuid : String) :
    ImplementationStep :=
  let base := ["Implementation matches " ++ spec.entity_type ++ " specification",
    "Code is well-structured and commented"]
  let validation_criteria :=
    if spec.entity_type = "class" then
      base ++ ["All methods are implemented correctly",
        "Class interfaces are consistent with specification"]
    else if spec.entity_type = "function" then
      base ++ ["Function handles all specified input cases",
        "Function produces correct output"]
    else if spec.entity_type = "module" then
      base ++ ["Module exports all required functionality",
        "Module dependencies are correctly imported"]
    else base
  { id := spec.entity_type ++ "_" ++ spec.entity_name ++ "_" ++ uuid
    description := "Implement " ++ spec.entity_type ++ ": " ++ spec.entity_name
    dependencies := []
    expected_output := "Implementation of " ++ spec.entity_name ++ " " ++ spec.entity_type
    validation_criteria := validation_criteria }

/-- Substring test: Python's `needle in hay`. -/
def strContainsSub (hay needle : String) : Bool :=
  (List.range (hay.toList.length + 1)).any
    (fun i => needle.toList.isPrefixOf (hay.toList.drop i))

/-- Python's `s.startswith(p)`, via character lists (so that facts about it
on partially-symbolic strings are provable). -/
def strStarts (s p : String) : Bool := p.toList.isPrefixOf s.toList

/-- Python's `s.lower()`, via character lists (ASCII case mapping; every
string the planning code lowers in the claims below is ASCII). -/
def pyLower (s : String) : String := ⟨s.toList.map Char.toLower⟩

/-- Code-point-wise lexicographic string comparison (Python's `<=` on
`str`), over character lists. -/
def pyStrLeGo : List Char → List Char → Bool
  | [], _ => true
  | _ :: _, [] => false
  | c :: cs, d :: ds =>
    if c.val < d.val then true else if d.val < c.val then false else pyStrLeGo cs ds

/-- Python's `a <= b` on strings. -/
def pyStrLe (a b : String) : Bool := pyStrLeGo a.toList b.toList

/-- The name-affinity test of `group_related_entities` step 2:
`spec.entity_name.lower().startswith(group_name.lower()) or
group_name.lower() in spec.entity_name.lower()`. -/
def nameMatches (gname ename : String) : Bool :=
  strStarts (pyLower ename) (pyLower gname) ||
    strContainsSub (pyLower ename) (pyLower gname)

/-- Python's `s.split(sep)` for a single-character separator, over char
lists. `splitChar '_' "a__b".toList = [['a'],[],['b']]`. -/
def splitChar (sep : Char) : List Char → List (List Char)
  | [] => [[]]
  | c :: cs =>
    if c = sep then [] :: splitChar sep cs
    else
      match splitChar sep cs with
      | [] => [[c]]
      | t :: ts => (c :: t) :: ts

/-- Python's `s.split('_')`. -/
def pySplitUnd (s : String) : List String :=
  (splitChar '_' s.toList).map (fun l => ⟨l⟩)

/-- Python's `'_'.join(parts)`. -/
def pyJoinUnd : List String → String
  | [] => ""
  | [s] => s
  | s :: rest => s ++ "_" ++ pyJoinUnd rest

/-- One iteration of the per-specification assignment loop of
`group_related_entities` (steps 2-4 of the grouping algorithm). -/
def assignSpec (groups : List (String × List Specification)) (spec : Specification) :
    List (String × List Specification) :=
  match (groups.map (·.1)).find? (fun g => g ≠ "common" && nameMatches g spec.entity_name) with
  | some g => pushA groups g spec
  | none =>
    let name_parts := pySplitUnd spec.entity_name
    if name_parts.length > 1 && (name_parts.headD "").length > 3 then
      pushA groups (pyLower (name_parts.headD "")) spec
    else
      pushA groups "common" spec

/-- The refinement block of `group_related_entities`: if the common group has
more than 5 members the collaborator response is applied (non-"common" keys
replace/extend the group dict; matched specs leave "common"). -/
def refineBlock (refine : List Specification → List (String × List Specification))
    (groups : List (String × List Specification)) :
    List (String × List Specification) :=
  let common := (lookupA groups "common").getD []
  if common.length > 5 then
    let refined := refine common
    let groups1 := refined.foldl
      (fun gs p => if p.1 ≠ "common" then insertA gs p.1 p.2 else gs) groups
    let assigned := (refined.filter (fun p => p.1 ≠ "common")).flatMap (·.2)
    insertA groups1 "common" (common.filter (fun sp => decide (sp ∉ assigned)))
  else groups

/-- `group_related_entities`. -/
def group_related_entities (entity_specs : List Specification)
    (refine : List Specification → List (String × List Specification)) :
    List (String × List Specification) :=
  if entity_specs.isEmpty then []
  else
    (refineBlock refine (entity_specs.foldl assignSpec [("common", [])])).filter
      (fun p => !p.2.isEmpty)

/-- The collaborator-unavailable behaviour of `refine_groups_with_llm`: both
of its `except` branches return `{"common": specs}`. -/
def unavailableRefine : List Specification → List (String × List Specification) :=
  fun specs => [("common", specs)]

/-- Individual-step synthesis for a small group (the `else` branch of
`generate_entity_type_steps`). -/
def individualSteps (supply : Nat → String) :
    Nat → List Specification → List ImplementationStep × Nat
  | k, [] => ([], k)
  | k, sp :: rest =>
    let s := create_entity_implementation_step sp (supply k)
    let (r, k') := individualSteps supply (k + 1) rest
    (s :: r, k')

/-- The per-group loop of `generate_entity_type_steps`: groups with more than
3 members get one aggregate step, smaller groups one step per member. -/
def groupSteps (entity_type : String) (supply : Nat → String) :
    Nat → List (String × List Specification) → List ImplementationStep × Nat
  | k, [] => ([], k)
  | k, (gname, gspecs) :: rest =>
    if gspecs.length > 3 then
      let s : ImplementationStep :=
        { id := entity_type ++ "_" ++ gname ++ "_" ++ supply k
          description := "Implement " ++ entity_type ++ " group: " ++ gname
          dependencies := []
          expected_output := "Implementation of " ++ toString gspecs.length ++ " " ++
            entity_type ++ "s in the " ++ gname ++ " group"
          validation_criteria := ["All " ++ entity_type ++ "s in group are implemented",
            "Implementations match specifications",
            "Unit tests pass for all implementations"] }
      let (r, k') := groupSteps entity_type supply (k + 1) rest
      (s :: r, k')
    else
      let (ss, k1) := individualSteps supply k gspecs
      let (r, k') := groupSteps entity_type supply k1 rest
      (ss ++ r, k')

/-- `generate_entity_type_steps`. -/
def generate_entity_type_steps (entity_type : String) (entity_specs : List Specification)
    (refine : List Specification → List (String × List Specification))
    (supply : Nat → String) (k : Nat) : List ImplementationStep × Nat :=
  groupSteps entity_type supply k (group_related_entities entity_specs refine)

/-- `generate_pattern_steps`. -/
def generate_pattern_steps (supply : Nat → String) :
    Nat → List Specification → List ImplementationStep × Nat
  | k, [] => ([], k)
  | k, sp :: rest =>
    let s : ImplementationStep :=
      { id := "pattern_" ++ sp.entity_name ++ "_" ++ supply k
        description := "Implement " ++ sp.entity_name ++ " pattern"
        dependencies := []
        expected_output := "Implementation of the " ++ sp.entity_name ++ " pattern"
        validation_criteria := ["Pattern implementation matches specification",
          "Components interact correctly according to pattern",
          "Pattern implementation follows best practices"] }
    let (r, k') := generate_pattern_steps supply (k + 1) rest
    (s :: r, k')

/-- The `specs_by_type` grouping at the top of `generate_strategy`. -/
def specsByType (specs : List Specification) : List (String × List Specification) :=
  specs.foldl (fun m sp => pushA m sp.entity_type sp) []

/-- The per-entity-type loop of `generate_strategy` (step 2): returns
`entity_steps_by_type`, the flattened steps in creation order, and the next
uuid index. -/
def entityTypeLoop (refine : List Specification → List (String × List Specification))
    (supply : Nat → String) :
    Nat → List (String × List Specification) →
      List (String × List ImplementationStep) × List ImplementationStep × Nat
  | k, [] => ([], [], k)
  | k, (t, tspecs) :: rest =>
    if t = "architecture" || t = "pattern" then
      entityTypeLoop refine supply k rest
    else
      let (tsteps, k1) := generate_entity_type_steps t tspecs refine supply k
      let (m, ss, k') := entityTypeLoop refine supply k1 rest
      ((t, tsteps) :: m, tsteps ++ ss, k')

/-- A `networkx.DiGraph`: insertion-ordered node list plus adjacency
association list (successor lists in edge-insertion order). -/
structure NxGraph (α : Type) where
  nodes : List α
  adjl : List (α × List α)
deriving DecidableEq, Repr

/-- The empty graph. -/
def NxGraph.empty (α : Type) : NxGraph α := ⟨[], []⟩

/-- Successors of a node. -/
def NxGraph.succs {α : Type} [DecidableEq α] (g : NxGraph α) (u : α) : List α :=
  (lookupA g.adjl u).getD []

/-- The edge relation. -/
def NxGraph.Edge {α : Type} [DecidableEq α] (g : NxGraph α) (u v : α) : Prop :=
  v ∈ g.succs u

instance {α : Type} [DecidableEq α] (g : NxGraph α) (u v : α) :
    Decidable (g.Edge u v) := by unfold NxGraph.Edge; infer_instance

/-- `G.add_node(v)`. -/
def NxGraph.addNode {α : Type} [DecidableEq α] (g : NxGraph α) (v : α) : NxGraph α :=
  if v ∈ g.nodes then g else ⟨g.nodes ++ [v], g.adjl ++ [(v, [])]⟩

/-- `G.add_edge(u, v)` (auto-adds missing endpoints, ignores duplicates). -/
def NxGraph.addEdge {α : Type} [DecidableEq α] (g : NxGraph α) (u v : α) : NxGraph α :=
  let g := (g.addNode u).addNode v
  if v ∈ g.succs u then g else ⟨g.nodes, insertA g.adjl u (g.succs u ++ [v])⟩

/-- `G.remove_edge(u, v)` (nodes are kept). -/
def NxGraph.removeEdge {α : Type} [DecidableEq α] (g : NxGraph α) (u v : α) : NxGraph α :=
  ⟨g.nodes, insertA g.adjl u ((g.succs u).erase v)⟩

/-- Predecessors of a node, in node insertion order. -/
def NxGraph.preds {α : Type} [DecidableEq α] (g : NxGraph α) (v : α) : List α :=
  g.nodes.filter (fun u => decide (g.Edge u v))

/-- Number of edges. -/
def NxGraph.edgeCount {α : Type} [DecidableEq α] (g : NxGraph α) : Nat :=
  (g.nodes.map (fun u => (g.succs u).length)).sum

/-- One step of the Kahn-style topological sort: the first node (in insertion
order) that is not yet emitted and whose predecessors are all emitted. -/
def topoReady {α : Type} [DecidableEq α] (g : NxGraph α) (emitted : List α) : Option α :=
  g.nodes.find? (fun v => decide (v ∉ emitted) && (g.preds v).all (fun u => decide (u ∈ emitted)))

/-- Fuel-driven loop of the topological sort. -/
def topoGo {α : Type} [DecidableEq α] (g : NxGraph α) :
    Nat → List α → List α
  | 0, emitted => emitted
  | n + 1, emitted =>
    match topoReady g emitted with
    | none => emitted
    | some v => topoGo g n (emitted ++ [v])

/-- `nx.topological_sort`, as the emission sequence of the Kahn process; it
contains every node exactly once iff the graph is acyclic (proved below),
which is the only property of networkx's sort the source relies on (beyond
determinism; the tie-break order is a networkx implementation detail no
claim depends on). -/
def topoSort {α : Type} [DecidableEq α] (g : NxGraph α) : List α :=
  topoGo g g.nodes.length []

/-- `nx.is_directed_acyclic_graph`, and the success condition of
`nx.topological_sort`. -/
def isDAGb {α : Type} [DecidableEq α] (g : NxGraph α) : Bool :=
  (topoSort g).length = g.nodes.length

/-- Acyclicity: no node reaches itself through a nonempty edge path. -/
def NxGraph.Acyclic {α : Type} [DecidableEq α] (g : NxGraph α) : Prop :=
  ∀ v, ¬ Relation.TransGen g.Edge v v

/-- Add the elements of a list that are not yet present (deduplicating
breadth-first expansion step). -/
def addNew {α : Type} [DecidableEq α] : List α → List α → List α
  | acc, [] => acc
  | acc, w :: ws => if w ∈ acc then addNew acc ws else addNew (acc ++ [w]) ws

/-- One closure-expansion step for reachability. -/
def expandOnce {α : Type} [DecidableEq α] (g : NxGraph α) (acc : List α) : List α :=
  addNew acc (acc.flatMap (fun u => g.succs u))

/-- Fuel-driven reachable-set computation. -/
def reachGo {α : Type} [DecidableEq α] (g : NxGraph α) : Nat → List α → List α
  | 0, acc => acc
  | n + 1, acc => reachGo g n (expandOnce g acc)

/-- Decidable reachability (`u` reaches `v` along zero or more edges). -/
def reachB {α : Type} [DecidableEq α] (g : NxGraph α) (u v : α) : Bool :=
  decide (v ∈ reachGo g (g.nodes.length + 1) [u])

/-- Mutual reachability (the strongly-connected-component relation). -/
def mutualB {α : Type} [DecidableEq α] (g : NxGraph α) (u v : α) : Bool :=
  reachB g u v && reachB g v u

/-- `nx.strongly_connected_components`: the SCC partition, components listed
by first representative in node insertion order, members in node insertion
order. -/
def sccList {α : Type} [DecidableEq α] (g : NxGraph α) : List (List α) :=
  g.nodes.foldl
    (fun acc v =>
      if acc.any (fun c => decide (v ∈ c)) then acc
      else acc ++ [g.nodes.filter (fun w => mutualB g v w)])
    []

/-- `node_to_component`: index of the component containing `v`. -/
def compIdx {α : Type} [DecidableEq α] (comps : List (List α)) (v : α) : Nat :=
  comps.findIdx (fun c => decide (v ∈ c))

/-- The condensation graph built in the cycle-fallback branch of
`calculate_execution_order` (nodes = component indices; one edge per
inter-component edge of the original graph). -/
def condGraph {α : Type} [DecidableEq α] (g : NxGraph α) (comps : List (List α)) :
    NxGraph Nat :=
  let cg := (List.range comps.length).foldl (fun cg i => cg.addNode i) (NxGraph.empty Nat)
  g.nodes.foldl
    (fun cg u =>
      (g.succs u).foldl
        (fun cg v =>
          if compIdx comps u ≠ compIdx comps v then
            cg.addEdge (compIdx comps u) (compIdx comps v)
          else cg)
        cg)
    cg

/-- The cycle-fallback branch of `calculate_execution_order`: topologically
sort the condensation and emit each component's nodes sorted by id. -/
def sccFallback (g : NxGraph String) : List String :=
  let comps := sccList g
  let cg := condGraph g comps
  (topoSort cg).flatMap
    (fun i => List.insertionSort (fun a b => pyStrLe a b = true) ((comps.get? i).getD []))

/-- The step graph built at the top of `calculate_execution_order`
(nodes = step ids, one edge `dep → step` per dependency entry). -/
def buildStepGraph (steps : List ImplementationStep) (deps : List (String × List String)) :
    NxGraph String :=
  let g := steps.foldl (fun g s => g.addNode s.id) (NxGraph.empty String)
  deps.foldl (fun g p => p.2.foldl (fun g d => g.addEdge d p.1) g) g

/-- `calculate_execution_order`: plain topological sort when the graph is
acyclic, otherwise the strongly-connected-component fallback. -/
def calculate_execution_order (steps : List ImplementationStep)
    (deps : List (String × List String)) : List String :=
  let g := buildStepGraph steps deps
  if isDAGb g then topoSort g else sccFallback g

/-- `step.id.startswith(('setup_', 'arch_components_'))`: the architecture
prefix test used by `establish_step_dependencies`. -/
def hasArchPref (sid : String) : Bool :=
  strStarts sid "setup_" || strStarts sid "arch_components_"

/-- The id parsing of `establish_step_dependencies`:
`parts = step.id.split('_')`, keyed by `(parts[0], '_'.join(parts[1:-1]))`
when there are at least three parts. -/
def parseKey (sid : String) : Option (String × String) :=
  let parts := pySplitUnd sid
  if parts.length ≥ 3 then some (parts.headD "", pyJoinUnd (parts.drop 1).dropLast)
  else none

/-- The `step_by_entity` map of `establish_step_dependencies`. -/
def stepByEntity (steps : List ImplementationStep) :
    List ((String × String) × ImplementationStep) :=
  steps.foldl
    (fun m s =>
      match parseKey s.id with
      | some key => insertA m key s
      | none => m)
    []

/-- The architecture-gating phase of `establish_step_dependencies`: every
step whose id does not carry an architecture prefix gets every
architecture-prefixed step appended to its dependency list. -/
def gatingPhase (steps arch_steps : List ImplementationStep)
    (deps : List (String × List String)) : List (String × List String) :=
  steps.foldl
    (fun d s =>
      if hasArchPref s.id then d
      else arch_steps.foldl (fun d a => pushA d s.id a.id) d)
    deps

/-- The declared-dependency phase of `establish_step_dependencies`. -/
def entityPhase (sbn : List (String × Specification))
    (sbe : List ((String × String) × ImplementationStep))
    (specs : List Specification)
    (deps : List (String × List String)) : List (String × List String) :=
  specs.foldl
    (fun d sp =>
      match lookupA sbe (sp.entity_type, sp.entity_name) with
      | none => d
      | some estep =>
        sp.dependencies.foldl
          (fun d dn =>
            match lookupA sbn dn with
            | none => d
            | some dsp =>
              match lookupA sbe (dsp.entity_type, dn) with
              | none => d
              | some dstep =>
                if dstep.id ∈ (lookupA d estep.id).getD [] then d
                else pushA d estep.id dstep.id)
          d)
    deps

/-- The pattern phase of `establish_step_dependencies`: every
`pattern_`-prefixed step depends on every step of `entity_steps_by_type`. -/
def patternPhase (estbt : List (String × List ImplementationStep))
    (steps : List ImplementationStep)
    (deps : List (String × List String)) : List (String × List String) :=
  (steps.filter (fun s => strStarts s.id "pattern_")).foldl
    (fun d ps =>
      estbt.foldl
        (fun d tp =>
          tp.2.foldl
            (fun d es =>
              if es.id ∈ (lookupA d ps.id).getD [] then d else pushA d ps.id es.id)
            d)
        d)
    deps

/-- `establish_step_dependencies`. -/
def establish_step_dependencies (steps : List ImplementationStep)
    (estbt : List (String × List ImplementationStep))
    (specs : List Specification) : List (String × List String) :=
  let sbn := specs.foldl (fun m sp => insertA m sp.entity_name sp) []
  let sbe := stepByEntity steps
  let init := steps.foldl (fun d s => insertA d s.id ([] : List String)) []
  let arch_steps := steps.filter (fun s => hasArchPref s.id)
  let d1 := if arch_steps.isEmpty then init else gatingPhase steps arch_steps init
  let d2 := entityPhase sbn sbe specs d1
  patternPhase estbt steps d2

/-- `generate_strategy` (module-level scheduler of `strategy_generator.py`).
The initial architecture-chain dependency dict built at lines 46-51 of the
source is dead code (it is rebound by `establish_step_dependencies` before
any use) and is therefore not modelled. -/
def generate_strategy (specs : List Specification)
    (refine : List Specification → List (String × List Specification))
    (supply : Nat → String) : ImplementationStrategy :=
  let sbt := specsByType specs
  let archres : List ImplementationStep × Nat :=
    match lookupA sbt "architecture" with
    | some aspecs => generate_architectural_steps supply 0 aspecs
    | none => ([], 0)
  let (estbt, entity_steps, k1) := entityTypeLoop refine supply archres.2 sbt
  let pattern_steps : List ImplementationStep :=
    match lookupA sbt "pattern" with
    | some pspecs => (generate_pattern_steps supply k1 pspecs).1
    | none => []
  let steps := archres.1 ++ entity_steps ++ pattern_steps
  let deps := establish_step_dependencies steps estbt specs
  { steps := steps
    dependencies := deps
    execution_order := calculate_execution_order steps deps }

/-- Edge strength lookup of `StrategyGenerator._break_cycles`:
`graph.edges[e].get('strength', 1.0)` — default 1 when untracked.  Strengths
are modelled as rationals (the source stores floats in `[0, 1]`; no claim
depends on float rounding). -/
def strengthOf (str : List ((String × String) × Rat)) (e : String × String) : Rat :=
  (lookupA str e).getD 1

/-- Python's `min(pairs, key=strength)`: the first pair of minimum strength;
`none` on an empty list (where CPython raises `ValueError`). -/
def minByStrength (str : List ((String × String) × Rat)) :
    List (String × String) → Option (String × String)
  | [] => none
  | e :: rest =>
    some (rest.foldl (fun best e2 =>
      if strengthOf str e2 < strengthOf str best then e2 else best) e)

/-- `[(u, v) for u, v in zip(cycle, cycle[1:])]` — the consecutive pairs of
the found cycle (note: the closing edge `(cycle[-1], cycle[0])` is *not*
included, exactly as in the source). -/
def edgePairs (c : List String) : List (String × String) := c.zip c.tail

/-- Pick an unemitted predecessor of `v` inside the residual set `R`
(used to walk backwards towards a cycle). -/
def pickPred {α : Type} [DecidableEq α] (g : NxGraph α) (R : List α) (v : α) : α :=
  ((R.find? (fun u => decide (g.Edge u v))).getD v)

/-- Walk backwards through the residual set until a node repeats; the slice
between the two occurrences, reversed, is a simple cycle of `g`.  This
models `list(nx.simple_cycles(graph))[0]` — which particular simple cycle
networkx returns first is an implementation detail; any simple cycle
supports the claims settled here. -/
def cycleWalk {α : Type} [DecidableEq α] (g : NxGraph α) (R : List α) :
    Nat → α → List α → Option (List α)
  | 0, _, _ => none
  | n + 1, v, seen =>
    if v ∈ seen then some ((seen.drop (seen.indexOf v)).reverse)
    else cycleWalk g R n (pickPred g R v) (seen ++ [v])

/-- Find one simple cycle of `g` (see `cycleWalk`); `none` iff the Kahn
process emits every node. -/
def findCycle {α : Type} [DecidableEq α] (g : NxGraph α) : Option (List α) :=
  let out := topoSort g
  match g.nodes.filter (fun v => decide (v ∉ out)) with
  | [] => none
  | r :: rest => cycleWalk g (r :: rest) ((r :: rest).length + 1) r []

/-- The loop body of `StrategyGenerator._break_cycles`, fuelled (the source's
`while` loop; the fuel `edgeCount + 1` is proved sufficient below).  The
`findCycle = none` branch is the source's `if not cycles: break`; the
`minByStrength = none` branch is CPython's `ValueError` on
`min([])` — reached exactly when the first cycle found is a self-loop. -/
def breakCyclesGo (str : List ((String × String) × Rat)) :
    Nat → NxGraph String → Except String (NxGraph String)
  | 0, _ => .error "fuel exhausted"
  | n + 1, g =>
    if isDAGb g then .ok g
    else
      match findCycle g with
      | none => .ok g
      | some c =>
        match minByStrength str (edgePairs c) with
        | none => .error "ValueError: min() arg is an empty sequence"
        | some e => breakCyclesGo str n (g.removeEdge e.1 e.2)

/-- `StrategyGenerator._break_cycles`. -/
def break_cycles (g : NxGraph String) (str : List ((String × String) × Rat)) :
    Except String (NxGraph String) :=
  breakCyclesGo str (g.edgeCount + 1) g

/-! ## Graph well-formedness -/

/-- Well-formedness: distinct nodes; adjacency entries are keyed by nodes and
their successor lists stay inside the node set.  Every graph the source
builds satisfies this (proved below for each construction). -/
def NxGraph.WF {α : Type} [DecidableEq α] (g : NxGraph α) : Prop :=
  g.nodes.Nodup ∧ ∀ p ∈ g.adjl, p.1 ∈ g.nodes ∧ ∀ v ∈ p.2, v ∈ g.nodes

/-- The emitted-order invariant: every node already emitted has all its
predecessors emitted strictly before it. -/
def TopoOrd {α : Type} [DecidableEq α] (g : NxGraph α) (l : List α) : Prop :=
  ∀ (l₁ : List α) (v : α) (l₂ : List α), l = l₁ ++ v :: l₂ → ∀ u ∈ g.preds v, u ∈ l₁

/-- Iterate a function (used to walk backwards through the residual set). -/
def iterPick {α : Type} (pick : α → α) (v0 : α) : Nat → α
  | 0 => v0
  | n + 1 => pick (iterPick pick v0 n)

/-! ## Named decomposition of `generate_strategy` -/

/-- The architecture part of a planning run (step 1 of `generate_strategy`). -/
def archPart (specs : List Specification) (supply : Nat → String) :
    List ImplementationStep × Nat :=
  match lookupA (specsByType specs) "architecture" with
  | some aspecs => generate_architectural_steps supply 0 aspecs
  | none => ([], 0)

/-- The entity part of a planning run (step 2 of `generate_strategy`). -/
def entityPart (specs : List Specification)
    (refine : List Specification → List (String × List Specification))
    (supply : Nat → String) :
    List (String × List ImplementationStep) × List ImplementationStep × Nat :=
  entityTypeLoop refine supply (archPart specs supply).2 (specsByType specs)

/-- The pattern part of a planning run (step 3 of `generate_strategy`). -/
def patternPart (specs : List Specification)
    (refine : List Specification → List (String × List Specification))
    (supply : Nat → String) : List ImplementationStep :=
  match lookupA (specsByType specs) "pattern" with
  | some pspecs => (generate_pattern_steps supply (entityPart specs refine supply).2.2 pspecs).1
  | none => []

/-- All steps of a planning run, in creation order. -/
def allSteps (specs : List Specification)
    (refine : List Specification → List (String × List Specification))
    (supply : Nat → String) : List ImplementationStep :=
  (archPart specs supply).1 ++ (entityPart specs refine supply).2.1 ++
    patternPart specs refine supply

/-- The dependency map of a planning run. -/
def allDeps (specs : List Specification)
    (refine : List Specification → List (String × List Specification))
    (supply : Nat → String) : List (String × List String) :=
  establish_step_dependencies (allSteps specs refine supply)
    (entityPart specs refine supply).1 specs

/-- Faithfulness condition for the grouping-refinement collaborator: it only
returns specifications drawn from its input (both code paths of
`refine_groups_with_llm` satisfy this: the success path filters the input
list, the error path returns it unchanged). -/
def RefineOk (refine : List Specification → List (String × List Specification)) : Prop :=
  ∀ specs p, p ∈ refine specs → ∀ sp ∈ p.2, sp ∈ specs

/-! ## Concrete inputs used below -/

/-- The identity-like uuid supply `0, 1, 2, …`. -/
def sup0 : Nat → String := fun n => toString n

/-- A class specification that depends on `B`. -/
def sA : Specification := ⟨"A", "class", "p", ["B"]⟩

/-- A class specification that depends on `A`. -/
def sB : Specification := ⟨"B", "class", "p", ["A"]⟩

/-- `sp` contributes to `st`: `st` is the setup step synthesized for `sp`
(architecture case), the pattern step synthesized for `sp`, `sp`'s individual
implementation step, or the aggregate step of a group containing `sp`. -/
def contributesTo (specs : List Specification)
    (refine : List Specification → List (String × List Specification))
    (sp : Specification) (st : ImplementationStep) : Prop :=
  st.description = "Set up project structure based on " ++ sp.entity_name ++ " architecture" ∨
  st.description = "Implement " ++ sp.entity_name ++ " pattern" ∨
  st.description = "Implement " ++ sp.entity_type ++ ": " ++ sp.entity_name ∨
  ∃ gname gspecs,
    (gname, gspecs) ∈ group_related_entities
      ((lookupA (specsByType specs) sp.entity_type).getD []) refine ∧
    sp ∈ gspecs ∧
    st.description = "Implement " ++ sp.entity_type ++ " group: " ++ gname

/-- An architecture specification used as concrete input below. -/
def sArch : Specification := ⟨"MVC", "architecture", "p", []⟩

/-- Seven same-type specifications with no naming affinity (Scenario E). -/
def mk9 (n : String) : Specification := ⟨n, "class", "p", []⟩

/-- The seven-specification input of Scenario E. -/
def specs9 : List Specification := [mk9 "a1", mk9 "a2", mk9 "a3", mk9 "a4", mk9 "a5",
  mk9 "a6", mk9 "a7"]

/-- Two class specifications sharing the entity name `A`. -/
def dup2 : List Specification := [⟨"A", "class", "p", []⟩, ⟨"A", "class", "q", []⟩]

/-- A run whose uuid draws all read `x`. -/
def supX : Nat → String := fun _ => "x"

/-- A run whose uuid draws all read `y`. -/
def supY : Nat → String := fun _ => "y"

/-- The rank used to order the dependency phases: architecture-prefixed steps
sit at 0, pattern steps at 2, entity steps at 1. -/
def idRank (sid : String) : Nat :=
  if hasArchPref sid then 0 else if strStarts sid "pattern_" then 2 else 1

/-- The adversarial input of the C10 analysis: a spec whose entity type is
the literal string `arch` and whose name is `components` collides with the
parsed key of the architecture Components step. -/
def c10 : List Specification :=
  [⟨"Arch", "architecture", "p", []⟩,
   ⟨"components", "arch", "p", ["X"]⟩,
   ⟨"aa", "arch", "p", []⟩,
   ⟨"bb", "arch", "p", []⟩,
   ⟨"cc", "arch", "p", []⟩,
   ⟨"X", "class", "p", []⟩]

/-- A constant underscore-free uuid supply. -/
def supU : Nat → String := fun _ => "u"

/-- The self-loop graph: one node `a` with the edge `a → a`. -/
def gSelf : NxGraph String := (NxGraph.empty String).addEdge "a" "a"

/-- The two-node cycle `a → b → a`. -/
def gTwo : NxGraph String :=
  ((NxGraph.empty String).addEdge "a" "b").addEdge "b" "a"

/-- A collaborator whose response reuses the name of an existing heuristic
group (`foobar`), keeping only the first specification of the list it was
given.  It is faithful (`RefineOk`): it only returns specifications drawn
from its input. -/
def refineC3 : List Specification → List (String × List Specification) :=
  fun specs => [("foobar", specs.take 1)]

/-- Six no-affinity class specifications plus two whose shared name token
forms the heuristic group `foobar`. -/
def specsC3 : List Specification :=
  [mk9 "a1", mk9 "a2", mk9 "a3", mk9 "a4", mk9 "a5", mk9 "a6",
   mk9 "foobar_x", mk9 "foobar_y"]

instance contributesToDec (specs : List Specification)
    (refine : List Specification → List (String × List Specification))
    (sp : Specification) (st : ImplementationStep) :
    Decidable (contributesTo specs refine sp st) :=
  decidable_of_iff
    (st.description = "Set up project structure based on " ++ sp.entity_name ++
        " architecture" ∨
      st.description = "Implement " ++ sp.entity_name ++ " pattern" ∨
      st.description = "Implement " ++ sp.entity_type ++ ": " ++ sp.entity_name ∨
      ∃ p ∈ group_related_entities
          ((lookupA (specsByType specs) sp.entity_type).getD []) refine,
        sp ∈ p.2 ∧
        st.description = "Implement " ++ sp.entity_type ++ " group: " ++ p.1)
    (by
      unfold contributesTo
      constructor
      · rintro (h | h | h | ⟨p, hp, hsp, hd⟩)
        · exact Or.inl h
        · exact Or.inr (Or.inl h)
        · exact Or.inr (Or.inr (Or.inl h))
        · exact Or.inr (Or.inr (Or.inr ⟨p.1, p.2, hp, hsp, hd⟩))
      · rintro (h | h | h | ⟨g, gs, hp, hsp, hd⟩)
        · exact Or.inl h
        · exact Or.inr (Or.inl h)
        · exact Or.inr (Or.inr (Or.inl h))
        · exact Or.inr (Or.inr (Or.inr ⟨(g, gs), hp, hsp, hd⟩)))

/-- A specification whose entity type is the literal string `setup`: its
entity implementation step id `setup_y_<uuid>` carries the architecture
prefix without being a Setup step. -/
def sSetupY : Specification := ⟨"y", "setup", "p", []⟩

/-! ## Association-list lemmas -/

theorem lookupA_insertA {κ α : Type} [DecidableEq κ] (m : List (κ × α)) (k k' : κ) (v : α) :
    lookupA (insertA m k v) k' = if k = k' then some v else lookupA m k' := by
  induction m with
  | nil => by_cases h : k = k' <;> simp [insertA, lookupA, h]
  | cons p rest ih =>
    obtain ⟨k0, v0⟩ := p
    by_cases h0 : k0 = k
    · subst h0
      by_cases h : k0 = k' <;> simp [insertA, lookupA, h, ih]
    · by_cases h : k0 = k'
      · subst h
        have hk : k ≠ k0 := fun hc => h0 hc.symm
        simp [insertA, lookupA, h0, hk]
      · simp [insertA, lookupA, h0, h, ih]

theorem lookupA_pushA {κ α : Type} [DecidableEq κ] (m : List (κ × List α)) (k k' : κ) (v : α) :
    lookupA (pushA m k v) k' =
      if k = k' then some (((lookupA m k).getD []) ++ [v]) else lookupA m k' := by
  unfold pushA; exact lookupA_insertA m k k' _

theorem lookupA_pushA_self {κ α : Type} [DecidableEq κ] (m : List (κ × List α)) (k : κ) (v : α) :
    lookupA (pushA m k v) k = some (((lookupA m k).getD []) ++ [v]) := by
  simp [lookupA_pushA]

theorem lookupA_pushA_ne {κ α : Type} [DecidableEq κ] (m : List (κ × List α)) (k k' : κ) (v : α)
    (h : k ≠ k') : lookupA (pushA m k v) k' = lookupA m k' := by
  simp [lookupA_pushA, h]

/-- Membership in a pushed entry: either it was already there, or it is the
pushed value going to the pushed key. -/
theorem mem_lookupA_pushA {κ α : Type} [DecidableEq κ] (m : List (κ × List α)) (k k' : κ)
    (v w : α) (h : w ∈ (lookupA (pushA m k v) k').getD []) :
    w ∈ (lookupA m k').getD [] ∨ (k = k' ∧ w = v) := by
  rcases eq_or_ne k k' with he | he
  · subst he
    rw [lookupA_pushA_self] at h
    simp only [Option.getD_some] at h
    rcases List.mem_append.mp h with h1 | h1
    · exact Or.inl h1
    · simp only [List.mem_singleton] at h1
      exact Or.inr ⟨rfl, h1⟩
  · rw [lookupA_pushA_ne _ _ _ _ he] at h
    exact Or.inl h

/-- Pushes only grow entries. -/
theorem mem_lookupA_pushA_of_mem {κ α : Type} [DecidableEq κ] (m : List (κ × List α))
    (k k' : κ) (v w : α) (h : w ∈ (lookupA m k').getD []) :
    w ∈ (lookupA (pushA m k v) k').getD [] := by
  rcases eq_or_ne k k' with he | he
  · subst he
    rw [lookupA_pushA_self]
    simp only [Option.getD_some]
    exact List.mem_append.mpr (Or.inl h)
  · rwa [lookupA_pushA_ne _ _ _ _ he]

/-- A key present before an insert is present after. -/
theorem lookupA_isSome_insertA {κ α : Type} [DecidableEq κ] (m : List (κ × α)) (k k' : κ)
    (v : α) (h : (lookupA m k').isSome) : (lookupA (insertA m k v) k').isSome := by
  rw [lookupA_insertA]
  by_cases he : k = k' <;> simp [he, h]

/-- Keys of an association list after an insert. -/
theorem lookupA_eq_none_insertA {κ α : Type} [DecidableEq κ] (m : List (κ × α)) (k k' : κ)
    (v : α) (h : lookupA (insertA m k v) k' = none) : lookupA m k' = none ∧ k ≠ k' := by
  rw [lookupA_insertA] at h
  by_cases he : k = k' <;> simp [he] at h ⊢
  exact h

/-- A found entry of a plain association list is one of its pairs. -/
theorem lookupA_mem {κ α : Type} [DecidableEq κ] (m : List (κ × α)) (k : κ) (v : α)
    (h : lookupA m k = some v) : (∃ k', (k', v) ∈ m) := by
  induction m with
  | nil => simp [lookupA] at h
  | cons p rest ih =>
    obtain ⟨k0, v0⟩ := p
    by_cases h0 : k0 = k
    · subst h0
      simp [lookupA] at h
      exact ⟨k0, by simp [h]⟩
    · simp [lookupA, h0] at h
      obtain ⟨k', hk'⟩ := ih h
      exact ⟨k', by simp [hk']⟩

theorem lookupA_mem_self {κ α : Type} [DecidableEq κ] (m : List (κ × α)) (k : κ) (v : α)
    (h : lookupA m k = some v) : (k, v) ∈ m := by
  induction m with
  | nil => simp [lookupA] at h
  | cons p rest ih =>
    obtain ⟨k0, v0⟩ := p
    by_cases h0 : k0 = k
    · subst h0
      simp [lookupA] at h
      simp [h]
    · simp [lookupA, h0] at h
      simp [ih h]

theorem mem_insertA {κ α : Type} [DecidableEq κ] (m : List (κ × α)) (k : κ) (v : α)
    (p : κ × α) (h : p ∈ insertA m k v) : p ∈ m ∨ p = (k, v) := by
  induction m with
  | nil => simp [insertA] at h; simp [h]
  | cons q rest ih =>
    obtain ⟨k0, v0⟩ := q
    by_cases h0 : k0 = k
    · subst h0
      simp [insertA] at h
      rcases h with h | h
      · exact Or.inr (by simp [h])
      · exact Or.inl (by simp [h])
    · simp [insertA, h0] at h
      rcases h with h | h
      · exact Or.inl (by simp [h])
      · rcases ih h with h1 | h1
        · exact Or.inl (by simp [h1])
        · exact Or.inr h1

theorem NxGraph.WF.edge_mem_left {α : Type} [DecidableEq α] {g : NxGraph α} (hwf : g.WF)
    {u v : α} (h : g.Edge u v) : u ∈ g.nodes := by
  unfold NxGraph.Edge NxGraph.succs at h
  cases hl : lookupA g.adjl u with
  | none => rw [hl] at h; simp at h
  | some l =>
    rw [hl] at h
    exact (hwf.2 (u, l) (lookupA_mem_self _ _ _ hl)).1

theorem NxGraph.WF.edge_mem_right {α : Type} [DecidableEq α] {g : NxGraph α} (hwf : g.WF)
    {u v : α} (h : g.Edge u v) : v ∈ g.nodes := by
  unfold NxGraph.Edge NxGraph.succs at h
  cases hl : lookupA g.adjl u with
  | none => rw [hl] at h; simp at h
  | some l =>
    rw [hl] at h
    exact (hwf.2 (u, l) (lookupA_mem_self _ _ _ hl)).2 v h

theorem mem_preds_iff {α : Type} [DecidableEq α] (g : NxGraph α) (u v : α) :
    u ∈ g.preds v ↔ u ∈ g.nodes ∧ g.Edge u v := by
  simp [NxGraph.preds, List.mem_filter]

theorem WF_empty (α : Type) [DecidableEq α] : (NxGraph.empty α).WF := by
  constructor
  · simp [NxGraph.empty]
  · intro p hp; simp [NxGraph.empty] at hp

theorem mem_nodes_addNode {α : Type} [DecidableEq α] (g : NxGraph α) (v w : α) :
    w ∈ (g.addNode v).nodes ↔ w ∈ g.nodes ∨ w = v := by
  unfold NxGraph.addNode
  by_cases h : v ∈ g.nodes
  · simp [h]
    intro he; subst he; exact h
  · simp [h]

theorem self_mem_addNode {α : Type} [DecidableEq α] (g : NxGraph α) (v : α) :
    v ∈ (g.addNode v).nodes := by
  rw [mem_nodes_addNode]; exact Or.inr rfl

theorem WF_addNode {α : Type} [DecidableEq α] {g : NxGraph α} (hwf : g.WF) (v : α) :
    (g.addNode v).WF := by
  unfold NxGraph.addNode
  by_cases h : v ∈ g.nodes
  · simpa [h] using hwf
  · simp only [h, if_false]
    constructor
    · rw [List.nodup_append]
      exact ⟨hwf.1, List.nodup_singleton v, by
        intro a ha hb
        simp at hb
        subst hb
        exact h ha⟩
    · intro p hp
      rcases List.mem_append.mp hp with hp | hp
      · obtain ⟨h1, h2⟩ := hwf.2 p hp
        exact ⟨by simp [h1], fun w hw => by simp [h2 w hw]⟩
      · simp at hp
        subst hp
        simp

theorem WF_addEdge {α : Type} [DecidableEq α] {g : NxGraph α} (hwf : g.WF) (u v : α) :
    (g.addEdge u v).WF := by
  unfold NxGraph.addEdge
  have hwf2 : ((g.addNode u).addNode v).WF := WF_addNode (WF_addNode hwf u) v
  have hu : u ∈ ((g.addNode u).addNode v).nodes := by
    rw [mem_nodes_addNode]
    exact Or.inl (self_mem_addNode g u)
  have hv : v ∈ ((g.addNode u).addNode v).nodes := self_mem_addNode _ v
  set g2 := (g.addNode u).addNode v with hg2
  by_cases h : v ∈ g2.succs u
  · simpa [h] using hwf2
  · simp only [h, if_false]
    constructor
    · exact hwf2.1
    · intro p hp
      rcases mem_insertA _ _ _ _ hp with hp | hp
      · exact hwf2.2 p hp
      · subst hp
        refine ⟨hu, ?_⟩
        intro w hw
        rcases List.mem_append.mp hw with hw | hw
        · unfold NxGraph.succs at hw
          cases hl : lookupA g2.adjl u with
          | none => rw [hl] at hw; simp at hw
          | some l =>
            rw [hl] at hw
            exact (hwf2.2 (u, l) (lookupA_mem_self _ _ _ hl)).2 w hw
        · simp at hw
          subst hw
          exact hv

theorem nodes_addEdge {α : Type} [DecidableEq α] (g : NxGraph α) (u v : α) :
    (g.addEdge u v).nodes = ((g.addNode u).addNode v).nodes := by
  unfold NxGraph.addEdge
  by_cases h : v ∈ ((g.addNode u).addNode v).succs u <;> simp [h]

theorem WF_removeEdge {α : Type} [DecidableEq α] {g : NxGraph α} (hwf : g.WF) {u : α} (v : α)
    (hu : u ∈ g.nodes) : (g.removeEdge u v).WF := by
  unfold NxGraph.removeEdge
  constructor
  · exact hwf.1
  · intro p hp
    rcases mem_insertA _ _ _ _ hp with hp | hp
    · exact hwf.2 p hp
    · subst hp
      refine ⟨hu, ?_⟩
      intro w hw
      have hw2 : w ∈ g.succs u := List.erase_subset _ _ hw
      unfold NxGraph.succs at hw2
      cases hl : lookupA g.adjl u with
      | none => rw [hl] at hw2; simp at hw2
      | some l =>
        rw [hl] at hw2
        exact (hwf.2 (u, l) (lookupA_mem_self _ _ _ hl)).2 w hw2

/-! ## Topological sort: verification -/

theorem topoReady_some {α : Type} [DecidableEq α] {g : NxGraph α} {e : List α} {v : α}
    (h : topoReady g e = some v) :
    v ∈ g.nodes ∧ v ∉ e ∧ ∀ u ∈ g.preds v, u ∈ e := by
  have hmem := List.mem_of_find?_eq_some h
  have hp := List.find?_some h
  simp only [Bool.and_eq_true, decide_eq_true_eq, List.all_eq_true] at hp
  exact ⟨hmem, hp.1, fun u hu => by
    have := hp.2 u hu
    simpa using this⟩

theorem topoReady_none {α : Type} [DecidableEq α] {g : NxGraph α} {e : List α}
    (h : topoReady g e = none) :
    ∀ v ∈ g.nodes, v ∉ e → ∃ u ∈ g.preds v, u ∉ e := by
  intro v hv hve
  have := List.find?_eq_none.mp h v hv
  simp only [Bool.and_eq_true, decide_eq_true_eq, List.all_eq_true, not_and] at this
  have h2 := this hve
  by_contra hc
  push_neg at hc
  apply h2
  intro u hu
  simpa using hc u hu

theorem append_singleton_decomp {α : Type} (e : List α) (v : α) (l₁ : List α) (w : α)
    (l₂ : List α) (h : e ++ [v] = l₁ ++ w :: l₂) :
    (l₁ = e ∧ w = v ∧ l₂ = []) ∨ ∃ l₂', l₂ = l₂' ++ [v] ∧ e = l₁ ++ w :: l₂' := by
  rcases List.eq_nil_or_concat l₂ with h2 | ⟨L, b, h2⟩
  · subst h2
    have hlen : e.length = l₁.length := by
      have := congrArg List.length h
      simp at this
      omega
    obtain ⟨he, hv⟩ := List.append_inj h hlen
    simp at hv
    exact Or.inl ⟨he.symm, hv.symm, rfl⟩
  · rw [List.concat_eq_append] at h2
    subst h2
    have hr : l₁ ++ w :: (L ++ [b]) = (l₁ ++ w :: L) ++ [b] := by simp
    rw [hr] at h
    have hlen : e.length = (l₁ ++ w :: L).length := by
      have := congrArg List.length h
      simp at this ⊢
      omega
    obtain ⟨he, hv⟩ := List.append_inj h hlen
    simp at hv
    exact Or.inr ⟨L, by rw [hv], he⟩

theorem topoGo_spec {α : Type} [DecidableEq α] (g : NxGraph α) :
    ∀ (n : Nat) (e : List α), e.Nodup → (∀ v ∈ e, v ∈ g.nodes) → TopoOrd g e →
      (topoGo g n e).Nodup ∧ (∀ v ∈ topoGo g n e, v ∈ g.nodes) ∧
        TopoOrd g (topoGo g n e) ∧ ∀ v ∈ e, v ∈ topoGo g n e := by
  intro n
  induction n with
  | zero => intro e h1 h2 h3; exact ⟨h1, h2, h3, fun v hv => hv⟩
  | succ n ih =>
    intro e h1 h2 h3
    unfold topoGo
    cases hr : topoReady g e with
    | none => exact ⟨h1, h2, h3, fun v hv => hv⟩
    | some v =>
      obtain ⟨hvn, hve, hvp⟩ := topoReady_some hr
      have h1' : (e ++ [v]).Nodup := by
        rw [List.nodup_append]
        exact ⟨h1, List.nodup_singleton v, by
          intro a ha hb
          simp at hb
          subst hb
          exact hve ha⟩
      have h2' : ∀ w ∈ e ++ [v], w ∈ g.nodes := by
        intro w hw
        rcases List.mem_append.mp hw with hw | hw
        · exact h2 w hw
        · simp at hw; subst hw; exact hvn
      have h3' : TopoOrd g (e ++ [v]) := by
        intro l₁ w l₂ hd u hu
        rcases append_singleton_decomp e v l₁ w l₂ hd with ⟨he, hwv, _⟩ | ⟨l₂', _, he⟩
        · subst he; subst hwv
          exact hvp u hu
        · exact h3 l₁ w l₂' he u hu
      obtain ⟨a1, a2, a3, a4⟩ := ih (e ++ [v]) h1' h2' h3'
      exact ⟨a1, a2, a3, fun w hw => a4 w (List.mem_append.mpr (Or.inl hw))⟩

theorem topoSort_nodup {α : Type} [DecidableEq α] (g : NxGraph α) : (topoSort g).Nodup :=
  (topoGo_spec g g.nodes.length [] List.nodup_nil (by simp) (by intro l₁ v l₂ h u hu; simp at h)).1

theorem topoSort_subset {α : Type} [DecidableEq α] (g : NxGraph α) :
    ∀ v ∈ topoSort g, v ∈ g.nodes :=
  (topoGo_spec g g.nodes.length [] List.nodup_nil (by simp) (by intro l₁ v l₂ h u hu; simp at h)).2.1

theorem topoSort_ord {α : Type} [DecidableEq α] (g : NxGraph α) : TopoOrd g (topoSort g) :=
  (topoGo_spec g g.nodes.length [] List.nodup_nil (by simp) (by intro l₁ v l₂ h u hu; simp at h)).2.2.1

theorem topoGo_stuck {α : Type} [DecidableEq α] (g : NxGraph α) :
    ∀ (n : Nat) (e : List α), (topoGo g n e).length < e.length + n →
      topoReady g (topoGo g n e) = none := by
  intro n
  induction n with
  | zero => intro e h; exact absurd h (by simp [topoGo])
  | succ n ih =>
    intro e h
    cases hr : topoReady g e with
    | none =>
      have hgo : topoGo g (n + 1) e = e := by
        conv_lhs => unfold topoGo
        rw [hr]
      rw [hgo]
      exact hr
    | some v =>
      have hgo : topoGo g (n + 1) e = topoGo g n (e ++ [v]) := by
        conv_lhs => unfold topoGo
        rw [hr]
      rw [hgo] at h ⊢
      apply ih
      simp only [List.length_append, List.length_singleton]
      omega

theorem topoSort_length_le {α : Type} [DecidableEq α] (g : NxGraph α) :
    (topoSort g).length ≤ g.nodes.length :=
  (List.subperm_of_subset (topoSort_nodup g) (topoSort_subset g)).length_le

theorem topoSort_stuck {α : Type} [DecidableEq α] (g : NxGraph α)
    (h : (topoSort g).length < g.nodes.length) : topoReady g (topoSort g) = none := by
  apply topoGo_stuck
  simpa using h

/-- Kahn completeness: on a well-formed acyclic graph the process emits
every node. -/
theorem topoSort_complete {α : Type} [DecidableEq α] (g : NxGraph α) (hwf : g.WF)
    (hacy : g.Acyclic) : (topoSort g).length = g.nodes.length := by
  by_contra hne
  have hlt : (topoSort g).length < g.nodes.length :=
    lt_of_le_of_ne (topoSort_length_le g) hne
  have hstuck := topoSort_stuck g hlt
  set out := topoSort g with hout
  set R := g.nodes.filter (fun v => decide (v ∉ out)) with hR
  have hRmem : ∀ v, v ∈ R ↔ v ∈ g.nodes ∧ v ∉ out := by
    intro v; simp [hR, List.mem_filter]
  have hRne : ∃ v, v ∈ R := by
    by_contra hc
    push_neg at hc
    have hsub : ∀ v ∈ g.nodes, v ∈ out := by
      intro v hv
      by_contra hvo
      exact hc v ((hRmem v).mpr ⟨hv, hvo⟩)
    have := (List.subperm_of_subset hwf.1 hsub).length_le
    omega
  have hRstep : ∀ v ∈ R, ∃ u, u ∈ R ∧ g.Edge u v := by
    intro v hv
    obtain ⟨hvn, hvo⟩ := (hRmem v).mp hv
    obtain ⟨u, hu, huo⟩ := topoReady_none hstuck v hvn hvo
    obtain ⟨hun, hue⟩ := (mem_preds_iff g u v).mp hu
    exact ⟨u, (hRmem u).mpr ⟨hun, huo⟩, hue⟩
  obtain ⟨v0, hv0⟩ := hRne
  set pick : α → α := fun v => (R.find? (fun u => decide (g.Edge u v))).getD v with hpick
  have hpickR : ∀ v ∈ R, pick v ∈ R ∧ g.Edge (pick v) v := by
    intro v hv
    obtain ⟨u, huR, hue⟩ := hRstep v hv
    cases hf : R.find? (fun u => decide (g.Edge u v)) with
    | none =>
      exfalso
      exact absurd (by simpa using List.find?_eq_none.mp hf u huR) (by simp [hue])
    | some w =>
      have hwR := List.mem_of_find?_eq_some hf
      have hwe := List.find?_some hf
      simp only [decide_eq_true_eq] at hwe
      simp [hpick, hf, hwR, hwe]
  set f : Nat → α := iterPick pick v0 with hf
  have hfR : ∀ n, f n ∈ R := by
    intro n
    induction n with
    | zero => exact hv0
    | succ n ih => exact (hpickR (f n) ih).1
  have hfE : ∀ n, g.Edge (f (n + 1)) (f n) := by
    intro n
    exact (hpickR (f n) (hfR n)).2
  have hcol : ∃ i j : Fin (R.length + 1), i ≠ j ∧ f i.val = f j.val := by
    have hcard : R.toFinset.card < (Finset.univ : Finset (Fin (R.length + 1))).card := by
      have h1 : R.toFinset.card ≤ R.length := List.toFinset_card_le R
      simp only [Finset.card_univ, Fintype.card_fin]
      omega
    obtain ⟨i, _, j, _, hij, hfij⟩ :=
      Finset.exists_ne_map_eq_of_card_lt_of_maps_to hcard
        (fun (i : Fin (R.length + 1)) _ => List.mem_toFinset.mpr (hfR i.val))
    exact ⟨i, j, hij, hfij⟩
  obtain ⟨i, j, hij, hfij⟩ := hcol
  have htg : ∀ (d i : Nat), Relation.TransGen g.Edge (f (i + d + 1)) (f i) := by
    intro d
    induction d with
    | zero => intro i; exact Relation.TransGen.single (hfE i)
    | succ d ih =>
      intro i
      have : i + (d + 1) + 1 = (i + d + 1) + 1 := by omega
      rw [this]
      exact Relation.TransGen.head (hfE (i + d + 1)) (ih i)
  have hloop : ∀ (a b : Nat), a < b → f a = f b → False := by
    intro a b hab heq
    have : b = a + (b - a - 1) + 1 := by omega
    have htg2 := htg (b - a - 1) a
    rw [← this, ← heq] at htg2
    exact hacy (f a) htg2
  rcases lt_or_gt_of_ne (fun h : i = j => hij h) with h | h
  · exact hloop i.val j.val h hfij
  · exact hloop j.val i.val h hfij.symm

theorem indexOf_append_cons_self {α : Type} [DecidableEq α] (l₁ l₂ : List α) (v : α)
    (hv : v ∉ l₁) : List.indexOf v (l₁ ++ v :: l₂) = l₁.length := by
  induction l₁ with
  | nil => simp
  | cons a t ih =>
    have hav : v ≠ a := by
      intro h; subst h; exact hv (by simp)
    have hvt : v ∉ t := fun h => hv (by simp [h])
    simp only [List.cons_append, List.length_cons]
    rw [List.indexOf_cons_ne _ (fun h => hav h.symm)]
    rw [ih hvt]

/-- Topological soundness: on a well-formed graph where the process emits all
nodes, every edge goes strictly forward in the emitted order. -/
theorem topoSort_edge_lt {α : Type} [DecidableEq α] (g : NxGraph α) (hwf : g.WF)
    (hcomp : (topoSort g).length = g.nodes.length) {u v : α} (huv : g.Edge u v) :
    List.indexOf u (topoSort g) < List.indexOf v (topoSort g) := by
  have hperm : (topoSort g).Perm g.nodes := by
    apply (List.subperm_of_subset (topoSort_nodup g) (topoSort_subset g)).perm_of_length_le
    omega
  have hv : v ∈ topoSort g := hperm.mem_iff.mpr (hwf.edge_mem_right huv)
  obtain ⟨l₁, l₂, hd⟩ := List.append_of_mem hv
  have hu : u ∈ l₁ := topoSort_ord g l₁ v l₂ hd u
    ((mem_preds_iff g u v).mpr ⟨hwf.edge_mem_left huv, huv⟩)
  have hnd := topoSort_nodup g
  rw [hd] at hnd ⊢
  have hvl₁ : v ∉ l₁ := by
    rw [List.nodup_middle] at hnd
    intro hc
    exact (List.nodup_cons.mp hnd).1 (List.mem_append.mpr (Or.inl hc))
  rw [indexOf_append_cons_self l₁ l₂ v hvl₁]
  calc List.indexOf u (l₁ ++ v :: l₂) = List.indexOf u l₁ := List.indexOf_append_of_mem hu
    _ < l₁.length := List.indexOf_lt_length.mpr hu

/-- Kahn soundness: if the process emits all nodes the graph is acyclic. -/
theorem acyclic_of_complete {α : Type} [DecidableEq α] (g : NxGraph α) (hwf : g.WF)
    (hcomp : (topoSort g).length = g.nodes.length) : g.Acyclic := by
  intro v hv
  have hmono : ∀ a b, Relation.TransGen g.Edge a b →
      List.indexOf a (topoSort g) < List.indexOf b (topoSort g) := by
    intro a b h
    induction h with
    | single h => exact topoSort_edge_lt g hwf hcomp h
    | tail _ h ih => exact lt_trans ih (topoSort_edge_lt g hwf hcomp h)
  exact absurd (hmono v v hv) (lt_irrefl _)

/-- `isDAGb` decides acyclicity on well-formed graphs (this is the networkx
contract the source relies on). -/
theorem isDAGb_iff_acyclic {α : Type} [DecidableEq α] (g : NxGraph α) (hwf : g.WF) :
    isDAGb g = true ↔ g.Acyclic := by
  unfold isDAGb
  constructor
  · intro h
    exact acyclic_of_complete g hwf (by simpa using h)
  · intro h
    simpa using topoSort_complete g hwf h

/-! ## Reachability: verification -/

theorem mem_addNew {α : Type} [DecidableEq α] :
    ∀ (l acc : List α) (w : α), w ∈ addNew acc l ↔ w ∈ acc ∨ w ∈ l := by
  intro l
  induction l with
  | nil => intro acc w; simp [addNew]
  | cons x xs ih =>
    intro acc w
    unfold addNew
    by_cases hx : x ∈ acc
    · rw [if_pos hx, ih]
      constructor
      · rintro (h | h)
        · exact Or.inl h
        · exact Or.inr (by simp [h])
      · rintro (h | h)
        · exact Or.inl h
        · rcases List.mem_cons.mp h with h | h
          · subst h; exact Or.inl hx
          · exact Or.inr h
    · rw [if_neg hx, ih]
      simp only [List.mem_append, List.mem_singleton, List.mem_cons]
      tauto

theorem addNew_nodup {α : Type} [DecidableEq α] :
    ∀ (l acc : List α), acc.Nodup → (addNew acc l).Nodup := by
  intro l
  induction l with
  | nil => intro acc h; simpa [addNew] using h
  | cons x xs ih =>
    intro acc h
    unfold addNew
    by_cases hx : x ∈ acc
    · rw [if_pos hx]; exact ih acc h
    · rw [if_neg hx]
      apply ih
      rw [List.nodup_append]
      exact ⟨h, List.nodup_singleton x, by
        intro a ha hb
        simp at hb
        subst hb
        exact hx ha⟩

theorem addNew_exists_ex {α : Type} [DecidableEq α] :
    ∀ (l acc : List α), ∃ ex, addNew acc l = acc ++ ex := by
  intro l
  induction l with
  | nil => intro acc; exact ⟨[], by simp [addNew]⟩
  | cons x xs ih =>
    intro acc
    unfold addNew
    by_cases hx : x ∈ acc
    · rw [if_pos hx]; exact ih acc
    · rw [if_neg hx]
      obtain ⟨ex, hex⟩ := ih (acc ++ [x])
      exact ⟨[x] ++ ex, by rw [hex]; simp⟩

theorem addNew_eq_closed {α : Type} [DecidableEq α] (l acc : List α)
    (h : addNew acc l = acc) : ∀ w ∈ l, w ∈ acc := by
  intro w hw
  have := (mem_addNew l acc w).mpr (Or.inr hw)
  rwa [h] at this

theorem succs_subset_nodes {α : Type} [DecidableEq α] {g : NxGraph α} (hwf : g.WF)
    (u : α) : ∀ w ∈ g.succs u, w ∈ g.nodes := by
  intro w hw
  exact hwf.edge_mem_right hw

theorem mem_expandOnce {α : Type} [DecidableEq α] (g : NxGraph α) (acc : List α) (w : α) :
    w ∈ expandOnce g acc ↔ w ∈ acc ∨ ∃ u ∈ acc, w ∈ g.succs u := by
  unfold expandOnce
  rw [mem_addNew, List.mem_flatMap]

theorem expandOnce_nodup {α : Type} [DecidableEq α] (g : NxGraph α) (acc : List α)
    (h : acc.Nodup) : (expandOnce g acc).Nodup := addNew_nodup _ _ h

theorem expandOnce_exists_ex {α : Type} [DecidableEq α] (g : NxGraph α) (acc : List α) :
    ∃ ex, expandOnce g acc = acc ++ ex := addNew_exists_ex _ _

theorem expandOnce_closed {α : Type} [DecidableEq α] (g : NxGraph α) (acc : List α)
    (h : expandOnce g acc = acc) : ∀ u ∈ acc, ∀ w ∈ g.succs u, w ∈ acc := by
  intro u hu w hw
  exact addNew_eq_closed _ _ h w (List.mem_flatMap.mpr ⟨u, hu, hw⟩)

theorem expandOnce_extends {α : Type} [DecidableEq α] (g : NxGraph α) (acc : List α) :
    acc ⊆ expandOnce g acc := by
  intro w hw
  exact (mem_expandOnce g acc w).mpr (Or.inl hw)

theorem reachGo_extends {α : Type} [DecidableEq α] (g : NxGraph α) :
    ∀ (n : Nat) (acc : List α), acc ⊆ reachGo g n acc := by
  intro n
  induction n with
  | zero => intro acc; simp [reachGo]
  | succ n ih =>
    intro acc
    unfold reachGo
    exact fun w hw => ih (expandOnce g acc) (expandOnce_extends g acc hw)

theorem reachGo_nodup {α : Type} [DecidableEq α] (g : NxGraph α) :
    ∀ (n : Nat) (acc : List α), acc.Nodup → (reachGo g n acc).Nodup := by
  intro n
  induction n with
  | zero => intro acc h; simpa [reachGo] using h
  | succ n ih =>
    intro acc h
    unfold reachGo
    exact ih _ (expandOnce_nodup g acc h)

theorem reachGo_subset {α : Type} [DecidableEq α] {g : NxGraph α} (hwf : g.WF) :
    ∀ (n : Nat) (acc : List α) (w : α), w ∈ reachGo g n acc → w ∈ acc ∨ w ∈ g.nodes := by
  intro n
  induction n with
  | zero => intro acc w h; simp [reachGo] at h; exact Or.inl h
  | succ n ih =>
    intro acc w h
    unfold reachGo at h
    rcases ih _ _ h with h1 | h1
    · rcases (mem_expandOnce g acc w).mp h1 with h2 | ⟨u, _, h2⟩
      · exact Or.inl h2
      · exact Or.inr (succs_subset_nodes hwf u w h2)
    · exact Or.inr h1

theorem reachGo_stable {α : Type} [DecidableEq α] (g : NxGraph α) (acc : List α)
    (h : expandOnce g acc = acc) : ∀ n, reachGo g n acc = acc := by
  intro n
  induction n with
  | zero => simp [reachGo]
  | succ n ih =>
    unfold reachGo
    rw [h]
    exact ih

theorem reachGo_fix {α : Type} [DecidableEq α] (g : NxGraph α) :
    ∀ (n : Nat) (acc : List α),
      expandOnce g (reachGo g n acc) = reachGo g n acc ∨
        acc.length + n ≤ (reachGo g n acc).length := by
  intro n
  induction n with
  | zero => exact fun acc => Or.inr (by simp [reachGo])
  | succ n ih =>
    intro acc
    by_cases hfix : expandOnce g acc = acc
    · left
      have hst : reachGo g (n + 1) acc = acc := reachGo_stable g acc hfix (n + 1)
      rw [hst]
      exact hfix
    · have hgrow : acc.length + 1 ≤ (expandOnce g acc).length := by
        obtain ⟨ex, hex⟩ := expandOnce_exists_ex g acc
        have hexne : ex ≠ [] := by
          intro hc
          rw [hc] at hex
          simp at hex
          exact hfix hex
        rw [hex]
        have : 1 ≤ ex.length := by
          cases ex with
          | nil => exact absurd rfl hexne
          | cons a l => simp
        simp only [List.length_append]
        omega
      have hrw : reachGo g (n + 1) acc = reachGo g n (expandOnce g acc) := rfl
      rw [hrw]
      rcases ih (expandOnce g acc) with h | h
      · exact Or.inl h
      · right
        omega

theorem reach_closed {α : Type} [DecidableEq α] {g : NxGraph α} (hwf : g.WF) {u : α}
    (hu : u ∈ g.nodes) :
    expandOnce g (reachGo g (g.nodes.length + 1) [u]) = reachGo g (g.nodes.length + 1) [u] := by
  rcases reachGo_fix g (g.nodes.length + 1) [u] with h | h
  · exact h
  · exfalso
    have hnd : (reachGo g (g.nodes.length + 1) [u]).Nodup :=
      reachGo_nodup g _ _ (List.nodup_singleton u)
    have hsub : ∀ w ∈ reachGo g (g.nodes.length + 1) [u], w ∈ g.nodes := by
      intro w hw
      rcases reachGo_subset hwf _ _ _ hw with h1 | h1
      · simp at h1; subst h1; exact hu
      · exact h1
    have := (List.subperm_of_subset hnd hsub).length_le
    simp at h
    omega

theorem reachGo_sound {α : Type} [DecidableEq α] (g : NxGraph α) (u : α) :
    ∀ (n : Nat) (acc : List α), (∀ w ∈ acc, Relation.ReflTransGen g.Edge u w) →
      ∀ w ∈ reachGo g n acc, Relation.ReflTransGen g.Edge u w := by
  intro n
  induction n with
  | zero => intro acc h w hw; simp [reachGo] at hw; exact h w hw
  | succ n ih =>
    intro acc h w hw
    unfold reachGo at hw
    refine ih (expandOnce g acc) ?_ w hw
    intro x hx
    rcases (mem_expandOnce g acc x).mp hx with h1 | ⟨v, hv, h1⟩
    · exact h x h1
    · exact Relation.ReflTransGen.tail (h v hv) h1

theorem reachB_refl {α : Type} [DecidableEq α] (g : NxGraph α) (u : α) :
    reachB g u u = true := by
  unfold reachB
  simp only [decide_eq_true_eq]
  exact reachGo_extends g _ [u] (by simp)

theorem reachB_iff {α : Type} [DecidableEq α] {g : NxGraph α} (hwf : g.WF) {u : α} (v : α)
    (hu : u ∈ g.nodes) :
    reachB g u v = true ↔ Relation.ReflTransGen g.Edge u v := by
  unfold reachB
  simp only [decide_eq_true_eq]
  constructor
  · intro h
    refine reachGo_sound g u _ [u] ?_ v h
    intro w hw
    simp at hw
    subst hw
    exact Relation.ReflTransGen.refl
  · intro h
    induction h with
    | refl => exact reachGo_extends g _ [u] (by simp)
    | tail _ he ih =>
      exact expandOnce_closed g _ (reach_closed hwf hu) _ ih _ he

theorem mutualB_refl {α : Type} [DecidableEq α] (g : NxGraph α) (v : α) :
    mutualB g v v = true := by
  simp [mutualB, reachB_refl]

theorem mutualB_iff {α : Type} [DecidableEq α] {g : NxGraph α} (hwf : g.WF) {u : α} (v : α)
    (hu : u ∈ g.nodes) :
    mutualB g u v = true ↔
      Relation.ReflTransGen g.Edge u v ∧ Relation.ReflTransGen g.Edge v u := by
  unfold mutualB
  rw [Bool.and_eq_true]
  constructor
  · intro ⟨h1, h2⟩
    refine ⟨(reachB_iff hwf v hu).mp h1, ?_⟩
    unfold reachB at h2
    simp only [decide_eq_true_eq] at h2
    refine reachGo_sound g v _ [v] ?_ u h2
    intro w hw
    simp at hw
    subst hw
    exact Relation.ReflTransGen.refl
  · intro ⟨h1, h2⟩
    refine ⟨(reachB_iff hwf v hu).mpr h1, ?_⟩
    rcases Relation.ReflTransGen.cases_head h2 with he | ⟨c, hc, _⟩
    · subst he
      exact reachB_refl g v
    · exact (reachB_iff hwf u (hwf.edge_mem_left hc)).mpr h2

theorem class_eq_of_mutual {α : Type} [DecidableEq α] {g : NxGraph α} (hwf : g.WF)
    {r1 r2 : α} (h1 : r1 ∈ g.nodes) (h2 : r2 ∈ g.nodes)
    (h12 : Relation.ReflTransGen g.Edge r1 r2) (h21 : Relation.ReflTransGen g.Edge r2 r1) :
    g.nodes.filter (fun w => mutualB g r1 w) = g.nodes.filter (fun w => mutualB g r2 w) := by
  apply List.filter_congr
  intro w _
  rw [Bool.eq_iff_iff, mutualB_iff hwf w h1, mutualB_iff hwf w h2]
  constructor
  · intro ⟨a, b⟩
    exact ⟨Relation.ReflTransGen.trans h21 a, Relation.ReflTransGen.trans b h12⟩
  · intro ⟨a, b⟩
    exact ⟨Relation.ReflTransGen.trans h12 a, Relation.ReflTransGen.trans b h21⟩

/-! ## Strongly connected components: verification -/

theorem foldl_preserve {β γ : Type} (P : γ → Prop) (step : γ → β → γ) :
    ∀ (l : List β) (acc : γ), P acc → (∀ acc x, x ∈ l → P acc → P (step acc x)) →
      P (l.foldl step acc) := by
  intro l
  induction l with
  | nil => intro acc h _; exact h
  | cons x xs ih =>
    intro acc h hstep
    exact ih (step acc x) (hstep acc x (by simp) h)
      (fun acc' y hy h' => hstep acc' y (by simp [hy]) h')

theorem sccList_aux {α : Type} [DecidableEq α] (g : NxGraph α) :
    ∀ (ns : List α) (acc : List (List α)),
      (∀ v ∈ ns, v ∈ g.nodes) →
      (∀ c ∈ acc, ∃ r ∈ g.nodes, c = g.nodes.filter (fun w => mutualB g r w)) →
      acc.Nodup →
      (∀ c ∈ ns.foldl
          (fun acc v =>
            if acc.any (fun c => decide (v ∈ c)) then acc
            else acc ++ [g.nodes.filter (fun w => mutualB g v w)]) acc,
          ∃ r ∈ g.nodes, c = g.nodes.filter (fun w => mutualB g r w)) ∧
        (ns.foldl
          (fun acc v =>
            if acc.any (fun c => decide (v ∈ c)) then acc
            else acc ++ [g.nodes.filter (fun w => mutualB g v w)]) acc).Nodup ∧
        (∀ c ∈ acc, c ∈ ns.foldl
          (fun acc v =>
            if acc.any (fun c => decide (v ∈ c)) then acc
            else acc ++ [g.nodes.filter (fun w => mutualB g v w)]) acc) ∧
        (∀ v ∈ ns, ∃ c ∈ ns.foldl
          (fun acc v =>
            if acc.any (fun c => decide (v ∈ c)) then acc
            else acc ++ [g.nodes.filter (fun w => mutualB g v w)]) acc, v ∈ c) := by
  intro ns
  induction ns with
  | nil =>
    intro acc _ h1 h2
    exact ⟨h1, h2, fun c hc => hc, by simp⟩
  | cons x0 ns ih =>
    intro acc hns h1 h2
    simp only [List.foldl_cons]
    by_cases hcov : acc.any (fun c => decide (x0 ∈ c))
    · rw [if_pos hcov]
      obtain ⟨a1, a2, a3, a4⟩ := ih acc (fun x hx => hns x (by simp [hx])) h1 h2
      refine ⟨a1, a2, a3, ?_⟩
      intro y hy
      rcases List.mem_cons.mp hy with hy | hy
      · subst hy
        simp only [List.any_eq_true, decide_eq_true_eq] at hcov
        obtain ⟨c0, hc0, hvc⟩ := hcov
        exact ⟨c0, a3 c0 hc0, hvc⟩
      · exact a4 y hy
    · rw [if_neg hcov]
      have hvn : x0 ∈ g.nodes := hns x0 (by simp)
      have hvcls : x0 ∈ g.nodes.filter (fun w => mutualB g x0 w) := by
        rw [List.mem_filter]
        exact ⟨hvn, mutualB_refl g x0⟩
      have h1' : ∀ c ∈ acc ++ [g.nodes.filter (fun w => mutualB g x0 w)],
          ∃ r ∈ g.nodes, c = g.nodes.filter (fun w => mutualB g r w) := by
        intro c hc
        rcases List.mem_append.mp hc with hc | hc
        · exact h1 c hc
        · simp only [List.mem_singleton] at hc
          exact ⟨x0, hvn, hc⟩
      have h2' : (acc ++ [g.nodes.filter (fun w => mutualB g x0 w)]).Nodup := by
        rw [List.nodup_append]
        refine ⟨h2, List.nodup_singleton _, ?_⟩
        intro c hc hc2
        simp only [List.mem_singleton] at hc2
        apply hcov
        simp only [List.any_eq_true, decide_eq_true_eq]
        exact ⟨c, hc, by rw [hc2]; exact hvcls⟩
      obtain ⟨a1, a2, a3, a4⟩ := ih _ (fun x hx => hns x (by simp [hx])) h1' h2'
      refine ⟨a1, a2, fun c hc => a3 c (List.mem_append.mpr (Or.inl hc)), ?_⟩
      intro y hy
      rcases List.mem_cons.mp hy with hy | hy
      · exact ⟨g.nodes.filter (fun w => mutualB g x0 w),
          a3 _ (List.mem_append.mpr (Or.inr (by simp))), by rw [hy]; exact hvcls⟩
      · exact a4 y hy

theorem sccList_classes {α : Type} [DecidableEq α] (g : NxGraph α) :
    ∀ c ∈ sccList g, ∃ r ∈ g.nodes, c = g.nodes.filter (fun w => mutualB g r w) :=
  (sccList_aux g g.nodes [] (fun _ h => h) (by simp) List.nodup_nil).1

theorem sccList_nodup {α : Type} [DecidableEq α] (g : NxGraph α) : (sccList g).Nodup :=
  (sccList_aux g g.nodes [] (fun _ h => h) (by simp) List.nodup_nil).2.1

theorem sccList_cover {α : Type} [DecidableEq α] (g : NxGraph α) :
    ∀ v ∈ g.nodes, ∃ c ∈ sccList g, v ∈ c :=
  (sccList_aux g g.nodes [] (fun _ h => h) (by simp) List.nodup_nil).2.2.2

theorem sccList_disjoint {α : Type} [DecidableEq α] {g : NxGraph α} (hwf : g.WF)
    {c1 c2 : List α} (h1 : c1 ∈ sccList g) (h2 : c2 ∈ sccList g) {x : α}
    (hx1 : x ∈ c1) (hx2 : x ∈ c2) : c1 = c2 := by
  obtain ⟨r1, hr1, he1⟩ := sccList_classes g c1 h1
  obtain ⟨r2, hr2, he2⟩ := sccList_classes g c2 h2
  subst he1
  subst he2
  rw [List.mem_filter] at hx1 hx2
  obtain ⟨m1a, m1b⟩ := (mutualB_iff hwf x hr1).mp hx1.2
  obtain ⟨m2a, m2b⟩ := (mutualB_iff hwf x hr2).mp hx2.2
  exact class_eq_of_mutual hwf hr1 hr2 (Relation.ReflTransGen.trans m1a m2b)
    (Relation.ReflTransGen.trans m2a m1b)

theorem compIdx_spec {α : Type} [DecidableEq α] (g : NxGraph α) (x : α)
    (hx : x ∈ g.nodes) :
    ∃ h : compIdx (sccList g) x < (sccList g).length,
      x ∈ (sccList g).get ⟨compIdx (sccList g) x, h⟩ := by
  obtain ⟨c, hc, hxc⟩ := sccList_cover g x hx
  have hlt : compIdx (sccList g) x < (sccList g).length := by
    unfold compIdx
    rw [List.findIdx_lt_length]
    exact ⟨c, hc, by simp [hxc]⟩
  refine ⟨hlt, ?_⟩
  have := @List.findIdx_getElem _ (fun c => decide (x ∈ c)) (sccList g) hlt
  simp only [decide_eq_true_eq] at this
  simpa [List.get_eq_getElem, compIdx] using this

theorem compIdx_eq_iff {α : Type} [DecidableEq α] {g : NxGraph α} (hwf : g.WF) {x : α}
    (hx : x ∈ g.nodes) (i : Fin (sccList g).length) :
    compIdx (sccList g) x = i.val ↔ x ∈ (sccList g).get i := by
  constructor
  · intro h
    obtain ⟨hlt, hmem⟩ := compIdx_spec g x hx
    have : (⟨compIdx (sccList g) x, hlt⟩ : Fin (sccList g).length) = i := Fin.ext h
    rwa [this] at hmem
  · intro h
    obtain ⟨hlt, hmem⟩ := compIdx_spec g x hx
    have heq : (sccList g).get ⟨compIdx (sccList g) x, hlt⟩ = (sccList g).get i :=
      sccList_disjoint hwf (List.get_mem _ _ _) (List.get_mem _ _ _) hmem h
    have := ((sccList_nodup g).get_inj_iff).mp heq
    exact congrArg Fin.val this

/-! ## Condensation graph: verification -/

theorem lookupA_append {κ α : Type} [DecidableEq κ] :
    ∀ (m1 m2 : List (κ × α)) (k : κ),
      lookupA (m1 ++ m2) k = ((lookupA m1 k).orElse (fun _ => lookupA m2 k)) := by
  intro m1
  induction m1 with
  | nil => intro m2 k; simp [lookupA]
  | cons p rest ih =>
    intro m2 k
    obtain ⟨k0, v0⟩ := p
    by_cases h0 : k0 = k
    · simp [lookupA, h0]
    · simp [lookupA, h0, ih]

theorem succs_addNode {α : Type} [DecidableEq α] (g : NxGraph α) (w a : α) :
    (g.addNode w).succs a = g.succs a := by
  unfold NxGraph.addNode
  by_cases h : w ∈ g.nodes
  · simp [h]
  · simp only [h, if_false]
    unfold NxGraph.succs
    rw [lookupA_append]
    cases hl : lookupA g.adjl a with
    | none => by_cases hwa : w = a <;> simp [Option.orElse, lookupA, hwa]
    | some l => simp [Option.orElse]

theorem Edge_addNode {α : Type} [DecidableEq α] (g : NxGraph α) (w a b : α) :
    (g.addNode w).Edge a b ↔ g.Edge a b := by
  unfold NxGraph.Edge
  rw [succs_addNode]

theorem succs_addEdge {α : Type} [DecidableEq α] (g : NxGraph α) (u v a : α) :
    (g.addEdge u v).succs a =
      if a = u ∧ v ∉ g.succs u then g.succs u ++ [v] else g.succs a := by
  have hs2 : ∀ x, ((g.addNode u).addNode v).succs x = g.succs x := by
    intro x; rw [succs_addNode, succs_addNode]
  unfold NxGraph.addEdge
  by_cases h : v ∈ ((g.addNode u).addNode v).succs u
  · rw [if_pos h]
    rw [hs2] at h
    have hc : ¬ (a = u ∧ v ∉ g.succs u) := by
      rintro ⟨_, hnv⟩
      exact hnv h
    rw [if_neg hc, hs2]
  · rw [if_neg h]
    rw [hs2] at h
    show ((lookupA (insertA _ u _) a).getD []) = _
    rw [lookupA_insertA]
    by_cases ha : u = a
    · subst ha
      simp [h, hs2]
    · rw [if_neg ha]
      have hc : ¬ (a = u ∧ v ∉ g.succs u) := by
        rintro ⟨ha2, _⟩
        exact ha ha2.symm
      rw [if_neg hc]
      exact congrArg (fun o => Option.getD o []) (rfl : lookupA ((g.addNode u).addNode v).adjl a = _) |>.trans (hs2 a)

theorem Edge_addEdge {α : Type} [DecidableEq α] (g : NxGraph α) (u v a b : α) :
    (g.addEdge u v).Edge a b ↔ g.Edge a b ∨ (a = u ∧ b = v) := by
  unfold NxGraph.Edge
  rw [succs_addEdge]
  by_cases hc : a = u ∧ v ∉ g.succs u
  · rw [if_pos hc]
    obtain ⟨ha, _⟩ := hc
    subst ha
    simp only [List.mem_append, List.mem_singleton]
    constructor
    · rintro (h | h)
      · exact Or.inl h
      · exact Or.inr ⟨by trivial, h⟩
    · rintro (h | ⟨_, hb⟩)
      · exact Or.inl h
      · exact Or.inr hb
  · rw [if_neg hc]
    constructor
    · exact Or.inl
    · rintro (h | ⟨ha, hb⟩)
      · exact h
      · subst ha
        subst hb
        by_cases hv : b ∈ g.succs a
        · exact hv
        · exact absurd ⟨rfl, hv⟩ hc

theorem Edge_foldl_addNode {α : Type} [DecidableEq α] :
    ∀ (l : List α) (g : NxGraph α) (a b : α),
      ((l.foldl (fun g i => g.addNode i) g).Edge a b) ↔ g.Edge a b := by
  intro l
  induction l with
  | nil => intro g a b; simp
  | cons x xs ih =>
    intro g a b
    simp only [List.foldl_cons]
    rw [ih, Edge_addNode]

theorem Edge_empty {α : Type} [DecidableEq α] (a b : α) :
    ¬ (NxGraph.empty α).Edge a b := by
  unfold NxGraph.Edge NxGraph.succs NxGraph.empty
  simp [lookupA]

theorem nodes_foldl_addNode {α : Type} [DecidableEq α] :
    ∀ (l : List α) (g : NxGraph α), (∀ x ∈ l, x ∉ g.nodes) → l.Nodup →
      (l.foldl (fun g i => g.addNode i) g).nodes = g.nodes ++ l := by
  intro l
  induction l with
  | nil => intro g _ _; simp
  | cons x xs ih =>
    intro g hfr hnd
    simp only [List.foldl_cons]
    have hx : x ∉ g.nodes := hfr x (by simp)
    have hnodes : (g.addNode x).nodes = g.nodes ++ [x] := by
      unfold NxGraph.addNode
      simp [hx]
    rw [ih (g.addNode x) ?_ (List.nodup_cons.mp hnd).2, hnodes]
    · simp
    · intro y hy
      rw [hnodes]
      intro hc
      rcases List.mem_append.mp hc with hc | hc
      · exact hfr y (by simp [hy]) hc
      · simp at hc
        subst hc
        exact (List.nodup_cons.mp hnd).1 hy

theorem nodes_addEdge_of_mem {α : Type} [DecidableEq α] (g : NxGraph α) {u v : α}
    (hu : u ∈ g.nodes) (hv : v ∈ g.nodes) : (g.addEdge u v).nodes = g.nodes := by
  rw [nodes_addEdge]
  unfold NxGraph.addNode
  simp [hu, hv]

/-- Nodes and well-formedness of the condensation graph. -/
theorem condGraph_nodes_WF {α : Type} [DecidableEq α] (g : NxGraph α)
    (comps : List (List α)) (hwf : g.WF)
    (hcov : ∀ u ∈ g.nodes, compIdx comps u < comps.length) :
    (condGraph g comps).nodes = List.range comps.length ∧ (condGraph g comps).WF := by
  unfold condGraph
  simp only
  set cg0 := (List.range comps.length).foldl (fun cg i => cg.addNode i) (NxGraph.empty Nat)
    with hcg0
  have h0nodes : cg0.nodes = List.range comps.length := by
    rw [hcg0, nodes_foldl_addNode _ _ (by intro x _; simp [NxGraph.empty])
      (List.nodup_range _)]
    simp [NxGraph.empty]
  have h0wf : cg0.WF := by
    rw [hcg0]
    exact foldl_preserve NxGraph.WF _ _ _ (WF_empty Nat) (fun acc x _ h => WF_addNode h x)
  refine foldl_preserve
    (fun (cg : NxGraph Nat) => cg.nodes = List.range comps.length ∧ cg.WF) _ _ _
    ⟨h0nodes, h0wf⟩ ?_
  intro cg u hu hcg
  obtain ⟨hn, hw⟩ := hcg
  refine foldl_preserve
    (fun (cg : NxGraph Nat) => cg.nodes = List.range comps.length ∧ cg.WF) _ _ _
    ⟨hn, hw⟩ ?_
  intro cg2 v hv hcg2
  obtain ⟨hn2, hw2⟩ := hcg2
  by_cases hij : compIdx comps u ≠ compIdx comps v
  · rw [if_pos hij]
    have hiu : compIdx comps u ∈ cg2.nodes := by
      rw [hn2, List.mem_range]
      exact hcov u hu
    have hiv : compIdx comps v ∈ cg2.nodes := by
      rw [hn2, List.mem_range]
      exact hcov v (succs_subset_nodes hwf u v hv)
    exact ⟨by rw [nodes_addEdge_of_mem cg2 hiu hiv]; exact hn2, WF_addEdge hw2 _ _⟩
  · rw [if_neg hij]
    exact ⟨hn2, hw2⟩

/-- Every condensation edge comes from an inter-component edge of `g`. -/
theorem condGraph_edge_char {α : Type} [DecidableEq α] (g : NxGraph α)
    (comps : List (List α)) :
    ∀ i j, (condGraph g comps).Edge i j →
      ∃ u v, g.Edge u v ∧ u ∈ g.nodes ∧ compIdx comps u = i ∧ compIdx comps v = j ∧
        i ≠ j := by
  unfold condGraph
  simp only
  set cg0 := (List.range comps.length).foldl (fun cg i => cg.addNode i) (NxGraph.empty Nat)
    with hcg0
  have h0 : ∀ i j, ¬ cg0.Edge i j := by
    intro i j h
    rw [hcg0, Edge_foldl_addNode] at h
    exact Edge_empty i j h
  refine foldl_preserve
    (fun (cg : NxGraph Nat) => ∀ i j, cg.Edge i j →
      ∃ u v, g.Edge u v ∧ u ∈ g.nodes ∧ compIdx comps u = i ∧ compIdx comps v = j ∧ i ≠ j)
    _ _ _ (fun i j h => absurd h (h0 i j)) ?_
  intro cg u hu hinv
  refine foldl_preserve
    (fun (cg : NxGraph Nat) => ∀ i j, cg.Edge i j →
      ∃ u v, g.Edge u v ∧ u ∈ g.nodes ∧ compIdx comps u = i ∧ compIdx comps v = j ∧ i ≠ j)
    _ _ _ hinv ?_
  intro cg2 v hv hinv2
  by_cases hij : compIdx comps u ≠ compIdx comps v
  · rw [if_pos hij]
    intro i j h
    rcases (Edge_addEdge cg2 _ _ i j).mp h with h | ⟨hi, hj⟩
    · exact hinv2 i j h
    · exact ⟨u, v, hv, hu, hi.symm, hj.symm, by rw [hi, hj]; exact hij⟩
  · rw [if_neg hij]
    exact hinv2

theorem same_comp_mutual {α : Type} [DecidableEq α] {g : NxGraph α} (hwf : g.WF) {x y : α}
    (hx : x ∈ g.nodes) (hy : y ∈ g.nodes)
    (h : compIdx (sccList g) x = compIdx (sccList g) y) :
    Relation.ReflTransGen g.Edge x y ∧ Relation.ReflTransGen g.Edge y x := by
  obtain ⟨hltx, hmx⟩ := compIdx_spec g x hx
  obtain ⟨hlty, hmy⟩ := compIdx_spec g y hy
  have hfin : (⟨compIdx (sccList g) x, hltx⟩ : Fin (sccList g).length) =
      ⟨compIdx (sccList g) y, hlty⟩ := Fin.ext h
  rw [hfin] at hmx
  obtain ⟨r, hr, hcl⟩ := sccList_classes g _
    (List.get_mem (sccList g) _ (⟨compIdx (sccList g) y, hlty⟩ : Fin (sccList g).length).2)
  rw [hcl, List.mem_filter] at hmx hmy
  obtain ⟨rx1, rx2⟩ := (mutualB_iff hwf x hr).mp hmx.2
  obtain ⟨ry1, ry2⟩ := (mutualB_iff hwf y hr).mp hmy.2
  exact ⟨Relation.ReflTransGen.trans rx2 ry1, Relation.ReflTransGen.trans ry2 rx1⟩

theorem mutual_same_idx {α : Type} [DecidableEq α] {g : NxGraph α} (hwf : g.WF) {x y : α}
    (hx : x ∈ g.nodes) (hy : y ∈ g.nodes)
    (hxy : Relation.ReflTransGen g.Edge x y) (hyx : Relation.ReflTransGen g.Edge y x) :
    compIdx (sccList g) x = compIdx (sccList g) y := by
  obtain ⟨hltx, hmx⟩ := compIdx_spec g x hx
  obtain ⟨r, hr, hcl⟩ := sccList_classes g _
    (List.get_mem (sccList g) _ (⟨compIdx (sccList g) x, hltx⟩ : Fin (sccList g).length).2)
  rw [hcl, List.mem_filter] at hmx
  obtain ⟨rx1, rx2⟩ := (mutualB_iff hwf x hr).mp hmx.2
  have hym : y ∈ (sccList g).get ⟨compIdx (sccList g) x, hltx⟩ := by
    rw [hcl, List.mem_filter]
    exact ⟨hy, (mutualB_iff hwf y hr).mpr
      ⟨Relation.ReflTransGen.trans rx1 hxy, Relation.ReflTransGen.trans hyx rx2⟩⟩
  exact ((compIdx_eq_iff hwf hy ⟨compIdx (sccList g) x, hltx⟩).mpr hym).symm

theorem cond_acyclic {α : Type} [DecidableEq α] (g : NxGraph α) (hwf : g.WF) :
    (condGraph g (sccList g)).Acyclic := by
  intro i hTG
  rw [Relation.TransGen.head'_iff] at hTG
  obtain ⟨k, hik, hki⟩ := hTG
  obtain ⟨u, v, huv, hu, hiu, hjv, hneq⟩ := condGraph_edge_char g (sccList g) i k hik
  have hv : v ∈ g.nodes := hwf.edge_mem_right huv
  have hlift : ∀ (a b : Nat), Relation.ReflTransGen (condGraph g (sccList g)).Edge a b →
      ∀ x, x ∈ g.nodes → compIdx (sccList g) x = a →
      ∀ y, y ∈ g.nodes → compIdx (sccList g) y = b →
      Relation.ReflTransGen g.Edge x y := by
    intro a b hab
    induction hab using Relation.ReflTransGen.head_induction_on with
    | refl =>
      intro x hx hxa y hy hyb
      exact (same_comp_mutual hwf hx hy (by rw [hxa, hyb])).1
    | head h' hrest ih =>
      intro x hx hxa y hy hyb
      obtain ⟨p, q, hpq, hp, hpa, hqc, _⟩ := condGraph_edge_char g (sccList g) _ _ h'
      have hq : q ∈ g.nodes := hwf.edge_mem_right hpq
      have h1 : Relation.ReflTransGen g.Edge x p :=
        (same_comp_mutual hwf hx hp (by rw [hxa, hpa])).1
      have h2 : Relation.ReflTransGen g.Edge q y := ih q hq hqc y hy hyb
      exact Relation.ReflTransGen.trans (Relation.ReflTransGen.tail h1 hpq) h2
  have hvu : Relation.ReflTransGen g.Edge v u := hlift k i hki v hv hjv u hu hiu
  have hidx := mutual_same_idx hwf hu hv (Relation.ReflTransGen.single huv) hvu
  rw [hiu, hjv] at hidx
  exact hneq hidx

theorem count_flatMap {α β : Type} [DecidableEq β] (f : α → List β) (x : β) :
    ∀ l : List α, ((l.flatMap f).count x) = (l.map (fun a => (f a).count x)).sum := by
  intro l
  induction l with
  | nil => simp
  | cons a t ih => simp [List.count_append, ih]

theorem sum_count_components {α : Type} [DecidableEq α] (x : α) :
    ∀ comps : List (List α),
      ((List.range comps.length).map (fun i => ((comps.get? i).getD []).count x)).sum
        = (comps.map (fun c => c.count x)).sum := by
  intro comps
  induction comps with
  | nil => simp
  | cons c cs ih =>
    rw [List.length_cons, List.range_succ_eq_map]
    simp only [List.map_cons, List.map_map, List.sum_cons]
    rw [← ih]
    congr 1

theorem count_sum_eq_one {α : Type} [DecidableEq α] (x : α) :
    ∀ comps : List (List α),
      comps.Nodup →
      (∀ c1 ∈ comps, ∀ c2 ∈ comps, ∀ y : α, y ∈ c1 → y ∈ c2 → c1 = c2) →
      (∀ c ∈ comps, c.Nodup) →
      (∃ c ∈ comps, x ∈ c) →
      (comps.map (fun c => c.count x)).sum = 1 := by
  intro comps
  induction comps with
  | nil => intro _ _ _ h; simp at h
  | cons c cs ih =>
    intro hnd hdisj hcnd hex
    simp only [List.map_cons, List.sum_cons]
    by_cases hxc : x ∈ c
    · have h1 : c.count x = 1 := List.count_eq_one_of_mem (hcnd c (by simp)) hxc
      have hnot : ∀ c' ∈ cs, x ∉ c' := by
        intro c' hc' hxc'
        have heq := hdisj c (by simp) c' (by simp [hc']) x hxc hxc'
        exact (List.nodup_cons.mp hnd).1 (heq ▸ hc')
      have h0 : (cs.map (fun c => c.count x)).sum = 0 := by
        apply List.sum_eq_zero
        intro y hy
        rw [List.mem_map] at hy
        obtain ⟨c', hc', hy2⟩ := hy
        rw [← hy2]
        exact List.count_eq_zero.mpr (hnot c' hc')
      omega
    · have h0 : c.count x = 0 := List.count_eq_zero.mpr hxc
      have hex' : ∃ c' ∈ cs, x ∈ c' := by
        obtain ⟨c', hc', hx'⟩ := hex
        rcases List.mem_cons.mp hc' with h | h
        · subst h; exact absurd hx' hxc
        · exact ⟨c', h, hx'⟩
      rw [h0, ih (List.nodup_cons.mp hnd).2
        (fun c1 h1 c2 h2 y hy1 hy2 => hdisj c1 (by simp [h1]) c2 (by simp [h2]) y hy1 hy2)
        (fun c' hc' => hcnd c' (by simp [hc'])) hex']

theorem sccFallback_count {g : NxGraph String} (hwf : g.WF) (x : String)
    (hx : x ∈ g.nodes) : (sccFallback g).count x = 1 := by
  unfold sccFallback
  have hcov : ∀ u ∈ g.nodes, compIdx (sccList g) u < (sccList g).length :=
    fun u hu => (compIdx_spec g u hu).1
  obtain ⟨hnodes, hcwf⟩ := condGraph_nodes_WF g (sccList g) hwf hcov
  have hacy : (condGraph g (sccList g)).Acyclic := cond_acyclic g hwf
  have hcomp : (topoSort (condGraph g (sccList g))).length =
      (condGraph g (sccList g)).nodes.length :=
    topoSort_complete _ hcwf hacy
  have hperm : (topoSort (condGraph g (sccList g))).Perm (List.range (sccList g).length) := by
    rw [← hnodes]
    exact (List.subperm_of_subset (topoSort_nodup _) (topoSort_subset _)).perm_of_length_le
      (by omega)
  rw [count_flatMap]
  have hsrt : ∀ i : Nat,
      (List.insertionSort (fun a b => pyStrLe a b = true)
        (((sccList g).get? i).getD [])).count x = (((sccList g).get? i).getD []).count x :=
    fun i => (List.perm_insertionSort _ _).count_eq x
  simp only [hsrt]
  rw [(hperm.map (fun i => (((sccList g).get? i).getD []).count x)).sum_eq]
  rw [sum_count_components]
  refine count_sum_eq_one x (sccList g) (sccList_nodup g) ?_ ?_ (sccList_cover g x hx)
  · intro c1 h1 c2 h2 y hy1 hy2
    exact sccList_disjoint hwf h1 h2 hy1 hy2
  · intro c hc
    obtain ⟨r, _, hcl⟩ := sccList_classes g c hc
    rw [hcl]
    exact List.Nodup.filter _ hwf.1

theorem mem_nodes_addEdge {α : Type} [DecidableEq α] (g : NxGraph α) (u v w : α)
    (h : w ∈ g.nodes) : w ∈ (g.addEdge u v).nodes := by
  rw [nodes_addEdge, mem_nodes_addNode, mem_nodes_addNode]
  exact Or.inl (Or.inl h)

theorem buildStepGraph_WF (steps : List ImplementationStep)
    (deps : List (String × List String)) : (buildStepGraph steps deps).WF := by
  unfold buildStepGraph
  refine foldl_preserve NxGraph.WF _ _ _ ?_ ?_
  · exact foldl_preserve NxGraph.WF _ _ _ (WF_empty String) (fun acc s _ h => WF_addNode h s.id)
  · intro acc p _ h
    exact foldl_preserve NxGraph.WF _ _ _ h (fun acc2 d _ h2 => WF_addEdge h2 d p.1)

theorem mem_buildStepGraph (steps : List ImplementationStep)
    (deps : List (String × List String)) (s : ImplementationStep) (hs : s ∈ steps) :
    s.id ∈ (buildStepGraph steps deps).nodes := by
  unfold buildStepGraph
  refine foldl_preserve (fun (gg : NxGraph String) => s.id ∈ gg.nodes) _ _ _ ?_ ?_
  · have : ∀ (l : List ImplementationStep) (g0 : NxGraph String),
        s ∈ l ∨ s.id ∈ g0.nodes →
          s.id ∈ (l.foldl (fun g st => g.addNode st.id) g0).nodes := by
      intro l
      induction l with
      | nil =>
        intro g0 h
        rcases h with h | h
        · simp at h
        · simpa using h
      | cons a t ih =>
        intro g0 h
        simp only [List.foldl_cons]
        rcases h with h | h
        · rcases List.mem_cons.mp h with h | h
          · subst h
            exact ih (g0.addNode s.id) (Or.inr (self_mem_addNode g0 s.id))
          · exact ih _ (Or.inl h)
        · refine ih _ (Or.inr ?_)
          rw [mem_nodes_addNode]
          exact Or.inl h
    exact this steps (NxGraph.empty String) (Or.inl hs)
  · intro acc p _ h
    exact foldl_preserve (fun (gg : NxGraph String) => s.id ∈ gg.nodes) _ _ _ h
      (fun acc2 d _ h2 => mem_nodes_addEdge _ _ _ _ h2)

/-- Every node id occurs exactly once in the computed execution order,
whether the step graph is acyclic (plain topological sort) or not
(strongly-connected-component fallback). -/
theorem calc_order_count (steps : List ImplementationStep)
    (deps : List (String × List String)) (x : String)
    (hx : x ∈ (buildStepGraph steps deps).nodes) :
    (calculate_execution_order steps deps).count x = 1 := by
  unfold calculate_execution_order
  have hwf := buildStepGraph_WF steps deps
  by_cases hdag : isDAGb (buildStepGraph steps deps)
  · rw [if_pos hdag]
    unfold isDAGb at hdag
    simp only [decide_eq_true_eq] at hdag
    have hperm : (topoSort (buildStepGraph steps deps)).Perm
        (buildStepGraph steps deps).nodes :=
      (List.subperm_of_subset (topoSort_nodup _) (topoSort_subset _)).perm_of_length_le
        (by omega)
    rw [hperm.count_eq]
    exact List.count_eq_one_of_mem hwf.1 hx
  · rw [if_neg hdag]
    exact sccFallback_count hwf x hx

theorem generate_strategy_eq (specs : List Specification)
    (refine : List Specification → List (String × List Specification))
    (supply : Nat → String) :
    generate_strategy specs refine supply =
      { steps := allSteps specs refine supply
        dependencies := allDeps specs refine supply
        execution_order := calculate_execution_order (allSteps specs refine supply)
          (allDeps specs refine supply) } := rfl

/-! ## Dependency-wiring phases: characterization -/

/-- The empty-initialized map has no members. -/
theorem init_no_mem (steps : List ImplementationStep) (k : String) (w : String) :
    w ∈ (lookupA (steps.foldl (fun d s => insertA d s.id ([] : List String)) []) k).getD [] →
      False := by
  refine foldl_preserve
    (fun (d : List (String × List String)) =>
      ∀ k w, w ∈ (lookupA d k).getD [] → False) _ _ _ ?_ ?_ k w
  · intro k w h
    simp [lookupA] at h
  · intro d s _ hinv k w h
    rw [lookupA_insertA] at h
    by_cases he : s.id = k
    · simp [he] at h
    · rw [if_neg he] at h
      exact hinv k w h

/-- Membership is monotone under `pushA`-based folds: generic helper. -/
theorem lookup_mem_mono_pushA {κ α : Type} [DecidableEq κ]
    (d : List (κ × List α)) (k0 : κ) (v0 : α) (k : κ) (w : α)
    (h : w ∈ (lookupA d k).getD []) : w ∈ (lookupA (pushA d k0 v0) k).getD [] :=
  mem_lookupA_pushA_of_mem d k0 k v0 w h

theorem gatingPhase_mono (steps arch_steps : List ImplementationStep)
    (d : List (String × List String)) (k : String) (w : String)
    (h : w ∈ (lookupA d k).getD []) :
    w ∈ (lookupA (gatingPhase steps arch_steps d) k).getD [] := by
  unfold gatingPhase
  refine foldl_preserve
    (fun (d : List (String × List String)) => w ∈ (lookupA d k).getD []) _ _ _ h ?_
  intro d2 s _ h2
  by_cases hp : hasArchPref s.id
  · rw [if_pos hp]; exact h2
  · rw [if_neg hp]
    refine foldl_preserve
      (fun (d : List (String × List String)) => w ∈ (lookupA d k).getD []) _ _ _ h2 ?_
    intro d3 a _ h3
    exact lookup_mem_mono_pushA d3 s.id a.id k w h3

theorem entityPhase_mono (sbn : List (String × Specification))
    (sbe : List ((String × String) × ImplementationStep))
    (specs : List Specification) (d : List (String × List String)) (k : String) (w : String)
    (h : w ∈ (lookupA d k).getD []) :
    w ∈ (lookupA (entityPhase sbn sbe specs d) k).getD [] := by
  unfold entityPhase
  refine foldl_preserve
    (fun (d : List (String × List String)) => w ∈ (lookupA d k).getD []) _ _ _ h ?_
  intro d2 sp _ h2
  split
  · exact h2
  · refine foldl_preserve
      (fun (d : List (String × List String)) => w ∈ (lookupA d k).getD []) _ _ _ h2 ?_
    intro d3 dn _ h3
    split
    · exact h3
    · split
      · exact h3
      · split
        · exact h3
        · exact lookup_mem_mono_pushA _ _ _ k w h3

theorem patternPhase_mono (estbt : List (String × List ImplementationStep))
    (steps : List ImplementationStep) (d : List (String × List String)) (k : String)
    (w : String) (h : w ∈ (lookupA d k).getD []) :
    w ∈ (lookupA (patternPhase estbt steps d) k).getD [] := by
  unfold patternPhase
  refine foldl_preserve
    (fun (d : List (String × List String)) => w ∈ (lookupA d k).getD []) _ _ _ h ?_
  intro d2 ps _ h2
  refine foldl_preserve
    (fun (d : List (String × List String)) => w ∈ (lookupA d k).getD []) _ _ _ h2 ?_
  intro d3 tp _ h3
  refine foldl_preserve
    (fun (d : List (String × List String)) => w ∈ (lookupA d k).getD []) _ _ _ h3 ?_
  intro d4 es _ h4
  by_cases hin : es.id ∈ (lookupA d4 ps.id).getD []
  · rw [if_pos hin]; exact h4
  · rw [if_neg hin]
    exact lookup_mem_mono_pushA d4 ps.id es.id k w h4

/-- Everything the gating phase adds comes from a non-architecture-prefixed
key and an architecture-prefixed step. -/
theorem gatingPhase_char (steps arch_steps : List ImplementationStep)
    (d : List (String × List String)) :
    ∀ k w, w ∈ (lookupA (gatingPhase steps arch_steps d) k).getD [] →
      w ∈ (lookupA d k).getD [] ∨
        ((∃ s ∈ steps, s.id = k ∧ hasArchPref s.id = false) ∧ ∃ a ∈ arch_steps, a.id = w) := by
  unfold gatingPhase
  refine foldl_preserve
    (fun (d2 : List (String × List String)) =>
      ∀ k w, w ∈ (lookupA d2 k).getD [] →
        w ∈ (lookupA d k).getD [] ∨
          ((∃ s ∈ steps, s.id = k ∧ hasArchPref s.id = false) ∧ ∃ a ∈ arch_steps, a.id = w))
    _ _ _ (fun k w h => Or.inl h) ?_
  intro d2 s hs hinv
  by_cases hp : hasArchPref s.id
  · rw [if_pos hp]; exact hinv
  · rw [if_neg hp]
    refine foldl_preserve
      (fun (d3 : List (String × List String)) =>
        ∀ k w, w ∈ (lookupA d3 k).getD [] →
          w ∈ (lookupA d k).getD [] ∨
            ((∃ s ∈ steps, s.id = k ∧ hasArchPref s.id = false) ∧ ∃ a ∈ arch_steps, a.id = w))
      _ _ _ hinv ?_
    intro d3 a ha hinv3 k w h
    rcases mem_lookupA_pushA d3 s.id k a.id w h with h2 | ⟨hk, hw⟩
    · exact hinv3 k w h2
    · exact Or.inr ⟨⟨s, hs, hk, by simp [hp]⟩, a, ha, hw.symm⟩

/-- Everything the declared-dependency phase adds targets the step resolved
for some specification and adds the id of a step resolved for one of its
declared dependencies. -/
theorem entityPhase_char (sbn : List (String × Specification))
    (sbe : List ((String × String) × ImplementationStep))
    (specs : List Specification) (d : List (String × List String)) :
    ∀ k w, w ∈ (lookupA (entityPhase sbn sbe specs d) k).getD [] →
      w ∈ (lookupA d k).getD [] ∨
        ∃ sp ∈ specs, ∃ estep, lookupA sbe (sp.entity_type, sp.entity_name) = some estep ∧
          estep.id = k ∧ ∃ dn ∈ sp.dependencies, ∃ dsp dstep, lookupA sbn dn = some dsp ∧
            lookupA sbe (dsp.entity_type, dn) = some dstep ∧ dstep.id = w := by
  unfold entityPhase
  refine foldl_preserve
    (fun (d2 : List (String × List String)) =>
      ∀ k w, w ∈ (lookupA d2 k).getD [] →
        w ∈ (lookupA d k).getD [] ∨
          ∃ sp ∈ specs, ∃ estep, lookupA sbe (sp.entity_type, sp.entity_name) = some estep ∧
            estep.id = k ∧ ∃ dn ∈ sp.dependencies, ∃ dsp dstep, lookupA sbn dn = some dsp ∧
              lookupA sbe (dsp.entity_type, dn) = some dstep ∧ dstep.id = w)
    _ _ _ (fun k w h => Or.inl h) ?_
  intro d2 sp hsp hinv
  split
  · exact hinv
  · next estep heqe =>
    refine foldl_preserve
      (fun (d3 : List (String × List String)) =>
        ∀ k w, w ∈ (lookupA d3 k).getD [] →
          w ∈ (lookupA d k).getD [] ∨
            ∃ sp ∈ specs, ∃ estep, lookupA sbe (sp.entity_type, sp.entity_name) = some estep ∧
              estep.id = k ∧ ∃ dn ∈ sp.dependencies, ∃ dsp dstep, lookupA sbn dn = some dsp ∧
                lookupA sbe (dsp.entity_type, dn) = some dstep ∧ dstep.id = w)
      _ _ _ hinv ?_
    intro d3 dn hdn hinv3
    split
    · exact hinv3
    · next dsp heqd =>
      split
      · exact hinv3
      · next dstep heqs =>
        split
        · exact hinv3
        · intro k w h
          rcases mem_lookupA_pushA d3 estep.id k dstep.id w h with h2 | ⟨hk, hw⟩
          · exact hinv3 k w h2
          · exact Or.inr ⟨sp, hsp, estep, heqe, hk, dn, hdn, dsp, dstep, heqd, heqs, hw.symm⟩

/-- Everything the pattern phase adds targets a `pattern_`-prefixed step and
adds the id of an entity step. -/
theorem patternPhase_char (estbt : List (String × List ImplementationStep))
    (steps : List ImplementationStep) (d : List (String × List String)) :
    ∀ k w, w ∈ (lookupA (patternPhase estbt steps d) k).getD [] →
      w ∈ (lookupA d k).getD [] ∨
        ((∃ ps ∈ steps, strStarts ps.id "pattern_" = true ∧ ps.id = k) ∧
          ∃ tp ∈ estbt, ∃ es ∈ tp.2, (es : ImplementationStep).id = w) := by
  unfold patternPhase
  refine foldl_preserve
    (fun (d2 : List (String × List String)) =>
      ∀ k w, w ∈ (lookupA d2 k).getD [] →
        w ∈ (lookupA d k).getD [] ∨
          ((∃ ps ∈ steps, strStarts ps.id "pattern_" = true ∧ ps.id = k) ∧
            ∃ tp ∈ estbt, ∃ es ∈ tp.2, (es : ImplementationStep).id = w))
    _ _ _ (fun k w h => Or.inl h) ?_
  intro d2 ps hps hinv
  have hps2 : ps ∈ steps ∧ strStarts ps.id "pattern_" = true := by
    rw [List.mem_filter] at hps
    exact hps
  refine foldl_preserve
    (fun (d3 : List (String × List String)) =>
      ∀ k w, w ∈ (lookupA d3 k).getD [] →
        w ∈ (lookupA d k).getD [] ∨
          ((∃ ps ∈ steps, strStarts ps.id "pattern_" = true ∧ ps.id = k) ∧
            ∃ tp ∈ estbt, ∃ es ∈ tp.2, (es : ImplementationStep).id = w))
    _ _ _ hinv ?_
  intro d3 tp htp hinv3
  refine foldl_preserve
    (fun (d4 : List (String × List String)) =>
      ∀ k w, w ∈ (lookupA d4 k).getD [] →
        w ∈ (lookupA d k).getD [] ∨
          ((∃ ps ∈ steps, strStarts ps.id "pattern_" = true ∧ ps.id = k) ∧
            ∃ tp ∈ estbt, ∃ es ∈ tp.2, (es : ImplementationStep).id = w))
    _ _ _ hinv3 ?_
  intro d4 es hes hinv4
  split
  · exact hinv4
  · intro k w h
    rcases mem_lookupA_pushA d4 ps.id k es.id w h with h2 | ⟨hk, hw⟩
    · exact hinv4 k w h2
    · exact Or.inr ⟨⟨ps, hps2.1, hps2.2, hk⟩, tp, htp, es, hes, hw.symm⟩

/-- The gating phase does add every architecture-prefixed step to every
non-prefixed step's entry. -/
theorem gatingPhase_adds (steps arch_steps : List ImplementationStep)
    (d : List (String × List String)) :
    ∀ s ∈ steps, hasArchPref s.id = false → ∀ a ∈ arch_steps,
      a.id ∈ (lookupA (gatingPhase steps arch_steps d) s.id).getD [] := by
  unfold gatingPhase
  intro s hs hpref a ha
  have hpush : ∀ (d3 : List (String × List String)),
      a.id ∈ (lookupA (arch_steps.foldl (fun d a2 => pushA d s.id a2.id) d3) s.id).getD [] := by
    intro d3
    have : ∀ (l : List ImplementationStep) (d4 : List (String × List String)),
        a ∈ l ∨ a.id ∈ (lookupA d4 s.id).getD [] →
          a.id ∈ (lookupA (l.foldl (fun d a2 => pushA d s.id a2.id) d4) s.id).getD [] := by
      intro l
      induction l with
      | nil =>
        intro d4 h
        rcases h with h | h
        · simp at h
        · simpa using h
      | cons b t ih =>
        intro d4 h
        simp only [List.foldl_cons]
        rcases h with h | h
        · rcases List.mem_cons.mp h with h | h
          · subst h
            refine ih _ (Or.inr ?_)
            rw [lookupA_pushA_self]
            simp
          · exact ih _ (Or.inl h)
        · refine ih _ (Or.inr ?_)
          exact lookup_mem_mono_pushA d4 s.id b.id s.id a.id h
    exact this arch_steps d3 (Or.inl ha)
  have hmain : ∀ (l : List ImplementationStep) (d2 : List (String × List String)),
      s ∈ l ∨ a.id ∈ (lookupA d2 s.id).getD [] →
        a.id ∈ (lookupA (l.foldl
          (fun d2 s2 => if hasArchPref s2.id then d2
            else arch_steps.foldl (fun d3 a2 => pushA d3 s2.id a2.id) d2) d2) s.id).getD [] := by
    intro l
    induction l with
    | nil =>
      intro d2 h
      rcases h with h | h
      · simp at h
      · simpa using h
    | cons b t ih =>
      intro d2 h
      simp only [List.foldl_cons]
      rcases h with h | h
      · rcases List.mem_cons.mp h with h | h
        · subst h
          rw [if_neg (by simp [hpref])]
          exact ih _ (Or.inr (hpush d2))
        · exact ih _ (Or.inl h)
      · refine ih _ (Or.inr ?_)
        by_cases hp2 : hasArchPref b.id
        · rw [if_pos hp2]; exact h
        · rw [if_neg hp2]
          refine foldl_preserve
            (fun (d3 : List (String × List String)) => a.id ∈ (lookupA d3 s.id).getD [])
            _ _ _ h ?_
          intro d3 a2 _ h3
          exact lookup_mem_mono_pushA d3 b.id a2.id s.id a.id h3
  exact hmain steps d (Or.inl hs)

/-- Every entry of the dependency map yields a graph edge. -/
theorem buildStepGraph_edge (steps : List ImplementationStep)
    (deps : List (String × List String)) (b : String) (l : List String) (a : String)
    (hb : (b, l) ∈ deps) (ha : a ∈ l) : (buildStepGraph steps deps).Edge a b := by
  unfold buildStepGraph
  have hmono : ∀ (dl : List (String × List String)) (g : NxGraph String),
      (buildStepGraph steps deps).Edge a b ∨ ((b, l) ∈ dl ∧ a ∈ l) →
        True := fun _ _ _ => trivial
  clear hmono
  refine (?_ : ∀ (dl : List (String × List String)) (g : NxGraph String),
    ((b, l) ∈ dl ∨ g.Edge a b) →
      (dl.foldl (fun g p => p.2.foldl (fun g dd => g.addEdge dd p.1) g) g).Edge a b) deps _
    (Or.inl hb)
  intro dl
  induction dl with
  | nil =>
    intro g h
    rcases h with h | h
    · simp at h
    · simpa using h
  | cons p t ih =>
    intro g h
    simp only [List.foldl_cons]
    rcases h with h | h
    · rcases List.mem_cons.mp h with h | h
      · subst h
        refine ih _ (Or.inr ?_)
        have hadds : ∀ (vl : List String) (g2 : NxGraph String),
            a ∈ vl ∨ g2.Edge a b → (vl.foldl (fun g2 dd => g2.addEdge dd b) g2).Edge a b := by
          intro vl
          induction vl with
          | nil =>
            intro g2 h2
            rcases h2 with h2 | h2
            · simp at h2
            · simpa using h2
          | cons dd t2 ih2 =>
            intro g2 h2
            simp only [List.foldl_cons]
            rcases h2 with h2 | h2
            · rcases List.mem_cons.mp h2 with h2 | h2
              · subst h2
                refine ih2 _ (Or.inr ?_)
                rw [Edge_addEdge]
                exact Or.inr ⟨rfl, rfl⟩
              · exact ih2 _ (Or.inl h2)
            · refine ih2 _ (Or.inr ?_)
              rw [Edge_addEdge]
              exact Or.inl h2
        exact hadds l g (Or.inl ha)
      · exact ih _ (Or.inl h)
    · refine ih _ (Or.inr ?_)
      refine foldl_preserve (fun (g2 : NxGraph String) => g2.Edge a b) _ _ _ h ?_
      intro g2 dd _ h2
      rw [Edge_addEdge]
      exact Or.inl h2

/-! ## String-level facts about step ids -/

theorem toList_append (a b : String) : (a ++ b).toList = a.toList ++ b.toList :=
  String.data_append a b

theorem strStarts_append_self (p r : String) : strStarts (p ++ r) p = true := by
  unfold strStarts
  rw [toList_append]
  exact List.isPrefixOf_iff_prefix.mpr (List.prefix_append _ _)

theorem strStarts_false_of_head {s p : String} {c d : Char} {cs ds : List Char}
    (hs : s.toList = c :: cs) (hp : p.toList = d :: ds) (hne : (d == c) = false) :
    strStarts s p = false := by
  unfold strStarts
  rw [hs, hp]
  simp [List.isPrefixOf, hne]

theorem toList_head_concat (a r : String) (c : Char) (tl : List Char)
    (h : a.toList = c :: tl) : (a ++ r).toList = c :: (tl ++ r.toList) := by
  rw [toList_append, h]
  rfl

theorem hasArchPref_setup (u : String) : hasArchPref ("setup_" ++ u) = true := by
  unfold hasArchPref
  rw [strStarts_append_self]
  rfl

theorem hasArchPref_comp (u : String) : hasArchPref ("arch_components_" ++ u) = true := by
  unfold hasArchPref
  rw [strStarts_append_self]
  simp

theorem hasArchPref_of_head {s : String} {c : Char} {cs : List Char}
    (hs : s.toList = c :: cs) (h1 : ('s' == c) = false) (h2 : ('a' == c) = false) :
    hasArchPref s = false := by
  unfold hasArchPref
  rw [strStarts_false_of_head hs (by rfl) h1, strStarts_false_of_head hs (by rfl) h2]
  rfl

theorem patternStart_false_of_head {s : String} {c : Char} {cs : List Char}
    (hs : s.toList = c :: cs) (h : ('p' == c) = false) :
    strStarts s "pattern_" = false :=
  strStarts_false_of_head hs (by rfl) h

theorem splitChar_no_sep (sep : Char) : ∀ l : List Char, sep ∉ l → splitChar sep l = [l] := by
  intro l
  induction l with
  | nil => intro _; simp [splitChar]
  | cons c cs ih =>
    intro h
    unfold splitChar
    rw [if_neg (fun hc => h (by simp [hc]))]
    rw [ih (fun hc => h (by simp [hc]))]

theorem splitChar_append (sep : Char) : ∀ (l1 l2 : List Char), sep ∉ l1 →
    splitChar sep (l1 ++ sep :: l2) = l1 :: splitChar sep l2 := by
  intro l1
  induction l1 with
  | nil => intro l2 _; simp [splitChar]
  | cons c cs ih =>
    intro l2 h
    have hstep : splitChar sep (c :: (cs ++ sep :: l2)) =
        match splitChar sep (cs ++ sep :: l2) with
        | [] => [[c]]
        | t :: ts => (c :: t) :: ts := by
      conv_lhs => unfold splitChar
      rw [if_neg (fun hc => h (by simp [hc]))]
    simp only [List.cons_append]
    rw [hstep, ih l2 (fun hc => h (by simp [hc]))]

theorem parseKey_setup (u : String) (hu : '_' ∉ u.toList) :
    parseKey ("setup_" ++ u) = none := by
  unfold parseKey pySplitUnd
  have h1 : ("setup_" ++ u).toList = ['s', 'e', 't', 'u', 'p'] ++ '_' :: u.toList := by
    rw [toList_append]
    rfl
  rw [h1, splitChar_append _ _ _ (by decide), splitChar_no_sep _ _ hu]
  rfl

theorem parseKey_comp (u : String) (hu : '_' ∉ u.toList) :
    parseKey ("arch_components_" ++ u) = some ("arch", "components") := by
  unfold parseKey pySplitUnd
  have h1 : ("arch_components_" ++ u).toList
      = ['a', 'r', 'c', 'h'] ++ '_' ::
        (['c', 'o', 'm', 'p', 'o', 'n', 'e', 'n', 't', 's'] ++ '_' :: u.toList) := by
    rw [toList_append]
    rfl
  rw [h1, splitChar_append _ _ _ (by decide), splitChar_append _ _ _ (by decide),
    splitChar_no_sep _ _ hu]
  rfl

/-- The first '_'-token of a parsed step key is the first '_'-token of the id. -/
theorem parseKey_head {sid : String} {key : String × String}
    (h : parseKey sid = some key) :
    (pySplitUnd sid).headD "" = key.1 := by
  unfold parseKey at h
  by_cases hlen : (pySplitUnd sid).length ≥ 3
  · rw [if_pos hlen] at h
    cases h
    rfl
  · rw [if_neg hlen] at h
    cases h

/-- The `step_by_entity` map stores steps under their own parsed key. -/
theorem stepByEntity_lookup (steps : List ImplementationStep) :
    ∀ (key : String × String) (st : ImplementationStep),
      lookupA (stepByEntity steps) key = some st →
        parseKey st.id = some key ∧ st ∈ steps := by
  unfold stepByEntity
  refine foldl_preserve
    (fun (m : List ((String × String) × ImplementationStep)) =>
      ∀ key st, lookupA m key = some st → parseKey st.id = some key ∧ st ∈ steps)
    _ _ _ ?_ ?_
  · intro key st h
    simp [lookupA] at h
  · intro m s hs hinv
    split
    · next key2 heq =>
      intro key st h
      rw [lookupA_insertA] at h
      by_cases hk : key2 = key
      · rw [if_pos hk] at h
        cases h
        exact ⟨by rw [heq, hk], hs⟩
      · rw [if_neg hk] at h
        exact hinv key st h
    · exact hinv

/-- `specs_by_type` stores each specification under its own type. -/
theorem specsByType_sound (specs : List Specification) :
    ∀ (t : String) (l : List Specification),
      lookupA (specsByType specs) t = some l →
        ∀ sp ∈ l, sp.entity_type = t ∧ sp ∈ specs := by
  unfold specsByType
  refine foldl_preserve
    (fun (m : List (String × List Specification)) =>
      ∀ t l, lookupA m t = some l → ∀ sp ∈ l, sp.entity_type = t ∧ sp ∈ specs)
    _ _ _ ?_ ?_
  · intro t l h
    simp [lookupA] at h
  · intro m sp hsp hinv t l h
    rw [lookupA_pushA] at h
    by_cases ht : sp.entity_type = t
    · rw [if_pos ht] at h
      cases h
      intro sp2 hsp2
      rcases List.mem_append.mp hsp2 with h2 | h2
      · cases hl : lookupA m sp.entity_type with
        | none => rw [hl] at h2; simp at h2
        | some l0 =>
          rw [hl] at h2
          simp at h2
          have hr := hinv sp.entity_type l0 hl sp2 h2
          exact ⟨hr.1.trans ht, hr.2⟩
      · simp at h2
        subst h2
        exact ⟨ht, hsp⟩
    · rw [if_neg ht] at h
      exact hinv t l h

/-! ## Shapes and coverage of generated steps -/

theorem arch_steps_shape (supply : Nat → String) :
    ∀ (aspecs : List Specification) (k : Nat) (st : ImplementationStep),
      st ∈ (generate_architectural_steps supply k aspecs).1 →
      ∃ i, st.id = "setup_" ++ supply i ∨ st.id = "arch_components_" ++ supply i := by
  intro aspecs
  induction aspecs with
  | nil => intro k st h; simp [generate_architectural_steps] at h
  | cons sp rest ih =>
    intro k st h
    simp only [generate_architectural_steps] at h
    rcases List.mem_cons.mp h with h | h
    · exact ⟨k, Or.inl (by rw [h])⟩
    rcases List.mem_cons.mp h with h | h
    · exact ⟨k + 1, Or.inr (by rw [h])⟩
    · exact ih (k + 2) st h

/-- Each architecture specification's setup step is generated (identified by
its description, which embeds the entity name). -/
theorem arch_steps_cover (supply : Nat → String) :
    ∀ (aspecs : List Specification) (k : Nat) (sp : Specification), sp ∈ aspecs →
      ∃ st ∈ (generate_architectural_steps supply k aspecs).1,
        st.description = "Set up project structure based on " ++ sp.entity_name ++
          " architecture" := by
  intro aspecs
  induction aspecs with
  | nil => intro k sp h; simp at h
  | cons sp0 rest ih =>
    intro k sp h
    rcases List.mem_cons.mp h with h | h
    · subst h
      simp only [generate_architectural_steps]
      exact ⟨_, List.mem_cons_self _ _, rfl⟩
    · obtain ⟨st, hst, hd⟩ := ih (k + 2) sp h
      refine ⟨st, ?_, hd⟩
      simp only [generate_architectural_steps]
      simp [hst]

theorem pattern_steps_shape (supply : Nat → String) :
    ∀ (pspecs : List Specification) (k : Nat) (st : ImplementationStep),
      st ∈ (generate_pattern_steps supply k pspecs).1 →
      ∃ sp i, sp ∈ pspecs ∧ st.id = "pattern_" ++ (sp.entity_name ++ "_" ++ supply i) := by
  intro pspecs
  induction pspecs with
  | nil => intro k st h; simp [generate_pattern_steps] at h
  | cons sp rest ih =>
    intro k st h
    simp only [generate_pattern_steps] at h
    rcases List.mem_cons.mp h with h | h
    · refine ⟨sp, k, by simp, ?_⟩
      rw [h]
      simp [String.append_assoc]
    · obtain ⟨sp2, i, hsp2, hid⟩ := ih (k + 1) st h
      exact ⟨sp2, i, by simp [hsp2], hid⟩

theorem pattern_steps_cover (supply : Nat → String) :
    ∀ (pspecs : List Specification) (k : Nat) (sp : Specification), sp ∈ pspecs →
      ∃ st ∈ (generate_pattern_steps supply k pspecs).1,
        st.description = "Implement " ++ sp.entity_name ++ " pattern" := by
  intro pspecs
  induction pspecs with
  | nil => intro k sp h; simp at h
  | cons sp0 rest ih =>
    intro k sp h
    rcases List.mem_cons.mp h with h | h
    · subst h
      simp only [generate_pattern_steps]
      exact ⟨_, List.mem_cons_self _ _, rfl⟩
    · obtain ⟨st, hst, hd⟩ := ih (k + 1) sp h
      refine ⟨st, ?_, hd⟩
      simp only [generate_pattern_steps]
      simp [hst]

theorem individualSteps_shape (supply : Nat → String) :
    ∀ (gspecs : List Specification) (k : Nat) (st : ImplementationStep),
      st ∈ (individualSteps supply k gspecs).1 →
      ∃ sp i, sp ∈ gspecs ∧ st = create_entity_implementation_step sp (supply i) := by
  intro gspecs
  induction gspecs with
  | nil => intro k st h; simp [individualSteps] at h
  | cons sp rest ih =>
    intro k st h
    simp only [individualSteps] at h
    rcases List.mem_cons.mp h with h | h
    · exact ⟨sp, k, by simp, h⟩
    · obtain ⟨sp2, i, hsp2, hst⟩ := ih (k + 1) st h
      exact ⟨sp2, i, by simp [hsp2], hst⟩

theorem individualSteps_cover (supply : Nat → String) :
    ∀ (gspecs : List Specification) (k : Nat) (sp : Specification), sp ∈ gspecs →
      ∃ st ∈ (individualSteps supply k gspecs).1,
        st.description = "Implement " ++ sp.entity_type ++ ": " ++ sp.entity_name := by
  intro gspecs
  induction gspecs with
  | nil => intro k sp h; simp at h
  | cons sp0 rest ih =>
    intro k sp h
    rcases List.mem_cons.mp h with h | h
    · subst h
      simp only [individualSteps]
      exact ⟨_, List.mem_cons_self _ _, rfl⟩
    · obtain ⟨st, hst, hd⟩ := ih (k + 1) sp h
      refine ⟨st, ?_, hd⟩
      simp only [individualSteps]
      simp [hst]

theorem groupSteps_shape (t : String) (supply : Nat → String) :
    ∀ (groups : List (String × List Specification)) (k : Nat) (st : ImplementationStep),
      st ∈ (groupSteps t supply k groups).1 →
      (∃ gname i, (∃ gspecs, (gname, gspecs) ∈ groups) ∧
        st.id = t ++ "_" ++ (gname ++ "_" ++ supply i)) ∨
      (∃ sp i, (∃ gname gspecs, (gname, gspecs) ∈ groups ∧ sp ∈ gspecs) ∧
        st = create_entity_implementation_step sp (supply i)) := by
  intro groups
  induction groups with
  | nil => intro k st h; simp [groupSteps] at h
  | cons p rest ih =>
    intro k st h
    obtain ⟨gname, gspecs⟩ := p
    simp only [groupSteps] at h
    by_cases hlen : gspecs.length > 3
    · rw [if_pos hlen] at h
      rcases List.mem_cons.mp h with h | h
      · refine Or.inl ⟨gname, k, ⟨gspecs, by simp⟩, ?_⟩
        rw [h]
        simp [String.append_assoc]
      · rcases ih (k + 1) st h with ⟨g2, i, ⟨gs2, hg2⟩, hid⟩ | ⟨sp, i, ⟨g2, gs2, hg2, hsp⟩, hst⟩
        · exact Or.inl ⟨g2, i, ⟨gs2, by simp [hg2]⟩, hid⟩
        · exact Or.inr ⟨sp, i, ⟨g2, gs2, by simp [hg2], hsp⟩, hst⟩
    · rw [if_neg hlen] at h
      rcases List.mem_append.mp h with h | h
      · obtain ⟨sp, i, hsp, hst⟩ := individualSteps_shape supply gspecs k st h
        exact Or.inr ⟨sp, i, ⟨gname, gspecs, by simp, hsp⟩, hst⟩
      · rcases ih _ st h with ⟨g2, i, ⟨gs2, hg2⟩, hid⟩ | ⟨sp, i, ⟨g2, gs2, hg2, hsp⟩, hst⟩
        · exact Or.inl ⟨g2, i, ⟨gs2, by simp [hg2]⟩, hid⟩
        · exact Or.inr ⟨sp, i, ⟨g2, gs2, by simp [hg2], hsp⟩, hst⟩

theorem groupSteps_cover (t : String) (supply : Nat → String) :
    ∀ (groups : List (String × List Specification)) (k : Nat)
      (gname : String) (gspecs : List Specification) (sp : Specification),
      (gname, gspecs) ∈ groups → sp ∈ gspecs →
      ∃ st ∈ (groupSteps t supply k groups).1,
        (gspecs.length > 3 ∧ st.description = "Implement " ++ t ++ " group: " ++ gname) ∨
        (¬ gspecs.length > 3 ∧
          st.description = "Implement " ++ sp.entity_type ++ ": " ++ sp.entity_name) := by
  intro groups
  induction groups with
  | nil => intro k g gs sp h _; simp at h
  | cons p rest ih =>
    intro k gname gspecs sp hg hsp
    obtain ⟨g0, gs0⟩ := p
    rcases List.mem_cons.mp hg with hg | hg
    · injection hg with h1 h2
      subst h1
      subst h2
      by_cases hlen : gspecs.length > 3
      · simp only [groupSteps]
        rw [if_pos hlen]
        exact ⟨_, List.mem_cons_self _ _, Or.inl ⟨hlen, rfl⟩⟩
      · obtain ⟨st, hst, hd⟩ := individualSteps_cover supply gspecs k sp hsp
        refine ⟨st, ?_, Or.inr ⟨hlen, hd⟩⟩
        simp only [groupSteps]
        rw [if_neg hlen]
        simp [hst]
    · by_cases hlen : gs0.length > 3
      · obtain ⟨st, hst, hd⟩ := ih (k + 1) gname gspecs sp hg hsp
        refine ⟨st, ?_, hd⟩
        simp only [groupSteps]
        rw [if_pos hlen]
        simp [hst]
      · obtain ⟨st, hst, hd⟩ := ih ((individualSteps supply k gs0).2) gname gspecs sp hg hsp
        refine ⟨st, ?_, hd⟩
        simp only [groupSteps]
        rw [if_neg hlen]
        simp [hst]

/-! ## Grouping: partition and subset lemmas -/

theorem insertA_self {κ α : Type} [DecidableEq κ] :
    ∀ (m : List (κ × α)) (k : κ) (v : α), lookupA m k = some v → insertA m k v = m := by
  intro m
  induction m with
  | nil => intro k v h; simp [lookupA] at h
  | cons p rest ih =>
    intro k v h
    obtain ⟨k0, v0⟩ := p
    by_cases h0 : k0 = k
    · subst h0
      simp [lookupA] at h
      simp [insertA, h]
    · simp [lookupA, h0] at h
      simp [insertA, h0, ih k v h]

/-- With the collaborator unavailable the refinement block is the identity:
its error fallback returns `{"common": common}`, which re-inserts the
existing common group unchanged. -/
theorem refineBlock_unavailable (groups : List (String × List Specification)) :
    refineBlock unavailableRefine groups = groups := by
  unfold refineBlock unavailableRefine
  by_cases hlen : ((lookupA groups "common").getD []).length > 5
  · rw [if_pos hlen]
    cases hl : lookupA groups "common" with
    | none =>
      exfalso
      rw [hl] at hlen
      simp at hlen
    | some c =>
      have hfin : (List.filter (fun sp =>
          decide (sp ∉ (if decide False = true then [("common", c)] else
            ([] : List (String × List Specification))).flatMap (fun x => x.2))) c) = c := by
        apply List.filter_eq_self.mpr
        intro a _
        simp
      simp only [Option.getD_some, List.foldl_cons, List.foldl_nil, ne_eq,
        not_true_eq_false, if_false, List.filter_cons, List.filter_nil]
      rw [hfin]
      exact insertA_self groups "common" c hl
  · rw [if_neg hlen]

theorem pushA_cons_eq {κ α : Type} [DecidableEq κ] (k : κ) (v0 : List α) (rest : List (κ × List α))
    (v : α) : pushA ((k, v0) :: rest) k v = (k, v0 ++ [v]) :: rest := by
  unfold pushA
  simp [lookupA, insertA]

theorem pushA_cons_ne {κ α : Type} [DecidableEq κ] (k0 k : κ) (v0 : List α)
    (rest : List (κ × List α)) (v : α) (h : k0 ≠ k) :
    pushA ((k0, v0) :: rest) k v = (k0, v0) :: pushA rest k v := by
  unfold pushA
  simp [lookupA, insertA, h]

/-- The pushed value lands in some entry. -/
theorem pushA_new_mem {κ α : Type} [DecidableEq κ] (m : List (κ × List α)) (k : κ) (v : α) :
    ∃ p ∈ pushA m k v, v ∈ p.2 := by
  refine ⟨(k, ((lookupA m k).getD []) ++ [v]), ?_, by simp⟩
  exact lookupA_mem_self _ _ _ (lookupA_pushA_self m k v)

/-- Values already present in some entry survive a push. -/
theorem pushA_val_mem_preserved {κ α : Type} [DecidableEq κ] :
    ∀ (m : List (κ × List α)) (k : κ) (v : α) (x : α),
      (∃ p ∈ m, x ∈ p.2) → ∃ q ∈ pushA m k v, x ∈ q.2 := by
  intro m
  induction m with
  | nil => intro k v x h; simp at h
  | cons p0 rest ih =>
    intro k v x h
    obtain ⟨k0, v0⟩ := p0
    by_cases h0 : k0 = k
    · subst h0
      rw [pushA_cons_eq]
      obtain ⟨p, hp, hx⟩ := h
      rcases List.mem_cons.mp hp with hp | hp
      · subst hp
        exact ⟨(k0, v0 ++ [v]), by simp, by simp [hx]⟩
      · exact ⟨p, by simp [hp], hx⟩
    · rw [pushA_cons_ne _ _ _ _ _ h0]
      obtain ⟨p, hp, hx⟩ := h
      rcases List.mem_cons.mp hp with hp | hp
      · subst hp
        exact ⟨(k0, v0), by simp, hx⟩
      · obtain ⟨q, hq, hx2⟩ := ih k v x ⟨p, hp, hx⟩
        exact ⟨q, by simp [hq], hx2⟩

/-- Every value in a pushed map was present before or is the pushed value. -/
theorem pushA_val_mem {κ α : Type} [DecidableEq κ] (m : List (κ × List α)) (k : κ) (v : α)
    (q : κ × List α) (hq : q ∈ pushA m k v) (x : α) (hx : x ∈ q.2) :
    (∃ q0 ∈ m, x ∈ q0.2) ∨ x = v := by
  unfold pushA at hq
  rcases mem_insertA _ _ _ _ hq with hq | hq
  · exact Or.inl ⟨q, hq, hx⟩
  · subst hq
    simp only at hx
    rcases List.mem_append.mp hx with hx | hx
    · cases hl : lookupA m k with
      | none => rw [hl] at hx; simp at hx
      | some l =>
        rw [hl] at hx
        simp only [Option.getD_some] at hx
        exact Or.inl ⟨(k, l), lookupA_mem_self _ _ _ hl, hx⟩
    · simp at hx
      exact Or.inr hx

/-- The assignment loop keeps every previously grouped spec grouped. -/
theorem assignSpec_preserves (groups : List (String × List Specification))
    (sp : Specification) (x : Specification) (h : ∃ p ∈ groups, x ∈ p.2) :
    ∃ p ∈ assignSpec groups sp, x ∈ p.2 := by
  unfold assignSpec
  split
  · exact pushA_val_mem_preserved groups _ sp x h
  · dsimp only
    split
    · exact pushA_val_mem_preserved groups _ sp x h
    · exact pushA_val_mem_preserved groups _ sp x h

/-- The assignment loop assigns the processed spec to some group. -/
theorem assignSpec_self_mem (groups : List (String × List Specification))
    (sp : Specification) : ∃ p ∈ assignSpec groups sp, sp ∈ p.2 := by
  unfold assignSpec
  split
  · exact pushA_new_mem groups _ sp
  · dsimp only
    split
    · exact pushA_new_mem groups _ sp
    · exact pushA_new_mem groups _ sp

theorem assign_fold_partition :
    ∀ (especs : List Specification) (groups : List (String × List Specification))
      (sp : Specification),
      sp ∈ especs ∨ (∃ p ∈ groups, sp ∈ p.2) →
      ∃ p ∈ especs.foldl assignSpec groups, sp ∈ p.2 := by
  intro especs
  induction especs with
  | nil =>
    intro groups sp h
    rcases h with h | h
    · simp at h
    · simpa using h
  | cons sp0 rest ih =>
    intro groups sp h
    simp only [List.foldl_cons]
    rcases h with h | h
    · rcases List.mem_cons.mp h with h | h
      · subst h
        exact ih _ sp (Or.inr (assignSpec_self_mem groups sp))
      · exact ih _ sp (Or.inl h)
    · exact ih _ sp (Or.inr (assignSpec_preserves groups sp0 sp h))

/-- With the collaborator unavailable, every specification belongs to some
group returned by `group_related_entities`. -/
theorem group_partition_unavailable (especs : List Specification) (sp : Specification)
    (hsp : sp ∈ especs) :
    ∃ p ∈ group_related_entities especs unavailableRefine, sp ∈ p.2 := by
  unfold group_related_entities
  rw [if_neg (by
    intro h
    rw [List.isEmpty_iff] at h
    subst h
    simp at hsp)]
  rw [refineBlock_unavailable]
  obtain ⟨p, hp, hx⟩ := assign_fold_partition especs [("common", [])] sp (Or.inl hsp)
  refine ⟨p, ?_, hx⟩
  rw [List.mem_filter]
  refine ⟨hp, ?_⟩
  rw [Bool.not_eq_true']
  rw [List.isEmpty_eq_false_iff_exists_mem]
  exact ⟨sp, hx⟩

theorem unavailableRefine_ok : RefineOk unavailableRefine := by
  intro specs p hp sp hsp
  simp only [unavailableRefine, List.mem_singleton] at hp
  subst hp
  exact hsp

/-- Groups only contain input specifications. -/
theorem group_values_subset (especs : List Specification)
    (refine : List Specification → List (String × List Specification))
    (hok : RefineOk refine) :
    ∀ p ∈ group_related_entities especs refine, ∀ sp ∈ p.2, sp ∈ especs := by
  unfold group_related_entities
  by_cases he : especs.isEmpty
  · rw [if_pos he]
    intro p hp
    simp at hp
  · rw [if_neg he]
    have hfold : ∀ p ∈ especs.foldl assignSpec [("common", [])], ∀ sp ∈ p.2, sp ∈ especs := by
      refine foldl_preserve
        (fun (groups : List (String × List Specification)) =>
          ∀ p ∈ groups, ∀ sp ∈ p.2, sp ∈ especs) _ _ _ ?_ ?_
      · intro p hp sp hsp
        simp only [List.mem_singleton] at hp
        subst hp
        simp at hsp
      · intro groups sp0 hsp0 hinv
        unfold assignSpec
        have hpush : ∀ (k : String), ∀ p ∈ pushA groups k sp0, ∀ sp ∈ p.2, sp ∈ especs := by
          intro k p hp sp hsp
          rcases pushA_val_mem groups k sp0 p hp sp hsp with ⟨q, hq, hsp2⟩ | hsp2
          · exact hinv q hq sp hsp2
          · subst hsp2
            exact hsp0
        split
        · exact hpush _
        · dsimp only
          split
          · exact hpush _
          · exact hpush _
    have href : ∀ p ∈ refineBlock refine (especs.foldl assignSpec [("common", [])]),
        ∀ sp ∈ p.2, sp ∈ especs := by
      unfold refineBlock
      set groups := especs.foldl assignSpec [("common", [])] with hg
      by_cases hlen : ((lookupA groups "common").getD []).length > 5
      · rw [if_pos hlen]
        have hcommon : ∀ sp ∈ (lookupA groups "common").getD [], sp ∈ especs := by
          cases hl : lookupA groups "common" with
          | none => simp
          | some c =>
            simp only [Option.getD_some]
            exact hfold (("common", c)) (lookupA_mem_self _ _ _ hl)
        have hg1 : ∀ p ∈ (refine ((lookupA groups "common").getD [])).foldl
            (fun gs p => if p.1 ≠ "common" then insertA gs p.1 p.2 else gs) groups,
            ∀ sp ∈ p.2, sp ∈ especs := by
          refine foldl_preserve
            (fun (gs : List (String × List Specification)) =>
              ∀ p ∈ gs, ∀ sp ∈ p.2, sp ∈ especs) _ _ _ hfold ?_
          intro gs p2 hp2 hinv
          by_cases hc : p2.1 ≠ "common"
          · rw [if_pos hc]
            intro p hp sp hsp
            rcases mem_insertA _ _ _ _ hp with hp | hp
            · exact hinv p hp sp hsp
            · subst hp
              exact hcommon sp (hok _ p2 hp2 sp hsp)
          · rw [if_neg hc]
            exact hinv
        intro p hp sp hsp
        rcases mem_insertA _ _ _ _ hp with hp | hp
        · exact hg1 p hp sp hsp
        · subst hp
          exact hcommon sp (List.mem_of_mem_filter hsp)
      · rw [if_neg hlen]
        exact hfold
    intro p hp sp hsp
    rw [List.mem_filter] at hp
    exact href p hp.1 sp hsp

/-! ## specs_by_type: entry and completeness lemmas -/

/-- Every entry of `specs_by_type` is nonempty and holds only specifications
of its key's type, drawn from the input. -/
theorem specsByType_entries (specs : List Specification) :
    ∀ p ∈ specsByType specs, p.2 ≠ [] ∧ ∀ sp ∈ p.2, sp.entity_type = p.1 ∧ sp ∈ specs := by
  unfold specsByType
  refine foldl_preserve
    (fun (m : List (String × List Specification)) =>
      ∀ p ∈ m, p.2 ≠ [] ∧ ∀ sp ∈ p.2, sp.entity_type = p.1 ∧ sp ∈ specs)
    _ _ _ ?_ ?_
  · intro p hp
    simp at hp
  · intro m sp hsp hinv p hp
    unfold pushA at hp
    rcases mem_insertA _ _ _ _ hp with hp | hp
    · exact hinv p hp
    · subst hp
      refine ⟨by simp, ?_⟩
      intro sp2 hsp2
      simp only at hsp2
      rcases List.mem_append.mp hsp2 with h2 | h2
      · cases hl : lookupA m sp.entity_type with
        | none => rw [hl] at h2; simp at h2
        | some l =>
          rw [hl] at h2
          simp only [Option.getD_some] at h2
          exact (hinv (sp.entity_type, l) (lookupA_mem_self _ _ _ hl)).2 sp2 h2
      · simp at h2
        subst h2
        exact ⟨rfl, hsp⟩

/-- Every input specification appears under its type key in `specs_by_type`. -/
theorem specsByType_complete (specs : List Specification) (sp : Specification)
    (hsp : sp ∈ specs) :
    ∃ l, lookupA (specsByType specs) sp.entity_type = some l ∧ sp ∈ l := by
  unfold specsByType
  suffices h : ∀ (l : List Specification) (m : List (String × List Specification))
      (sp : Specification),
      (sp ∈ l ∨ ∃ l0, lookupA m sp.entity_type = some l0 ∧ sp ∈ l0) →
      ∃ l0, lookupA (l.foldl (fun m sp => pushA m sp.entity_type sp) m) sp.entity_type =
        some l0 ∧ sp ∈ l0 by
    exact h specs [] sp (Or.inl hsp)
  intro l
  induction l with
  | nil =>
    intro m sp h
    rcases h with h | h
    · simp at h
    · simpa using h
  | cons sp0 rest ih =>
    intro m sp h
    simp only [List.foldl_cons]
    have hpres : (∃ l0, lookupA m sp.entity_type = some l0 ∧ sp ∈ l0) →
        ∃ l0, lookupA (pushA m sp0.entity_type sp0) sp.entity_type = some l0 ∧ sp ∈ l0 := by
      rintro ⟨l0, hl0, hmem⟩
      rw [lookupA_pushA]
      by_cases ht : sp0.entity_type = sp.entity_type
      · rw [if_pos ht, ht, hl0]
        exact ⟨_, rfl, by simp [hmem]⟩
      · rw [if_neg ht]
        exact ⟨l0, hl0, hmem⟩
    rcases h with h | h
    · rcases List.mem_cons.mp h with h | h
      · subst h
        refine ih _ sp (Or.inr ?_)
        rw [lookupA_pushA_self]
        exact ⟨_, rfl, by simp⟩
      · exact ih _ sp (Or.inl h)
    · exact ih _ sp (Or.inr (hpres h))

/-! ## The per-entity-type loop -/

/-- Every flattened entity step comes from some retained type's generator
call. -/
theorem entityTypeLoop_flat (refine : List Specification → List (String × List Specification))
    (supply : Nat → String) :
    ∀ (sbt : List (String × List Specification)) (k : Nat) (st : ImplementationStep),
      st ∈ (entityTypeLoop refine supply k sbt).2.1 →
      ∃ t tspecs k', (t, tspecs) ∈ sbt ∧ t ≠ "architecture" ∧ t ≠ "pattern" ∧
        st ∈ (generate_entity_type_steps t tspecs refine supply k').1 := by
  intro sbt
  induction sbt with
  | nil => intro k st h; simp [entityTypeLoop] at h
  | cons p rest ih =>
    intro k st h
    obtain ⟨t0, tspecs0⟩ := p
    simp only [entityTypeLoop] at h
    by_cases hskip : t0 = "architecture" || t0 = "pattern"
    · rw [if_pos hskip] at h
      obtain ⟨t, tspecs, k', hmem, h1, h2, h3⟩ := ih k st h
      exact ⟨t, tspecs, k', by simp [hmem], h1, h2, h3⟩
    · rw [if_neg hskip] at h
      simp only [Bool.or_eq_true, decide_eq_true_eq, not_or] at hskip
      rcases List.mem_append.mp h with h | h
      · exact ⟨t0, tspecs0, k, by simp, hskip.1, hskip.2, h⟩
      · obtain ⟨t, tspecs, k', hmem, h1, h2, h3⟩ := ih _ st h
        exact ⟨t, tspecs, k', by simp [hmem], h1, h2, h3⟩

/-- Every retained type's generated steps appear in the flattened entity-step
list (at some uuid offset). -/
theorem entityTypeLoop_cover (refine : List Specification → List (String × List Specification))
    (supply : Nat → String) :
    ∀ (sbt : List (String × List Specification)) (k : Nat)
      (t : String) (tspecs : List Specification),
      (t, tspecs) ∈ sbt → t ≠ "architecture" → t ≠ "pattern" →
      ∃ k', ∀ st ∈ (generate_entity_type_steps t tspecs refine supply k').1,
        st ∈ (entityTypeLoop refine supply k sbt).2.1 := by
  intro sbt
  induction sbt with
  | nil => intro k t tspecs h _ _; simp at h
  | cons p rest ih =>
    intro k t tspecs hmem h1 h2
    obtain ⟨t0, tspecs0⟩ := p
    simp only [entityTypeLoop]
    by_cases hskip : t0 = "architecture" || t0 = "pattern"
    · rw [if_pos hskip]
      rcases List.mem_cons.mp hmem with hmem | hmem
      · injection hmem with ha hb
        subst ha
        simp only [Bool.or_eq_true, decide_eq_true_eq] at hskip
        rcases hskip with hs | hs
        · exact absurd hs h1
        · exact absurd hs h2
      · exact ih k t tspecs hmem h1 h2
    · rw [if_neg hskip]
      rcases List.mem_cons.mp hmem with hmem | hmem
      · injection hmem with ha hb
        subst ha
        subst hb
        refine ⟨k, ?_⟩
        intro st hst
        simp [hst]
      · obtain ⟨k', hk'⟩ := ih ((generate_entity_type_steps t0 tspecs0 refine supply k).2)
          t tspecs hmem h1 h2
        refine ⟨k', ?_⟩
        intro st hst
        simp [hk' st hst]

/-- Every entity-part step id has the form `type ++ "_" ++ rest` for a
non-architecture, non-pattern type realised by some input specification. -/
theorem entity_steps_shape (specs : List Specification)
    (refine : List Specification → List (String × List Specification))
    (hok : RefineOk refine) (supply : Nat → String) :
    ∀ st ∈ (entityPart specs refine supply).2.1,
      ∃ t rest, st.id = t ++ "_" ++ rest ∧ t ≠ "architecture" ∧ t ≠ "pattern" ∧
        ∃ sp ∈ specs, sp.entity_type = t := by
  intro st hst
  unfold entityPart at hst
  obtain ⟨t, tspecs, k', hmem, h1, h2, h3⟩ :=
    entityTypeLoop_flat refine supply (specsByType specs) _ st hst
  have hent := specsByType_entries specs (t, tspecs) hmem
  have htyp : ∃ sp ∈ specs, sp.entity_type = t := by
    cases htl : tspecs with
    | nil => exact absurd htl hent.1
    | cons sp0 r =>
      have := hent.2 sp0 (by rw [htl]; simp)
      exact ⟨sp0, this.2, this.1⟩
  unfold generate_entity_type_steps at h3
  rcases groupSteps_shape t supply _ k' st h3 with
    ⟨gname, i, _, hid⟩ | ⟨sp, i, ⟨gname, gspecs, hg, hsp⟩, hstep⟩
  · exact ⟨t, gname ++ "_" ++ supply i, hid, h1, h2, htyp⟩
  · have hsp2 : sp ∈ tspecs :=
      group_values_subset tspecs refine hok (gname, gspecs) hg sp hsp
    have hspec := hent.2 sp hsp2
    refine ⟨t, sp.entity_name ++ "_" ++ supply i, ?_, h1, h2, sp, hspec.2, hspec.1⟩
    rw [hstep]
    simp only [create_entity_implementation_step]
    rw [hspec.1]
    simp [String.append_assoc]

/-! ## Projections of the returned strategy -/

theorem strategy_steps_eq (specs : List Specification)
    (refine : List Specification → List (String × List Specification))
    (supply : Nat → String) :
    (generate_strategy specs refine supply).steps = allSteps specs refine supply := rfl

theorem strategy_deps_eq (specs : List Specification)
    (refine : List Specification → List (String × List Specification))
    (supply : Nat → String) :
    (generate_strategy specs refine supply).dependencies = allDeps specs refine supply := rfl

theorem strategy_order_eq (specs : List Specification)
    (refine : List Specification → List (String × List Specification))
    (supply : Nat → String) :
    (generate_strategy specs refine supply).execution_order =
      calculate_execution_order (allSteps specs refine supply)
        (allDeps specs refine supply) := rfl

/-- C3 amended: completeness holds with the grouping collaborator
unavailable (the deterministic except-branch), but not for every collaborator
(see the counterexample, where a response reusing a heuristic group's name
drops specifications): every specification then contributes to at least one
synthesized step — individually or via its group's aggregate step — and every
synthesized step's id appears exactly once in the returned `execution_order`
(in both the topological-sort branch and the strongly-connected-component
fallback). -/
theorem C3_completeness (specs : List Specification) (supply : Nat → String) :
    (∀ sp ∈ specs, ∃ st ∈ (generate_strategy specs unavailableRefine supply).steps,
      contributesTo specs unavailableRefine sp st) ∧
    (∀ st ∈ (generate_strategy specs unavailableRefine supply).steps,
      ((generate_strategy specs unavailableRefine supply).execution_order).count st.id = 1) := by
  constructor
  · intro sp hsp
    obtain ⟨l, hl, hmem⟩ := specsByType_complete specs sp hsp
    by_cases ht : sp.entity_type = "architecture"
    · rw [ht] at hl
      obtain ⟨st, hst, hd⟩ := arch_steps_cover supply l 0 sp hmem
      have harch : archPart specs supply = generate_architectural_steps supply 0 l := by
        unfold archPart
        rw [hl]
      refine ⟨st, ?_, Or.inl hd⟩
      rw [strategy_steps_eq]
      unfold allSteps
      rw [harch]
      simp only [List.mem_append]
      exact Or.inl (Or.inl hst)
    · by_cases hp : sp.entity_type = "pattern"
      · rw [hp] at hl
        obtain ⟨st, hst, hd⟩ :=
          pattern_steps_cover supply l (entityPart specs unavailableRefine supply).2.2 sp hmem
        have hpat : patternPart specs unavailableRefine supply =
            (generate_pattern_steps supply (entityPart specs unavailableRefine supply).2.2 l).1 := by
          unfold patternPart
          rw [hl]
        refine ⟨st, ?_, Or.inr (Or.inl hd)⟩
        rw [strategy_steps_eq]
        unfold allSteps
        rw [hpat]
        simp only [List.mem_append]
        exact Or.inr hst
      · have hmem2 : (sp.entity_type, l) ∈ specsByType specs := lookupA_mem_self _ _ _ hl
        obtain ⟨k', hk'⟩ := entityTypeLoop_cover unavailableRefine supply (specsByType specs)
          (archPart specs supply).2 sp.entity_type l hmem2 ht hp
        obtain ⟨p, hgp, hspp⟩ := group_partition_unavailable l sp hmem
        obtain ⟨st, hst, hd⟩ := groupSteps_cover sp.entity_type supply
          (group_related_entities l unavailableRefine) k' p.1 p.2 sp hgp hspp
        have hst2 : st ∈ (entityTypeLoop unavailableRefine supply
            (archPart specs supply).2 (specsByType specs)).2.1 :=
          hk' st (by unfold generate_entity_type_steps; exact hst)
        refine ⟨st, ?_, ?_⟩
        · rw [strategy_steps_eq]
          unfold allSteps entityPart
          simp only [List.mem_append]
          exact Or.inl (Or.inr hst2)
        · rcases hd with ⟨hlen, hd⟩ | ⟨hlen, hd⟩
          · refine Or.inr (Or.inr (Or.inr ⟨p.1, p.2, ?_, hspp, hd⟩))
            rw [hl]
            exact hgp
          · exact Or.inr (Or.inr (Or.inl hd))
  · intro st hst
    rw [strategy_steps_eq] at hst
    rw [strategy_order_eq]
    exact calc_order_count _ _ _ (mem_buildStepGraph _ _ st hst)

theorem C3_completeness_witness :
    (∀ sp ∈ [sA], ∃ st ∈ (generate_strategy [sA] unavailableRefine sup0).steps,
      contributesTo [sA] unavailableRefine sp st) ∧
    (∀ st ∈ (generate_strategy [sA] unavailableRefine sup0).steps,
      ((generate_strategy [sA] unavailableRefine sup0).execution_order).count st.id = 1) :=
  C3_completeness [sA] sup0

/-- Each architecture specification yields a setup/components step pair with
architecture-prefixed ids. -/
theorem arch_steps_cover_pair (supply : Nat → String) :
    ∀ (aspecs : List Specification) (k : Nat) (sp : Specification), sp ∈ aspecs →
      ∃ i sX cX, sX ∈ (generate_architectural_steps supply k aspecs).1 ∧
        cX ∈ (generate_architectural_steps supply k aspecs).1 ∧
        sX.id = "setup_" ++ supply i ∧ cX.id = "arch_components_" ++ supply (i + 1) ∧
        sX.description = "Set up project structure based on " ++ sp.entity_name ++
          " architecture" ∧
        cX.description = "Implement core architectural components for " ++ sp.entity_name := by
  intro aspecs
  induction aspecs with
  | nil => intro k sp h; simp at h
  | cons sp0 rest ih =>
    intro k sp h
    rcases List.mem_cons.mp h with h | h
    · subst h
      simp only [generate_architectural_steps]
      exact ⟨k, _, _, List.mem_cons_self _ _,
        List.mem_cons_of_mem _ (List.mem_cons_self _ _), rfl, rfl, rfl, rfl⟩
    · obtain ⟨i, sX, cX, hs, hc, h1, h2, h3, h4⟩ := ih (k + 2) sp h
      refine ⟨i, sX, cX, ?_, ?_, h1, h2, h3, h4⟩
      · simp only [generate_architectural_steps]
        simp [hs]
      · simp only [generate_architectural_steps]
        simp [hc]

/-- When some step of the run carries an architecture prefix, the dependency
map entry of every step without one contains every architecture-prefixed
step's id. -/
theorem deps_gating_mem (specs : List Specification)
    (refine : List Specification → List (String × List Specification))
    (supply : Nat → String) (st : ImplementationStep)
    (hst : st ∈ allSteps specs refine supply) (hpref : hasArchPref st.id = false)
    (a : ImplementationStep) (ha : a ∈ allSteps specs refine supply)
    (hap : hasArchPref a.id = true) :
    a.id ∈ (lookupA (allDeps specs refine supply) st.id).getD [] := by
  unfold allDeps establish_step_dependencies
  set steps := allSteps specs refine supply with hsteps
  have harch : a ∈ steps.filter (fun s => hasArchPref s.id) :=
    List.mem_filter.mpr ⟨ha, hap⟩
  have hne : (steps.filter (fun s => hasArchPref s.id)).isEmpty = false := by
    rw [List.isEmpty_eq_false_iff_exists_mem]
    exact ⟨a, harch⟩
  apply patternPhase_mono
  apply entityPhase_mono
  rw [if_neg (by simp [hne])]
  exact gatingPhase_adds steps (steps.filter (fun s => hasArchPref s.id)) _ st hst hpref a harch

/-- C5 amended: the gating is by id prefix, not by provenance. If an
architecture-typed specification `X` is present, then both of `X`'s
synthesized steps (its Setup step and its Components step) belong to the
dependency-map entry of every step whose id does not carry the
`setup_`/`arch_components_` prefix — which excludes not only the
architecture-derived steps but also any entity step whose id happens to start
with such a prefix (see the counterexample). -/
theorem C5_architecture_gating (specs : List Specification)
    (refine : List Specification → List (String × List Specification))
    (supply : Nat → String) (X : Specification)
    (hX : X ∈ specs) (hXt : X.entity_type = "architecture") :
    ∃ sX cX, sX ∈ (generate_strategy specs refine supply).steps ∧
      cX ∈ (generate_strategy specs refine supply).steps ∧
      sX.description = "Set up project structure based on " ++ X.entity_name ++
        " architecture" ∧
      cX.description = "Implement core architectural components for " ++ X.entity_name ∧
      ∀ st ∈ (generate_strategy specs refine supply).steps, hasArchPref st.id = false →
        sX.id ∈ (lookupA ((generate_strategy specs refine supply).dependencies) st.id).getD [] ∧
        cX.id ∈ (lookupA ((generate_strategy specs refine supply).dependencies) st.id).getD [] := by
  obtain ⟨l, hl, hmem⟩ := specsByType_complete specs X hX
  rw [hXt] at hl
  obtain ⟨i, sX, cX, hs, hc, h1, h2, h3, h4⟩ := arch_steps_cover_pair supply l 0 X hmem
  have harch : archPart specs supply = generate_architectural_steps supply 0 l := by
    unfold archPart
    rw [hl]
  have hsmem : sX ∈ allSteps specs refine supply := by
    unfold allSteps
    rw [harch]
    simp only [List.mem_append]
    exact Or.inl (Or.inl hs)
  have hcmem : cX ∈ allSteps specs refine supply := by
    unfold allSteps
    rw [harch]
    simp only [List.mem_append]
    exact Or.inl (Or.inl hc)
  refine ⟨sX, cX, hsmem, hcmem, h3, h4, ?_⟩
  intro st hst hpref
  rw [strategy_steps_eq] at hst
  rw [strategy_deps_eq]
  constructor
  · exact deps_gating_mem specs refine supply st hst hpref sX hsmem
      (by rw [h1]; exact hasArchPref_setup _)
  · exact deps_gating_mem specs refine supply st hst hpref cX hcmem
      (by rw [h2]; exact hasArchPref_comp _)

theorem C5_architecture_gating_witness :
    sArch ∈ [sArch, sA] ∧ sArch.entity_type = "architecture" ∧
    (∃ sX cX, sX ∈ (generate_strategy [sArch, sA] unavailableRefine sup0).steps ∧
      cX ∈ (generate_strategy [sArch, sA] unavailableRefine sup0).steps ∧
      sX.description = "Set up project structure based on " ++ sArch.entity_name ++
        " architecture" ∧
      cX.description = "Implement core architectural components for " ++ sArch.entity_name ∧
      ∀ st ∈ (generate_strategy [sArch, sA] unavailableRefine sup0).steps,
        hasArchPref st.id = false →
        sX.id ∈ (lookupA ((generate_strategy [sArch, sA] unavailableRefine sup0).dependencies)
          st.id).getD [] ∧
        cX.id ∈ (lookupA ((generate_strategy [sArch, sA] unavailableRefine sup0).dependencies)
          st.id).getD []) :=
  ⟨by simp, rfl,
    C5_architecture_gating [sArch, sA] unavailableRefine sup0 sArch (by simp) rfl⟩

/-- Strings with equal left factors and equal concatenations have equal
right factors. -/
theorem string_append_cancel_left (a : String) {b c : String} (h : a ++ b = a ++ c) :
    b = c := by
  have h2 := congrArg String.toList h
  simp only [toList_append] at h2
  have h3 := List.append_cancel_left h2
  cases b
  cases c
  exact congrArg String.mk (by simpa [String.toList] using h3)

/-- C9 counterexample: seven class specifications with no naming affinity and
the collaborator unavailable all land in the "common" group, but the run
synthesizes ONE aggregate group step (the more-than-3-members rule applies to
the "common" group as well), not seven individual steps as Scenario E
states. -/
theorem C9_counterexample :
    (generate_strategy specs9 unavailableRefine sup0).steps.map (fun st => st.id) =
      ["class_common_0"] ∧
    (generate_strategy specs9 unavailableRefine sup0).steps.map (fun st => st.description) =
      ["Implement class group: common"] := by decide

/-- C9 amended: when all specifications of a type end up in the "common"
group and that group has more than 3 members, `generate_entity_type_steps`
synthesizes exactly one aggregate step for the whole group — the individual
path is not taken. -/
theorem C9_group_aggregation (t : String) (especs : List Specification)
    (refine : List Specification → List (String × List Specification))
    (supply : Nat → String) (k : Nat)
    (h1 : group_related_entities especs refine = [("common", especs)])
    (h2 : especs.length > 3) :
    (generate_entity_type_steps t especs refine supply k).1 =
      [{ id := t ++ "_" ++ "common" ++ "_" ++ supply k
         description := "Implement " ++ t ++ " group: " ++ "common"
         dependencies := []
         expected_output := "Implementation of " ++ toString especs.length ++ " " ++ t ++
           "s in the " ++ "common" ++ " group"
         validation_criteria := ["All " ++ t ++ "s in group are implemented",
           "Implementations match specifications",
           "Unit tests pass for all implementations"] }] := by
  unfold generate_entity_type_steps
  rw [h1]
  simp only [groupSteps]
  rw [if_pos h2]

theorem C9_group_aggregation_witness :
    group_related_entities specs9 unavailableRefine = [("common", specs9)] ∧
    specs9.length > 3 ∧
    (generate_entity_type_steps "class" specs9 unavailableRefine sup0 0).1 =
      [{ id := "class" ++ "_" ++ "common" ++ "_" ++ sup0 0
         description := "Implement " ++ "class" ++ " group: " ++ "common"
         dependencies := []
         expected_output := "Implementation of " ++ toString specs9.length ++ " " ++ "class" ++
           "s in the " ++ "common" ++ " group"
         validation_criteria := ["All " ++ "class" ++ "s in group are implemented",
           "Implementations match specifications",
           "Unit tests pass for all implementations"] }] :=
  ⟨by decide, by decide,
    C9_group_aggregation "class" specs9 unavailableRefine sup0 0 (by decide) (by decide)⟩

/-- C7 counterexample: a planning run whose input holds two specifications
with the same entity name returns a Strategy (both copies get steps, both are
scheduled); no error is reported and the run does not abort. -/
theorem C7_counterexample :
    (generate_strategy dup2 unavailableRefine sup0).steps.map (fun st => st.id) =
      ["class_A_0", "class_A_1"] ∧
    (generate_strategy dup2 unavailableRefine sup0).execution_order =
      ["class_A_0", "class_A_1"] := by decide

/-- C7 amended: duplicate entity names are silently tolerated — a run on two
pattern specifications with the same name returns a Strategy holding one step
per copy, with two distinct step ids each scheduled exactly once. -/
theorem C7_duplicates_tolerated (n pu1 pu2 : String) (supply : Nat → String)
    (hsup : supply 0 ≠ supply 1) :
    (generate_strategy [⟨n, "pattern", pu1, []⟩, ⟨n, "pattern", pu2, []⟩]
        unavailableRefine supply).steps.length = 2 ∧
    "pattern_" ++ n ++ "_" ++ supply 0 ≠ "pattern_" ++ n ++ "_" ++ supply 1 ∧
    ((generate_strategy [⟨n, "pattern", pu1, []⟩, ⟨n, "pattern", pu2, []⟩]
        unavailableRefine supply).execution_order).count
      ("pattern_" ++ n ++ "_" ++ supply 0) = 1 ∧
    ((generate_strategy [⟨n, "pattern", pu1, []⟩, ⟨n, "pattern", pu2, []⟩]
        unavailableRefine supply).execution_order).count
      ("pattern_" ++ n ++ "_" ++ supply 1) = 1 := by
  have hne : "pattern_" ++ n ++ "_" ++ supply 0 ≠ "pattern_" ++ n ++ "_" ++ supply 1 := by
    intro h
    exact hsup (string_append_cancel_left ("pattern_" ++ n ++ "_") h)
  have h0 : ({ id := "pattern_" ++ n ++ "_" ++ supply 0
               description := "Implement " ++ n ++ " pattern"
               dependencies := []
               expected_output := "Implementation of the " ++ n ++ " pattern"
               validation_criteria := ["Pattern implementation matches specification",
                 "Components interact correctly according to pattern",
                 "Pattern implementation follows best practices"] } : ImplementationStep) ∈
      allSteps [⟨n, "pattern", pu1, []⟩, ⟨n, "pattern", pu2, []⟩] unavailableRefine supply :=
    List.mem_cons_self _ _
  have h1 : ({ id := "pattern_" ++ n ++ "_" ++ supply 1
               description := "Implement " ++ n ++ " pattern"
               dependencies := []
               expected_output := "Implementation of the " ++ n ++ " pattern"
               validation_criteria := ["Pattern implementation matches specification",
                 "Components interact correctly according to pattern",
                 "Pattern implementation follows best practices"] } : ImplementationStep) ∈
      allSteps [⟨n, "pattern", pu1, []⟩, ⟨n, "pattern", pu2, []⟩] unavailableRefine supply :=
    List.mem_cons_of_mem _ (List.mem_cons_self _ _)
  refine ⟨rfl, hne, ?_, ?_⟩
  · rw [strategy_order_eq]
    exact calc_order_count _ _ _ (mem_buildStepGraph _ _ _ h0)
  · rw [strategy_order_eq]
    exact calc_order_count _ _ _ (mem_buildStepGraph _ _ _ h1)

theorem C7_duplicates_tolerated_witness :
    sup0 0 ≠ sup0 1 ∧
    ((generate_strategy [⟨"A", "pattern", "p", []⟩, ⟨"A", "pattern", "q", []⟩]
        unavailableRefine sup0).steps.length = 2 ∧
    "pattern_" ++ "A" ++ "_" ++ sup0 0 ≠ "pattern_" ++ "A" ++ "_" ++ sup0 1 ∧
    ((generate_strategy [⟨"A", "pattern", "p", []⟩, ⟨"A", "pattern", "q", []⟩]
        unavailableRefine sup0).execution_order).count
      ("pattern_" ++ "A" ++ "_" ++ sup0 0) = 1 ∧
    ((generate_strategy [⟨"A", "pattern", "p", []⟩, ⟨"A", "pattern", "q", []⟩]
        unavailableRefine sup0).execution_order).count
      ("pattern_" ++ "A" ++ "_" ++ sup0 1) = 1) :=
  ⟨by decide, C7_duplicates_tolerated "A" "p" "q" sup0 (by decide)⟩

/-! ## Determinism up to uuid draws -/

theorem arch_desc_eq (s1 s2 : Nat → String) :
    ∀ (aspecs : List Specification) (k1 k2 : Nat),
      (generate_architectural_steps s1 k1 aspecs).1.map (fun st => st.description) =
      (generate_architectural_steps s2 k2 aspecs).1.map (fun st => st.description) := by
  intro aspecs
  induction aspecs with
  | nil => intro k1 k2; rfl
  | cons sp rest ih =>
    intro k1 k2
    simp only [generate_architectural_steps, List.map_cons]
    rw [ih (k1 + 2) (k2 + 2)]

theorem individual_desc_eq (s1 s2 : Nat → String) :
    ∀ (gspecs : List Specification) (k1 k2 : Nat),
      (individualSteps s1 k1 gspecs).1.map (fun st => st.description) =
      (individualSteps s2 k2 gspecs).1.map (fun st => st.description) := by
  intro gspecs
  induction gspecs with
  | nil => intro k1 k2; rfl
  | cons sp rest ih =>
    intro k1 k2
    simp only [individualSteps, List.map_cons]
    rw [ih (k1 + 1) (k2 + 1)]
    rfl

theorem group_desc_eq (t : String) (s1 s2 : Nat → String) :
    ∀ (groups : List (String × List Specification)) (k1 k2 : Nat),
      (groupSteps t s1 k1 groups).1.map (fun st => st.description) =
      (groupSteps t s2 k2 groups).1.map (fun st => st.description) := by
  intro groups
  induction groups with
  | nil => intro k1 k2; rfl
  | cons p rest ih =>
    intro k1 k2
    obtain ⟨gname, gspecs⟩ := p
    simp only [groupSteps]
    by_cases hlen : gspecs.length > 3
    · rw [if_pos hlen, if_pos hlen]
      simp only [List.map_cons]
      rw [ih (k1 + 1) (k2 + 1)]
    · rw [if_neg hlen, if_neg hlen]
      simp only [List.map_append]
      rw [individual_desc_eq s1 s2 gspecs k1 k2, ih]

theorem loop_desc_eq (refine : List Specification → List (String × List Specification))
    (s1 s2 : Nat → String) :
    ∀ (sbt : List (String × List Specification)) (k1 k2 : Nat),
      (entityTypeLoop refine s1 k1 sbt).2.1.map (fun st => st.description) =
      (entityTypeLoop refine s2 k2 sbt).2.1.map (fun st => st.description) := by
  intro sbt
  induction sbt with
  | nil => intro k1 k2; rfl
  | cons p rest ih =>
    intro k1 k2
    obtain ⟨t, tspecs⟩ := p
    simp only [entityTypeLoop]
    by_cases hskip : t = "architecture" || t = "pattern"
    · rw [if_pos hskip, if_pos hskip]
      exact ih k1 k2
    · rw [if_neg hskip, if_neg hskip]
      simp only [List.map_append]
      unfold generate_entity_type_steps
      rw [group_desc_eq t s1 s2 _ k1 k2, ih]

theorem pattern_desc_eq (s1 s2 : Nat → String) :
    ∀ (pspecs : List Specification) (k1 k2 : Nat),
      (generate_pattern_steps s1 k1 pspecs).1.map (fun st => st.description) =
      (generate_pattern_steps s2 k2 pspecs).1.map (fun st => st.description) := by
  intro pspecs
  induction pspecs with
  | nil => intro k1 k2; rfl
  | cons sp rest ih =>
    intro k1 k2
    simp only [generate_pattern_steps, List.map_cons]
    rw [ih (k1 + 1) (k2 + 1)]

/-- C4 counterexample: two planning runs on the identical one-element
Specification Set with the collaborator unavailable, differing only in the
uuid4 draws (`x`-run versus `y`-run), return different `execution_order`
lists and different `dependency_map`s: every step id embeds a fresh uuid, so
run-to-run determinism fails. -/
theorem C4_counterexample :
    (generate_strategy [sA] unavailableRefine supX).execution_order ≠
      (generate_strategy [sA] unavailableRefine supY).execution_order ∧
    (generate_strategy [sA] unavailableRefine supX).dependencies ≠
      (generate_strategy [sA] unavailableRefine supY).dependencies := by decide

/-- C4 amended: the planner is deterministic except for the uuid4 draws
embedded in step ids: two runs on the identical Specification Set with the
collaborator unavailable produce the same list of step descriptions (same
steps in the same order), whatever uuids each run draws. -/
theorem C4_determinism_up_to_uuids (specs : List Specification)
    (supply1 supply2 : Nat → String) :
    (generate_strategy specs unavailableRefine supply1).steps.map (fun st => st.description) =
    (generate_strategy specs unavailableRefine supply2).steps.map (fun st => st.description) := by
  rw [strategy_steps_eq, strategy_steps_eq]
  unfold allSteps
  simp only [List.map_append]
  have h1 : (archPart specs supply1).1.map (fun st => st.description) =
      (archPart specs supply2).1.map (fun st => st.description) := by
    unfold archPart
    cases lookupA (specsByType specs) "architecture" with
    | none => rfl
    | some aspecs => exact arch_desc_eq supply1 supply2 aspecs 0 0
  have h2 : (entityPart specs unavailableRefine supply1).2.1.map (fun st => st.description) =
      (entityPart specs unavailableRefine supply2).2.1.map (fun st => st.description) := by
    unfold entityPart
    exact loop_desc_eq unavailableRefine supply1 supply2 (specsByType specs) _ _
  have h3 : (patternPart specs unavailableRefine supply1).map (fun st => st.description) =
      (patternPart specs unavailableRefine supply2).map (fun st => st.description) := by
    unfold patternPart
    cases lookupA (specsByType specs) "pattern" with
    | none => rfl
    | some pspecs => exact pattern_desc_eq supply1 supply2 pspecs _ _
  rw [h1, h2, h3]

/-! ## Rank argument for dependency-map acyclicity -/

theorem foldl_id {α β : Type} (f : β → α → β) (l : List α) (b : β)
    (h : ∀ acc x, x ∈ l → f acc x = acc) : l.foldl f b = b := by
  induction l generalizing b with
  | nil => rfl
  | cons a t ih =>
    rw [List.foldl_cons, h b a (by simp)]
    exact ih b (fun acc x hx => h acc x (by simp [hx]))

/-- With no declared dependencies, the declared-dependency phase changes
nothing. -/
theorem entityPhase_noDeps (sbn : List (String × Specification))
    (sbe : List ((String × String) × ImplementationStep))
    (specs : List Specification) (h : ∀ sp ∈ specs, sp.dependencies = [])
    (d : List (String × List String)) : entityPhase sbn sbe specs d = d := by
  unfold entityPhase
  apply foldl_id
  intro acc sp hsp
  dsimp only
  cases hl : lookupA sbe (sp.entity_type, sp.entity_name) with
  | none => rfl
  | some estep =>
    rw [h sp hsp]
    rfl

/-- Every entry of `entity_steps_by_type` is a retained type's generator
output. -/
theorem entityTypeLoop_entries
    (refine : List Specification → List (String × List Specification))
    (supply : Nat → String) :
    ∀ (sbt : List (String × List Specification)) (k : Nat)
      (p : String × List ImplementationStep),
      p ∈ (entityTypeLoop refine supply k sbt).1 →
      p.1 ≠ "architecture" ∧ p.1 ≠ "pattern" ∧
      ∃ tspecs k', (p.1, tspecs) ∈ sbt ∧
        p.2 = (generate_entity_type_steps p.1 tspecs refine supply k').1 := by
  intro sbt
  induction sbt with
  | nil => intro k p h; simp [entityTypeLoop] at h
  | cons q rest ih =>
    intro k p h
    obtain ⟨t0, tspecs0⟩ := q
    simp only [entityTypeLoop] at h
    by_cases hskip : t0 = "architecture" || t0 = "pattern"
    · rw [if_pos hskip] at h
      obtain ⟨h1, h2, tspecs, k', hmem, hval⟩ := ih k p h
      exact ⟨h1, h2, tspecs, k', by simp [hmem], hval⟩
    · rw [if_neg hskip] at h
      simp only [Bool.or_eq_true, decide_eq_true_eq, not_or] at hskip
      rcases List.mem_cons.mp h with h | h
      · subst h
        exact ⟨hskip.1, hskip.2, tspecs0, k, by simp, rfl⟩
      · obtain ⟨h1, h2, tspecs, k', hmem, hval⟩ := ih _ p h
        exact ⟨h1, h2, tspecs, k', by simp [hmem], hval⟩

/-- Steps stored in `entity_steps_by_type` have entity-shaped ids. -/
theorem estbt_steps_shape (specs : List Specification)
    (refine : List Specification → List (String × List Specification))
    (hok : RefineOk refine) (supply : Nat → String) :
    ∀ p ∈ (entityPart specs refine supply).1, ∀ st ∈ p.2,
      ∃ t rest, st.id = t ++ "_" ++ rest ∧ t ≠ "architecture" ∧ t ≠ "pattern" ∧
        ∃ sp ∈ specs, sp.entity_type = t := by
  intro p hp st hst
  unfold entityPart at hp
  obtain ⟨h1, h2, tspecs, k', hmem, hval⟩ :=
    entityTypeLoop_entries refine supply (specsByType specs) _ p hp
  rw [hval] at hst
  have hent := specsByType_entries specs (p.1, tspecs) hmem
  have htyp : ∃ sp ∈ specs, sp.entity_type = p.1 := by
    cases htl : tspecs with
    | nil => exact absurd htl hent.1
    | cons sp0 r =>
      have := hent.2 sp0 (by rw [htl]; simp)
      exact ⟨sp0, this.2, this.1⟩
  unfold generate_entity_type_steps at hst
  rcases groupSteps_shape p.1 supply _ k' st hst with
    ⟨gname, i, _, hid⟩ | ⟨sp, i, ⟨gname, gspecs, hg, hsp⟩, hstep⟩
  · exact ⟨p.1, gname ++ "_" ++ supply i, hid, h1, h2, htyp⟩
  · have hsp2 : sp ∈ tspecs :=
      group_values_subset tspecs refine hok (gname, gspecs) hg sp hsp
    have hspec := hent.2 sp hsp2
    refine ⟨p.1, sp.entity_name ++ "_" ++ supply i, ?_, h1, h2, sp, hspec.2, hspec.1⟩
    rw [hstep]
    simp only [create_entity_implementation_step]
    rw [hspec.1]
    simp [String.append_assoc]

/-- A `pattern_`-prefixed id starts with the character `p`. -/
theorem patternStart_head {s : String} (h : strStarts s "pattern_" = true) :
    ∃ tl, s.toList = 'p' :: tl := by
  unfold strStarts at h
  cases hs : s.toList with
  | nil =>
    rw [hs] at h
    exact absurd h (by decide)
  | cons c tl =>
    rw [hs] at h
    have hpl : "pattern_".toList = 'p' :: "attern_".toList := rfl
    rw [hpl] at h
    simp only [List.isPrefixOf, Bool.and_eq_true, beq_iff_eq] at h
    refine ⟨tl, ?_⟩
    rw [← h.1]

theorem idRank_arch {sid : String} (h : hasArchPref sid = true) : idRank sid = 0 := by
  unfold idRank
  rw [if_pos h]

theorem idRank_pos {sid : String} (h : hasArchPref sid = false) : 1 ≤ idRank sid := by
  unfold idRank
  rw [if_neg (by simp [h])]
  split
  · omega
  · omega

theorem idRank_pattern {sid : String} (h : strStarts sid "pattern_" = true) :
    idRank sid = 2 := by
  obtain ⟨tl, hs⟩ := patternStart_head h
  have harch : hasArchPref sid = false := hasArchPref_of_head hs (by decide) (by decide)
  unfold idRank
  rw [if_neg (by simp [harch]), if_pos h]

theorem idRank_entity {sid t rest : String} (hid : sid = t ++ "_" ++ rest)
    (ht : t = "class" ∨ t = "function" ∨ t = "module") : idRank sid = 1 := by
  have hhead : ∃ c tl, sid.toList = c :: tl ∧ ('s' == c) = false ∧ ('a' == c) = false ∧
      ('p' == c) = false := by
    rcases ht with ht | ht | ht
    · refine ⟨'c', "lass_".toList ++ rest.toList, ?_, by decide, by decide, by decide⟩
      rw [hid, ht]
      exact toList_head_concat _ rest 'c' _ rfl
    · refine ⟨'f', "unction_".toList ++ rest.toList, ?_, by decide, by decide, by decide⟩
      rw [hid, ht]
      exact toList_head_concat _ rest 'f' _ rfl
    · refine ⟨'m', "odule_".toList ++ rest.toList, ?_, by decide, by decide, by decide⟩
      rw [hid, ht]
      exact toList_head_concat _ rest 'm' _ rfl
  obtain ⟨c, tl, hs, h1, h2, h3⟩ := hhead
  have harch : hasArchPref sid = false := hasArchPref_of_head hs h1 h2
  have hpat : strStarts sid "pattern_" = false := patternStart_false_of_head hs h3
  unfold idRank
  rw [if_neg (by simp [harch]), if_neg (by simp [hpat])]

/-- C1 counterexample: for the two-specification input `A depends on B`,
`B depends on A`, the returned `dependency_map` contains a directed
two-cycle: `class_A_0`'s entry holds `class_B_1` and `class_B_1`'s entry
holds `class_A_0`. No cycle resolution ever edits the map. -/
theorem C1_counterexample :
    "class_B_1" ∈ (lookupA (generate_strategy [sA, sB] unavailableRefine sup0).dependencies
      "class_A_0").getD [] ∧
    "class_A_0" ∈ (lookupA (generate_strategy [sA, sB] unavailableRefine sup0).dependencies
      "class_B_1").getD [] := by decide

/-- C1 amended: the dependency map is acyclic only on the declared-dependency-
free fragment: when no specification declares dependencies and every
entity type is one of the five documented ones, every edge of the map strictly
decreases the rank (pattern step → entity step → architecture step), so the
map has no directed cycle. With declared dependency cycles the map is cyclic
(see the counterexample): `calculate_execution_order` falls back to an SCC
order but never repairs the map itself. -/
theorem C1_map_acyclicity (specs : List Specification)
    (refine : List Specification → List (String × List Specification))
    (supply : Nat → String) (hok : RefineOk refine)
    (hNoDeps : ∀ sp ∈ specs, sp.dependencies = [])
    (hEnum : ∀ sp ∈ specs, sp.entity_type ∈
      (["architecture", "pattern", "class", "function", "module"] : List String)) :
    ∀ x, ¬ Relation.TransGen
      (fun u v =>
        v ∈ (lookupA ((generate_strategy specs refine supply).dependencies) u).getD [])
      x x := by
  have hedge : ∀ u v,
      v ∈ (lookupA ((generate_strategy specs refine supply).dependencies) u).getD [] →
      idRank v < idRank u := by
    intro u v hv
    rw [strategy_deps_eq] at hv
    unfold allDeps establish_step_dependencies at hv
    dsimp only at hv
    rw [entityPhase_noDeps _ _ _ hNoDeps] at hv
    rcases patternPhase_char _ _ _ u v hv with hv1 |
      ⟨⟨ps, hps, hpsStart, hpsid⟩, tp, htp, es, hes, hesid⟩
    · by_cases hae : ((allSteps specs refine supply).filter (fun s => hasArchPref s.id)).isEmpty
      · rw [if_pos hae] at hv1
        exact absurd hv1 (init_no_mem _ u v)
      · rw [if_neg hae] at hv1
        rcases gatingPhase_char _ _ _ u v hv1 with hv2 | ⟨⟨s, hs, hsid, hsp⟩, a, ha, haid⟩
        · exact absurd hv2 (init_no_mem _ u v)
        · have hva : hasArchPref v = true := by
            rw [← haid]
            exact (List.mem_filter.mp ha).2
          have hu : hasArchPref u = false := by
            rw [← hsid]
            exact hsp
          rw [idRank_arch hva]
          exact idRank_pos hu
    · have hu : idRank u = 2 := by
        rw [← hpsid]
        exact idRank_pattern hpsStart
      obtain ⟨t, rest, hid, h1, h2, sp, hsp, hty⟩ :=
        estbt_steps_shape specs refine hok supply tp htp es hes
      have htc : t = "class" ∨ t = "function" ∨ t = "module" := by
        have he := hEnum sp hsp
        rw [hty] at he
        simp only [List.mem_cons, List.mem_singleton] at he
        rcases he with h | h | h | h | h
        · exact absurd h h1
        · exact absurd h h2
        · exact Or.inl h
        · exact Or.inr (Or.inl h)
        · rcases h with h | h
          · exact Or.inr (Or.inr h)
          · simp at h
      have hvr : idRank v = 1 := by
        rw [← hesid]
        exact idRank_entity hid htc
      rw [hu, hvr]
      omega
  intro x hx
  have hmono : ∀ a b, Relation.TransGen
      (fun u v =>
        v ∈ (lookupA ((generate_strategy specs refine supply).dependencies) u).getD [])
      a b → idRank b < idRank a := by
    intro a b hab
    induction hab with
    | single h => exact hedge _ _ h
    | tail hab h ih => exact lt_trans (hedge _ _ h) ih
  exact absurd (hmono x x hx) (lt_irrefl _)

theorem C1_map_acyclicity_witness :
    RefineOk unavailableRefine ∧
    (∀ sp ∈ [sArch, mk9 "A"], sp.dependencies = []) ∧
    (∀ sp ∈ [sArch, mk9 "A"], sp.entity_type ∈
      (["architecture", "pattern", "class", "function", "module"] : List String)) ∧
    ∀ x, ¬ Relation.TransGen
      (fun u v =>
        v ∈ (lookupA ((generate_strategy [sArch, mk9 "A"] unavailableRefine sup0).dependencies)
          u).getD [])
      x x :=
  ⟨unavailableRefine_ok, by decide, by decide,
    C1_map_acyclicity [sArch, mk9 "A"] unavailableRefine sup0 unavailableRefine_ok
      (by decide) (by decide)⟩

/-- C2 counterexample: on the mutual-dependency input, `class_A_0`'s entry in
the returned dependency map contains `class_B_1`, yet `class_B_1` does not
occur strictly before `class_A_0` in the returned `execution_order` (the SCC
fallback emits `class_A_0` first). -/
theorem C2_counterexample :
    "class_B_1" ∈ (lookupA (generate_strategy [sA, sB] unavailableRefine sup0).dependencies
      "class_A_0").getD [] ∧
    ¬ (List.indexOf "class_B_1"
        ((generate_strategy [sA, sB] unavailableRefine sup0).execution_order) <
       List.indexOf "class_A_0"
        ((generate_strategy [sA, sB] unavailableRefine sup0).execution_order)) := by decide

/-- C2 amended: topological validity holds exactly on the acyclic-graph
branch: whenever the step graph built from the returned dependency map passes
the DAG check, every dependency `(a, b)` (with `a` in `b`'s map entry) places
`a` strictly before `b` in the returned `execution_order`. When the check
fails, the SCC fallback can violate the ordering (see the counterexample). -/
theorem C2_topological_validity (specs : List Specification)
    (refine : List Specification → List (String × List Specification))
    (supply : Nat → String)
    (hdag : isDAGb (buildStepGraph (allSteps specs refine supply)
      (allDeps specs refine supply)) = true)
    (a b : String) (l : List String)
    (hb : (b, l) ∈ (generate_strategy specs refine supply).dependencies) (ha : a ∈ l) :
    List.indexOf a ((generate_strategy specs refine supply).execution_order) <
    List.indexOf b ((generate_strategy specs refine supply).execution_order) := by
  rw [strategy_deps_eq] at hb
  rw [strategy_order_eq]
  unfold calculate_execution_order
  rw [if_pos hdag]
  have hedge := buildStepGraph_edge (allSteps specs refine supply)
    (allDeps specs refine supply) b l a hb ha
  refine topoSort_edge_lt _ (buildStepGraph_WF _ _) ?_ hedge
  unfold isDAGb at hdag
  simpa using hdag

theorem C2_topological_validity_witness :
    isDAGb (buildStepGraph (allSteps [mk9 "A", sB] unavailableRefine sup0)
      (allDeps [mk9 "A", sB] unavailableRefine sup0)) = true ∧
    ("class_B_1", ["class_A_0"]) ∈
      (generate_strategy [mk9 "A", sB] unavailableRefine sup0).dependencies ∧
    "class_A_0" ∈ ["class_A_0"] ∧
    List.indexOf "class_A_0"
      ((generate_strategy [mk9 "A", sB] unavailableRefine sup0).execution_order) <
    List.indexOf "class_B_1"
      ((generate_strategy [mk9 "A", sB] unavailableRefine sup0).execution_order) :=
  ⟨by decide, by decide, by decide,
    C2_topological_validity [mk9 "A", sB] unavailableRefine sup0 (by decide)
      "class_A_0" "class_B_1" ["class_A_0"] (by decide) (by decide)⟩

/-! ## Keys untouched by the dependency phases -/

/-- The empty-list initialisation maps every step id to `[]`. -/
theorem init_lookup (steps : List ImplementationStep) (st : ImplementationStep)
    (hst : st ∈ steps) :
    lookupA (steps.foldl (fun d s => insertA d s.id ([] : List String)) []) st.id =
      some [] := by
  suffices h : ∀ (l : List ImplementationStep) (d : List (String × List String)),
      (st ∈ l ∨ lookupA d st.id = some []) →
      lookupA (l.foldl (fun d s => insertA d s.id ([] : List String)) d) st.id = some [] by
    exact h steps [] (Or.inl hst)
  intro l
  induction l with
  | nil =>
    intro d h
    rcases h with h | h
    · simp at h
    · simpa using h
  | cons s t ih =>
    intro d h
    simp only [List.foldl_cons]
    rcases h with h | h
    · rcases List.mem_cons.mp h with h | h
      · subst h
        refine ih _ (Or.inr ?_)
        rw [lookupA_insertA]
        simp
      · exact ih _ (Or.inl h)
    · refine ih _ (Or.inr ?_)
      rw [lookupA_insertA]
      by_cases he : s.id = st.id
      · rw [if_pos he]
      · rw [if_neg he]
        exact h

/-- The gating phase never writes to an architecture-prefixed key. -/
theorem gatingPhase_untouched (steps arch_steps : List ImplementationStep)
    (d : List (String × List String)) (k : String) (hk : hasArchPref k = true) :
    lookupA (gatingPhase steps arch_steps d) k = lookupA d k := by
  unfold gatingPhase
  refine foldl_preserve
    (fun (d2 : List (String × List String)) => lookupA d2 k = lookupA d k) _ _ _ rfl ?_
  intro d2 s _ h2
  by_cases hp : hasArchPref s.id
  · rw [if_pos hp]
    exact h2
  · rw [if_neg hp]
    refine foldl_preserve
      (fun (d3 : List (String × List String)) => lookupA d3 k = lookupA d k) _ _ _ h2 ?_
    intro d3 a _ h3
    have hne : s.id ≠ k := by
      intro h
      rw [h] at hp
      exact hp hk
    rw [lookupA_pushA_ne _ _ _ _ hne]
    exact h3

/-- The pattern phase never writes to a key without the `pattern_` prefix. -/
theorem patternPhase_untouched (estbt : List (String × List ImplementationStep))
    (steps : List ImplementationStep) (d : List (String × List String)) (k : String)
    (hk : strStarts k "pattern_" = false) :
    lookupA (patternPhase estbt steps d) k = lookupA d k := by
  unfold patternPhase
  refine foldl_preserve
    (fun (d2 : List (String × List String)) => lookupA d2 k = lookupA d k) _ _ _ rfl ?_
  intro d2 ps hps h2
  have hpred : strStarts ps.id "pattern_" = true := (List.mem_filter.mp hps).2
  have hne : ps.id ≠ k := by
    intro h
    rw [h] at hpred
    rw [hpred] at hk
    cases hk
  refine foldl_preserve
    (fun (d3 : List (String × List String)) => lookupA d3 k = lookupA d k) _ _ _ h2 ?_
  intro d3 tp _ h3
  refine foldl_preserve
    (fun (d4 : List (String × List String)) => lookupA d4 k = lookupA d k) _ _ _ h3 ?_
  intro d4 es _ h4
  split
  · exact h4
  · rw [lookupA_pushA_ne _ _ _ _ hne]
    exact h4

/-- The declared-dependency phase never writes to a key that no
specification's resolved step carries. -/
theorem entityPhase_untouched (sbn : List (String × Specification))
    (sbe : List ((String × String) × ImplementationStep))
    (specs : List Specification) (d : List (String × List String)) (k : String)
    (hinert : ∀ sp ∈ specs, ∀ estep,
      lookupA sbe (sp.entity_type, sp.entity_name) = some estep → estep.id ≠ k) :
    lookupA (entityPhase sbn sbe specs d) k = lookupA d k := by
  unfold entityPhase
  refine foldl_preserve
    (fun (d2 : List (String × List String)) => lookupA d2 k = lookupA d k) _ _ _ rfl ?_
  intro d2 sp hsp h2
  split
  · exact h2
  · next estep heq =>
    refine foldl_preserve
      (fun (d3 : List (String × List String)) => lookupA d3 k = lookupA d k) _ _ _ h2 ?_
    intro d3 dn _ h3
    split
    · exact h3
    · split
      · exact h3
      · split
        · exact h3
        · rw [lookupA_pushA_ne _ _ _ _ (hinert sp hsp estep heq)]
          exact h3

/-- C10 counterexample: the dependency-map entry of an architecture-derived
step need not be empty: a specification typed `arch` and named `components`
resolves (via the id parsing `parts[0]`/`parts[1:-1]`) to the architecture
Components step `arch_components_1`, whose entry then receives the declared
dependency `class_X_3`. -/
theorem C10_counterexample :
    (∃ st ∈ (generate_strategy c10 unavailableRefine sup0).steps,
      st.id = "arch_components_1" ∧
      st.description = "Implement core architectural components for Arch") ∧
    lookupA (generate_strategy c10 unavailableRefine sup0).dependencies "arch_components_1" =
      some ["class_X_3"] := by decide

/-- C10 amended: when the uuid draws contain no underscore and no
specification carries the entity type `arch`, the dependency-map entry of
every architecture-derived step (each Setup and each Components step) is the
empty list — in particular the Components step's synthesized dependency on
its own Setup step never reaches the returned map. -/
theorem C10_arch_entries_empty (specs : List Specification)
    (refine : List Specification → List (String × List Specification))
    (supply : Nat → String)
    (hsup : ∀ i, '_' ∉ (supply i).toList)
    (hNoArch : ∀ sp ∈ specs, sp.entity_type ≠ "arch") :
    ∀ st ∈ (archPart specs supply).1,
      lookupA ((generate_strategy specs refine supply).dependencies) st.id = some [] := by
  intro st hst
  rw [strategy_deps_eq]
  have hshape : ∃ i, st.id = "setup_" ++ supply i ∨
      st.id = "arch_components_" ++ supply i := by
    unfold archPart at hst
    cases hl : lookupA (specsByType specs) "architecture" with
    | none =>
      rw [hl] at hst
      simp at hst
    | some aspecs =>
      rw [hl] at hst
      exact arch_steps_shape supply aspecs 0 st hst
  obtain ⟨i, hid⟩ := hshape
  have hpref : hasArchPref st.id = true := by
    rcases hid with h | h
    · rw [h]
      exact hasArchPref_setup _
    · rw [h]
      exact hasArchPref_comp _
  have hmem : st ∈ allSteps specs refine supply := by
    unfold allSteps
    simp only [List.mem_append]
    exact Or.inl (Or.inl hst)
  have hpathead : strStarts st.id "pattern_" = false := by
    rcases hid with h | h
    · have hh : st.id.toList = 's' :: ("etup_".toList ++ (supply i).toList) := by
        rw [h]
        exact toList_head_concat _ _ 's' _ rfl
      exact patternStart_false_of_head hh (by decide)
    · have hh : st.id.toList = 'a' :: ("rch_components_".toList ++ (supply i).toList) := by
        rw [h]
        exact toList_head_concat _ _ 'a' _ rfl
      exact patternStart_false_of_head hh (by decide)
  unfold allDeps establish_step_dependencies
  dsimp only
  rw [patternPhase_untouched _ _ _ _ hpathead]
  rw [entityPhase_untouched _ _ _ _ _ ?hinert]
  case hinert =>
    intro sp hsp estep hlook heq
    obtain ⟨hparse, _⟩ := stepByEntity_lookup _ _ _ hlook
    rw [heq] at hparse
    rcases hid with h | h
    · rw [h, parseKey_setup _ (hsup i)] at hparse
      cases hparse
    · rw [h, parseKey_comp _ (hsup i)] at hparse
      have : "arch" = sp.entity_type := congrArg Prod.fst (Option.some.inj hparse)
      exact hNoArch sp hsp this.symm
  by_cases hae : ((allSteps specs refine supply).filter (fun s => hasArchPref s.id)).isEmpty
  · rw [if_pos hae]
    exact init_lookup _ st hmem
  · rw [if_neg hae]
    rw [gatingPhase_untouched _ _ _ _ hpref]
    exact init_lookup _ st hmem

theorem C10_arch_entries_empty_witness :
    (∀ i, '_' ∉ (supU i).toList) ∧
    (∀ sp ∈ [sArch, mk9 "A"], sp.entity_type ≠ "arch") ∧
    ∀ st ∈ (archPart [sArch, mk9 "A"] supU).1,
      lookupA ((generate_strategy [sArch, mk9 "A"] unavailableRefine supU).dependencies)
        st.id = some [] :=
  ⟨fun i => (by decide : ('_' ∉ ("u" : String).toList)), by decide,
    C10_arch_entries_empty [sArch, mk9 "A"] unavailableRefine supU
      (fun i => (by decide : ('_' ∉ ("u" : String).toList))) (by decide)⟩

/-! ## Cycle finding and cycle breaking: verification -/

/-- A forward chain yields an edge for every consecutive pair. -/
theorem chain'_zip_edge (g : NxGraph String) :
    ∀ (c : List String), List.Chain' (fun a b => g.Edge a b) c →
      ∀ e ∈ c.zip c.tail, g.Edge e.1 e.2 := by
  intro c
  induction c with
  | nil => intro _ e he; simp at he
  | cons x t ih =>
    intro hch e he
    cases t with
    | nil => simp at he
    | cons y t2 =>
      obtain ⟨hr, hch2⟩ := List.chain'_cons.mp hch
      simp only [List.tail_cons, List.zip_cons_cons, List.mem_cons] at he
      rcases he with he | he
      · subst he
        exact hr
      · exact ih hch2 e he

/-- `pickPred` picks an in-residual predecessor when one exists. -/
theorem pickPred_spec (g : NxGraph String) (R : List String) (v : String)
    (h : ∃ u ∈ R, g.Edge u v) :
    pickPred g R v ∈ R ∧ g.Edge (pickPred g R v) v := by
  unfold pickPred
  cases hf : R.find? (fun u => decide (g.Edge u v)) with
  | none =>
    obtain ⟨u, hu, hedge⟩ := h
    have := List.find?_eq_none.mp hf u hu
    simp at this
    exact absurd hedge this
  | some u =>
    simp only [Option.getD_some]
    refine ⟨List.mem_of_find?_eq_some hf, ?_⟩
    have := List.find?_some hf
    simpa using this

/-- The backwards walk terminates with a genuine cycle slice: at least two
nodes, consecutively edge-connected. -/
theorem cycleWalk_spec (g : NxGraph String) (R : List String)
    (hres : ∀ v ∈ R, ∃ u ∈ R, g.Edge u v)
    (hns : ∀ v ∈ R, ¬ g.Edge v v) :
    ∀ (n : Nat) (v : String) (seen : List String),
      v ∈ R → (∀ x ∈ seen, x ∈ R) → seen.Nodup →
      List.Chain' (fun x y => g.Edge y x) (seen ++ [v]) →
      R.length + 1 ≤ n + seen.length →
      ∃ c, cycleWalk g R n v seen = some c ∧ 2 ≤ c.length ∧
        List.Chain' (fun a b => g.Edge a b) c := by
  intro n
  induction n with
  | zero =>
    intro v seen hv hseen hnd hch hfuel
    have hle : seen.length ≤ R.length := (List.subperm_of_subset hnd hseen).length_le
    omega
  | succ n ih =>
    intro v seen hv hseen hnd hch hfuel
    by_cases hvs : v ∈ seen
    · have hj : seen.indexOf v < seen.length := List.indexOf_lt_length.mpr hvs
      have hdropc : seen.drop (seen.indexOf v) =
          v :: seen.drop (seen.indexOf v + 1) := by
        rw [List.drop_eq_getElem_cons hj, List.getElem_indexOf]
      have hdec : seen ++ [v] = seen.take (seen.indexOf v) ++
          (seen.drop (seen.indexOf v) ++ [v]) := by
        rw [← List.append_assoc, List.take_append_drop]
      have hch2 : List.Chain' (fun x y => g.Edge y x)
          (seen.drop (seen.indexOf v) ++ [v]) := by
        rw [hdec] at hch
        exact (List.chain'_append.mp hch).2.1
      have hrest : seen.drop (seen.indexOf v + 1) ≠ [] := by
        intro hnil
        rw [hdropc, hnil] at hch2
        have := (List.chain'_cons.mp hch2).1
        exact hns v hv this
      refine ⟨(seen.drop (seen.indexOf v)).reverse, ?_, ?_, ?_⟩
      · conv_lhs => unfold cycleWalk
        rw [if_pos hvs]
      · rw [List.length_reverse, hdropc]
        cases hr : seen.drop (seen.indexOf v + 1) with
        | nil => exact absurd hr hrest
        | cons a t => simp
      · rw [List.chain'_reverse]
        have := (List.chain'_append.mp hch2).1
        exact this.imp (fun a b h => h)
    · obtain ⟨hpmem, hpedge⟩ := pickPred_spec g R v (hres v hv)
      have hstep : cycleWalk g R (n + 1) v seen =
          cycleWalk g R n (pickPred g R v) (seen ++ [v]) := by
        conv_lhs => unfold cycleWalk
        rw [if_neg hvs]
      rw [hstep]
      refine ih (pickPred g R v) (seen ++ [v]) hpmem ?_ ?_ ?_ ?_
      · intro x hx
        rcases List.mem_append.mp hx with hx | hx
        · exact hseen x hx
        · simp at hx
          subst hx
          exact hv
      · rw [List.nodup_append]
        exact ⟨hnd, List.nodup_singleton v, by
          intro a ha hb
          simp at hb
          subst hb
          exact hvs ha⟩
      · rw [List.chain'_append]
        refine ⟨hch, List.chain'_singleton _, ?_⟩
        intro x hx y hy
        simp only [List.head?_cons, Option.mem_def, Option.some.injEq] at hy
        subst hy
        have hlast : (seen ++ [v]).getLast? = some v := by
          simp [List.getLast?_append]
        rw [Option.mem_def, hlast] at hx
        injection hx with hx
        subst hx
        exact hpedge
      · simp only [List.length_append, List.length_singleton]
        omega

/-- When the DAG check fails on a well-formed self-loop-free graph,
`findCycle` returns a genuine cycle slice: at least two nodes, every
consecutive pair an edge of the graph. -/
theorem findCycle_spec (g : NxGraph String) (hwf : g.WF)
    (hns : ∀ v ∈ g.nodes, ¬ g.Edge v v) (hnd : isDAGb g = false) :
    ∃ c, findCycle g = some c ∧ 2 ≤ c.length ∧ ∀ e ∈ edgePairs c, g.Edge e.1 e.2 := by
  have hlt : (topoSort g).length < g.nodes.length := by
    have hle := topoSort_length_le g
    unfold isDAGb at hnd
    simp only [decide_eq_false_iff_not] at hnd
    omega
  have hstuck := topoSort_stuck g hlt
  have hRmem : ∀ v, v ∈ g.nodes.filter (fun v => decide (v ∉ topoSort g)) ↔
      v ∈ g.nodes ∧ v ∉ topoSort g := by
    intro v
    simp [List.mem_filter]
  have hres : ∀ v ∈ g.nodes.filter (fun v => decide (v ∉ topoSort g)),
      ∃ u ∈ g.nodes.filter (fun v => decide (v ∉ topoSort g)), g.Edge u v := by
    intro v hv
    obtain ⟨hvn, hvo⟩ := (hRmem v).mp hv
    obtain ⟨u, hu, huo⟩ := topoReady_none hstuck v hvn hvo
    obtain ⟨hun, hue⟩ := (mem_preds_iff g u v).mp hu
    exact ⟨u, (hRmem u).mpr ⟨hun, huo⟩, hue⟩
  have hns2 : ∀ v ∈ g.nodes.filter (fun v => decide (v ∉ topoSort g)), ¬ g.Edge v v := by
    intro v hv
    exact hns v ((hRmem v).mp hv).1
  have hne : g.nodes.filter (fun v => decide (v ∉ topoSort g)) ≠ [] := by
    intro hnil
    have hsub : ∀ v ∈ g.nodes, v ∈ topoSort g := by
      intro v hv
      by_contra hc
      have : v ∈ g.nodes.filter (fun v => decide (v ∉ topoSort g)) :=
        (hRmem v).mpr ⟨hv, hc⟩
      rw [hnil] at this
      simp at this
    have := (List.subperm_of_subset hwf.1 hsub).length_le
    omega
  unfold findCycle
  dsimp only
  cases hR : g.nodes.filter (fun v => decide (v ∉ topoSort g)) with
  | nil => exact absurd hR hne
  | cons r rest =>
    rw [hR] at hres hns2
    obtain ⟨c, hcw, hlen, hch⟩ := cycleWalk_spec g (r :: rest) hres hns2
      ((r :: rest).length + 1) r []
      (List.mem_cons_self _ _) (by simp) List.nodup_nil
      (by simp) (by simp)
    exact ⟨c, hcw, hlen, fun e he => chain'_zip_edge g c hch e he⟩

/-- The picked minimum-strength pair is one of the given pairs. -/
theorem minByStrength_mem (str : List ((String × String) × Rat))
    (l : List (String × String)) (e : String × String)
    (h : minByStrength str l = some e) : e ∈ l := by
  cases l with
  | nil => cases h
  | cons a rest =>
    unfold minByStrength at h
    injection h with h
    subst h
    refine foldl_preserve (fun (best : String × String) => best ∈ a :: rest) _ _ _
      (by simp) ?_
    intro best e2 he2 hbest
    split
    · simp [he2]
    · exact hbest

theorem succs_removeEdge (g : NxGraph String) (u v a : String) :
    (g.removeEdge u v).succs a =
      if u = a then (g.succs u).erase v else g.succs a := by
  unfold NxGraph.removeEdge NxGraph.succs
  simp only
  rw [lookupA_insertA]
  by_cases h : u = a
  · rw [if_pos h, if_pos h]
    rfl
  · rw [if_neg h, if_neg h]

theorem Edge_removeEdge_imp (g : NxGraph String) (u v a b : String)
    (h : (g.removeEdge u v).Edge a b) : g.Edge a b := by
  unfold NxGraph.Edge at *
  rw [succs_removeEdge] at h
  by_cases hu : u = a
  · rw [if_pos hu] at h
    subst hu
    exact List.mem_of_mem_erase h
  · rw [if_neg hu] at h
    exact h

theorem edgeCount_removeEdge_lt (g : NxGraph String) (u v : String)
    (hnd : g.nodes.Nodup) (hu : u ∈ g.nodes) (hedge : g.Edge u v) :
    (g.removeEdge u v).edgeCount < g.edgeCount := by
  obtain ⟨l1, l2, hdec⟩ := List.append_of_mem hu
  have hu1 : u ∉ l1 ∧ u ∉ l2 := by
    rw [hdec] at hnd
    rw [List.nodup_append] at hnd
    constructor
    · intro hc
      exact hnd.2.2 hc (by simp)
    · have := hnd.2.1
      rw [List.nodup_cons] at this
      exact this.1
  have hnodes : (g.removeEdge u v).nodes = g.nodes := rfl
  unfold NxGraph.edgeCount
  rw [hnodes, hdec]
  simp only [List.map_append, List.map_cons, List.sum_append, List.sum_cons]
  have hmap1 : l1.map (fun w => ((g.removeEdge u v).succs w).length) =
      l1.map (fun w => (g.succs w).length) := by
    apply List.map_congr_left
    intro w hw
    rw [succs_removeEdge, if_neg (by intro h; subst h; exact hu1.1 hw)]
  have hmap2 : l2.map (fun w => ((g.removeEdge u v).succs w).length) =
      l2.map (fun w => (g.succs w).length) := by
    apply List.map_congr_left
    intro w hw
    rw [succs_removeEdge, if_neg (by intro h; subst h; exact hu1.2 hw)]
  have hmid : ((g.removeEdge u v).succs u).length < (g.succs u).length := by
    rw [succs_removeEdge, if_pos rfl]
    have hv : v ∈ g.succs u := hedge
    rw [List.length_erase_of_mem hv]
    have : 0 < (g.succs u).length := List.length_pos_of_mem hv
    omega
  rw [hmap1, hmap2]
  omega

/-- The fuelled cycle-breaking loop succeeds with an acyclic result on every
well-formed self-loop-free graph, given fuel above the edge count. -/
theorem breakCyclesGo_spec (str : List ((String × String) × Rat)) :
    ∀ (n : Nat) (g : NxGraph String), g.WF → (∀ v ∈ g.nodes, ¬ g.Edge v v) →
      g.edgeCount < n →
      ∃ g2, breakCyclesGo str n g = .ok g2 ∧ g2.Acyclic ∧ g2.nodes = g.nodes := by
  intro n
  induction n with
  | zero =>
    intro g _ _ h
    exact absurd h (Nat.not_lt_zero _)
  | succ n ih =>
    intro g hwf hns hfuel
    by_cases hdag : isDAGb g
    · have hstep : breakCyclesGo str (n + 1) g = .ok g := by
        conv_lhs => unfold breakCyclesGo
        rw [if_pos hdag]
      exact ⟨g, hstep, (isDAGb_iff_acyclic g hwf).mp hdag, rfl⟩
    · have hnd : isDAGb g = false := by
        simpa using hdag
      obtain ⟨c, hfc, hlen, hedges⟩ := findCycle_spec g hwf hns hnd
      have hpairs : edgePairs c ≠ [] := by
        intro hnil
        have h1 := List.length_zip c c.tail
        unfold edgePairs at hnil
        rw [hnil] at h1
        have h2 := List.length_tail c
        simp only [List.length_nil] at h1
        omega
      obtain ⟨e, hmin⟩ : ∃ e, minByStrength str (edgePairs c) = some e := by
        cases hep : edgePairs c with
        | nil => exact absurd hep hpairs
        | cons a r => exact ⟨_, rfl⟩
      have hemem : e ∈ edgePairs c := minByStrength_mem str _ e hmin
      have hedge : g.Edge e.1 e.2 := hedges e hemem
      have hstep : breakCyclesGo str (n + 1) g =
          breakCyclesGo str n (g.removeEdge e.1 e.2) := by
        conv_lhs => unfold breakCyclesGo
        rw [if_neg hdag, hfc]
        dsimp only
        rw [hmin]
      rw [hstep]
      have hwf' : (g.removeEdge e.1 e.2).WF :=
        WF_removeEdge hwf e.2 (hwf.edge_mem_left hedge)
      have hns' : ∀ v ∈ (g.removeEdge e.1 e.2).nodes,
          ¬ (g.removeEdge e.1 e.2).Edge v v := by
        intro v hv h
        exact hns v hv (Edge_removeEdge_imp _ _ _ _ _ h)
      have hcnt := edgeCount_removeEdge_lt g e.1 e.2 hwf.1
        (hwf.edge_mem_left hedge) hedge
      obtain ⟨g2, h1, h2, h3⟩ := ih _ hwf' hns' (by omega)
      exact ⟨g2, h1, h2, h3⟩

/-- C6 counterexample: on the (finite, cyclic) self-loop graph the repair
loop finds the one-node cycle `[a]`, `zip(cycle, cycle[1:])` is empty, and
`min` over the empty pair list raises `ValueError`: the procedure neither
terminates normally nor returns an acyclic graph. -/
theorem C6_counterexample :
    isDAGb gSelf = false ∧
    break_cycles gSelf [] = .error "ValueError: min() arg is an empty sequence" :=
  ⟨by decide, rfl⟩

/-- C6 amended: on every finite well-formed graph WITHOUT self-loops the
repair loop does terminate and return an acyclic graph (with the node set
preserved), repeatedly removing the minimum-strength consecutive edge of a
found cycle; with a self-loop it instead raises `ValueError` because the
consecutive-pair list of a one-node cycle is empty (see the
counterexample). -/
theorem C6_cycle_repair (g : NxGraph String) (str : List ((String × String) × Rat))
    (hwf : g.WF) (hns : ∀ v ∈ g.nodes, ¬ g.Edge v v) :
    ∃ g2, break_cycles g str = .ok g2 ∧ g2.Acyclic ∧ g2.nodes = g.nodes := by
  unfold break_cycles
  exact breakCyclesGo_spec str (g.edgeCount + 1) g hwf hns (by omega)

theorem C6_cycle_repair_witness :
    gTwo.WF ∧ (∀ v ∈ gTwo.nodes, ¬ gTwo.Edge v v) ∧
    ∃ g2, break_cycles gTwo [] = .ok g2 ∧ g2.Acyclic ∧ g2.nodes = gTwo.nodes :=
  ⟨⟨by decide, by decide⟩, by decide,
    C6_cycle_repair gTwo [] ⟨by decide, by decide⟩ (by decide)⟩

/-- `spec_by_name` stores each specification under its own name. -/
theorem sbn_sound (specs : List Specification) :
    ∀ (dn : String) (dsp : Specification),
      lookupA (specs.foldl (fun m sp => insertA m sp.entity_name sp) []) dn = some dsp →
      dsp ∈ specs ∧ dsp.entity_name = dn := by
  refine foldl_preserve
    (fun (m : List (String × Specification)) =>
      ∀ dn dsp, lookupA m dn = some dsp → dsp ∈ specs ∧ dsp.entity_name = dn)
    _ _ _ ?_ ?_
  · intro dn dsp h
    simp [lookupA] at h
  · intro m sp hsp hinv dn dsp h
    rw [lookupA_insertA] at h
    by_cases he : sp.entity_name = dn
    · rw [if_pos he] at h
      cases h
      exact ⟨hsp, he⟩
    · rw [if_neg he] at h
      exact hinv dn dsp h

/-- C8. Dangling declared dependencies are dropped silently: for a name `dn`
that is not the entity name of any specification in the set, the run still
returns a Strategy (the planner is total) and every value of every
dependency-map entry is attributable to the architecture gating, the pattern
phase, or a declared dependency name other than `dn` that IS present in the
set — no edge is ever created for `dn` and no entry refers to its resolved
step. -/
theorem C8_dangling_dropped (specs : List Specification)
    (refine : List Specification → List (String × List Specification))
    (supply : Nat → String) (dn : String)
    (hmiss : ∀ sp2 ∈ specs, sp2.entity_name ≠ dn) :
    ∀ k, ∀ w ∈ (lookupA ((generate_strategy specs refine supply).dependencies) k).getD [],
      (∃ a ∈ allSteps specs refine supply, a.id = w ∧ hasArchPref w = true) ∨
      (∃ tp ∈ (entityPart specs refine supply).1, ∃ es ∈ tp.2,
        (es : ImplementationStep).id = w) ∨
      (∃ sp ∈ specs, ∃ dn2 ∈ sp.dependencies, dn2 ≠ dn ∧ ∃ dsp ∈ specs,
        dsp.entity_name = dn2 ∧
        ∃ dstep, lookupA (stepByEntity (allSteps specs refine supply))
          (dsp.entity_type, dn2) = some dstep ∧ dstep.id = w) := by
  intro k w hw
  rw [strategy_deps_eq] at hw
  unfold allDeps establish_step_dependencies at hw
  dsimp only at hw
  rcases patternPhase_char _ _ _ k w hw with hw1 | ⟨_, tp, htp, es, hes, hid⟩
  · rcases entityPhase_char _ _ _ _ k w hw1 with hw2 |
      ⟨sp, hsp, estep, _, _, dn2, hdn2, dsp, dstep, hsbn, hsbe, hid⟩
    · by_cases hae : ((allSteps specs refine supply).filter
          (fun s => hasArchPref s.id)).isEmpty
      · rw [if_pos hae] at hw2
        exact absurd hw2 (init_no_mem _ k w)
      · rw [if_neg hae] at hw2
        rcases gatingPhase_char _ _ _ k w hw2 with hw3 | ⟨_, a, ha, haid⟩
        · exact absurd hw3 (init_no_mem _ k w)
        · obtain ⟨ham, hap⟩ := List.mem_filter.mp ha
          exact Or.inl ⟨a, ham, haid, by rw [← haid]; exact hap⟩
    · obtain ⟨hdspmem, hdspname⟩ := sbn_sound specs dn2 dsp hsbn
      refine Or.inr (Or.inr ⟨sp, hsp, dn2, hdn2, ?_, dsp, hdspmem, hdspname, dstep, hsbe, hid⟩)
      intro he
      exact hmiss dsp hdspmem (by rw [hdspname, he])
  · exact Or.inr (Or.inl ⟨tp, htp, es, hes, hid⟩)

theorem C8_dangling_dropped_witness :
    (∀ sp2 ∈ [sA], sp2.entity_name ≠ "B") ∧
    ∀ k, ∀ w ∈ (lookupA ((generate_strategy [sA] unavailableRefine sup0).dependencies)
        k).getD [],
      (∃ a ∈ allSteps [sA] unavailableRefine sup0, a.id = w ∧ hasArchPref w = true) ∨
      (∃ tp ∈ (entityPart [sA] unavailableRefine sup0).1, ∃ es ∈ tp.2,
        (es : ImplementationStep).id = w) ∨
      (∃ sp ∈ [sA], ∃ dn2 ∈ sp.dependencies, dn2 ≠ "B" ∧ ∃ dsp ∈ [sA],
        dsp.entity_name = dn2 ∧
        ∃ dstep, lookupA (stepByEntity (allSteps [sA] unavailableRefine sup0))
          (dsp.entity_type, dn2) = some dstep ∧ dstep.id = w) :=
  ⟨by decide, C8_dangling_dropped [sA] unavailableRefine sup0 "B" (by decide)⟩

theorem refineC3_ok : RefineOk refineC3 := by
  intro specs p hp sp hsp
  simp only [refineC3, List.mem_singleton] at hp
  subst hp
  exact List.take_subset _ _ hsp

/-- C3 counterexample: with a faithful collaborator available whose response
reuses the name of an existing heuristic group, `groups[group_name] = specs`
replaces that group and silently drops its members from every group: on six
no-affinity specifications plus `foobar_x`/`foobar_y`, the run synthesizes
only the common aggregate step and `a1`'s individual step — `foobar_x`
contributes to no synthesized step, refuting completeness as claimed for
every input. -/
theorem C3_counterexample :
    RefineOk refineC3 ∧
    mk9 "foobar_x" ∈ specsC3 ∧
    (generate_strategy specsC3 refineC3 sup0).steps.map (fun st => st.description) =
      ["Implement class group: common", "Implement class: a1"] ∧
    ∀ st ∈ (generate_strategy specsC3 refineC3 sup0).steps,
      ¬ contributesTo specsC3 refineC3 (mk9 "foobar_x") st :=
  ⟨refineC3_ok, by decide, by decide, by decide⟩

/-- C5 counterexample: the source gates by id prefix, not by provenance: a
specification whose entity type is the literal string `setup` yields an
entity implementation step (`Implement setup: y` — not a Setup step) whose id
`setup_y_2` starts with `setup_`, so the gating loop skips it and its
dependency-map entry stays empty, missing both of the architecture
specification's steps. -/
theorem C5_counterexample :
    sArch ∈ [sArch, sSetupY] ∧ sArch.entity_type = "architecture" ∧
    (∃ st ∈ (generate_strategy [sArch, sSetupY] unavailableRefine sup0).steps,
      st.id = "setup_y_2" ∧ st.description = "Implement setup: y") ∧
    lookupA (generate_strategy [sArch, sSetupY] unavailableRefine sup0).dependencies
      "setup_y_2" = some [] := by decide
